import Mathlib

/-!
# protoc-gen-go-http: symbol registry and name resolution

A shallow embedding of `descriptor/registry.go`, `descriptor/types.go`,
`generator/generator.go` and the router constructor of
`example/pb/example.pb.http.router.go`.

* A Go string is a sequence of bytes.  It is modelled as a list (`GoString`)
  whose elements stand for the bytes, so that a text of ASCII characters is
  the list of its characters; indices and slice bounds count bytes, as in Go.
  The one library function of the program that decodes characters,
  `strings.ToLower`, is modelled in full on strings of ASCII bytes and hands
  every other string to `strings.Map(unicode.ToLower, s)`, which is a
  parameter of the model.
* Go maps are modelled as association lists with unique keys (`GoMap`);
  `GoMap.set` overwrites the entry of an existing key and appends a new one
  otherwise.
* Errors are values of the inductive type `Err`; a Go function returning
  `(T, error)` becomes a function into `Except Err T`, and a method that
  mutates the registry returns the new registry (with the error, if any).
* Pointers: a `*File` reached from a message, an enum or a service is
  replaced by the part of the file that is fixed at creation (`FileInfo`);
  the files of the registry are updated in `r.files` under their key.
* The alias loop of `loadFile` has no bound in the source.  It is run with an
  explicit `fuel`; `loadFile`, `loadFiles` and `Load` return `none` when the
  fuel runs out, and `Registry.loadFiles_terminates` shows that they return
  once the fuel is at least the number of reserved aliases plus the number
  of files.

* The generator: a parsed template is taken as the function from the
  template input to the text it writes, and `format.Source` as a function
  that returns the formatted text or an error (`Library`).  The panic of a
  slice expression is an outcome of its own (`GenError.sliceBoundsPanic`).
* The router: a handler function is a value of `Handler`, the nil function
  is `none`, and a nil map is `none`.

The definitions come first: the Go library functions, the descriptor protos,
`types.go`, `registry.go`, the generator, the router, then the notions the
statements are written with.  The properties follow.
-/

namespace Descriptor

/-! ## Go strings and the standard-library functions used by the registry -/

/-- Go strings, as sequences of bytes: a byte is written as the character with
that code, so a text of ASCII characters is written as itself and a character
outside ASCII as the characters of the bytes of its encoding.  Indices and
slice bounds count bytes. -/
abbrev GoString := List Char

/-- Go function `strings.HasPrefix(s, p)`. -/
def stringsHasPrefix : GoString → GoString → Bool
  | _, [] => true
  | [], _ :: _ => false
  | c :: s, d :: p => c == d && stringsHasPrefix s p

/-- Go function `strings.Split(s, sep)` for a one-character separator: the pieces of `s`
between the occurrences of `sep` (always at least one piece). -/
def stringsSplit (sep : Char) : GoString → List GoString
  | [] => [[]]
  | c :: s =>
    if c = sep then [] :: stringsSplit sep s
    else
      match stringsSplit sep s with
      | [] => [[c]]
      | p :: ps => (c :: p) :: ps

/-- Go function `strings.Join(elems, sep)`. -/
def stringsJoin : List GoString → GoString → GoString
  | [], _ => []
  | [e], _ => e
  | e :: es, sep => e ++ sep ++ stringsJoin es sep

/-- Go function `strings.IndexByte(s, c)`: the index of the first `c` in `s`, or `-1`. -/
def stringsIndexByte (c : Char) : GoString → Int
  | [] => -1
  | d :: s =>
    if d = c then 0
    else
      let i := stringsIndexByte c s
      if i < 0 then -1 else i + 1

/-- Go function `strings.LastIndex(s, sep)` for a one-character separator: the index of
the last `c` in `s`, or `-1`. -/
def stringsLastIndex (c : Char) : GoString → Int
  | [] => -1
  | d :: s =>
    let i := stringsLastIndex c s
    if 0 ≤ i then i + 1
    else if d = c then 0
    else -1

/-- Go function `strings.Replace(s, old, new, -1)` for one-character `old` and `new`. -/
def stringsReplaceAll (old new : Char) (s : GoString) : GoString :=
  s.map (fun c => if c = old then new else c)

/-- Go function `strings.TrimSuffix(s, suffix)`. -/
def stringsTrimSuffix (s suffix : GoString) : GoString :=
  if suffix.isSuffixOf s then s.take (s.length - suffix.length) else s

/-- The slice expression `s[i:]` for an in-range index. -/
def sliceFrom (s : GoString) (i : Int) : GoString := s.drop i.toNat

/-- The slice expression `s[:i]` for an in-range index. -/
def sliceTo (s : GoString) (i : Int) : GoString := s.take i.toNat

/-- One step of `path.Clean` on the stack of kept path elements (innermost
first): `.` and empty elements are dropped, `..` removes the element before
it, is dropped at the root and is kept at the front of a relative path. -/
def cleanStep (rooted : Bool) (stack : List GoString) (e : GoString) : List GoString :=
  if e = [] ∨ e = ['.'] then stack
  else if e = ['.', '.'] then
    match stack with
    | [] => if rooted then [] else [e]
    | top :: below => if top = ['.', '.'] then e :: stack else below
  else e :: stack

/-- Go function `path.Clean(p)`: the shortest path name equivalent to `p` by purely
lexical processing. -/
def pathClean (p : GoString) : GoString :=
  if p = [] then ['.']
  else
    let rooted := stringsHasPrefix p ['/']
    let kept := ((stringsSplit '/' p).foldl (cleanStep rooted) []).reverse
    let body := stringsJoin kept ['/']
    if rooted then '/' :: body
    else if body = [] then ['.'] else body

/-- Go function `path.Join(a, b)`: the non-empty elements joined with `/`, cleaned; the
empty string when both are empty. -/
def pathJoin (a b : GoString) : GoString :=
  if a = [] ∧ b = [] then []
  else pathClean (stringsJoin ([a, b].filter (fun e => e ≠ [])) ['/'])

/-- Go function `path.Dir(p)`: everything up to and including the last `/`, cleaned. -/
def pathDir (p : GoString) : GoString :=
  pathClean (sliceTo p (stringsLastIndex '/' p + 1))

/-- Go function `filepath.Base(p)` (slash-separated): the last element of `p`, after
removing trailing slashes; `.` for the empty path and `/` for a path of
slashes only. -/
def filepathBase (p : GoString) : GoString :=
  if p = [] then ['.']
  else
    let q := (p.reverse.dropWhile (fun c => c = '/')).reverse
    let b := sliceFrom q (stringsLastIndex '/' q + 1)
    if b = [] then ['/'] else b

/-- Go function `filepath.Ext(p)`: the suffix starting at the last `.` of the last
element of `p`, empty when that element has no dot. -/
def filepathExt (p : GoString) : GoString :=
  let b := sliceFrom p (stringsLastIndex '/' p + 1)
  let i := stringsLastIndex '.' b
  if 0 ≤ i then sliceFrom b i else []

/-- Decimal digits of `n`, most significant first; `fuel` bounds the number
of digits produced. -/
def decimalDigits : Nat → Nat → GoString
  | 0, _ => []
  | fuel + 1, n =>
    if n < 10 then [Nat.digitChar n]
    else decimalDigits fuel (n / 10) ++ [Nat.digitChar (n % 10)]

/-- The verb `%d` of `fmt.Sprintf` on a non-negative integer. -/
def formatDecimal (n : Nat) : GoString := decimalDigits (n + 1) n

/-! ## Go maps -/

/-- Go maps as association lists. -/
abbrev GoMap (α : Type) (β : Type) := List (α × β)

namespace GoMap

/-- The comma-ok lookup `v, ok := m[k]`. -/
def get {α β : Type} [DecidableEq α] : GoMap α β → α → Option β
  | [], _ => none
  | (k', v) :: m, k => if k' = k then some v else get m k

/-- The assignment `m[k] = v`. -/
def set {α β : Type} [DecidableEq α] : GoMap α β → α → β → GoMap α β
  | [], k, v => [(k, v)]
  | (k', v') :: m, k, v => if k' = k then (k, v) :: m else (k', v') :: set m k v

end GoMap

/-! ## Descriptor protos (the fields read by the registry and the generator) -/

/-- Errors returned by the registry. -/
inductive Err where
  /-- Text "no message found: %s". -/
  | noMessageFound (name : GoString)
  /-- Text "no enum found: %s". -/
  | noEnumFound (name : GoString)
  /-- Text "no such file: %s". -/
  | noSuchFile (name : GoString)
  /-- Text "no such file given: %s". -/
  | noSuchFileGiven (name : GoString)
  /-- Text "inconsistent package names: %s %s". -/
  | inconsistentPackageNames (targetPkg name : GoString)
  /-- Text "package name %s is already taken. Use another alias". -/
  | aliasTaken (aliasName : GoString)
  /-- The error of `proto.GetExtension`. -/
  | extensionDecode
  /-- Text "extension is %T; want an HttpRule". -/
  | extensionNotHttpRule
  deriving DecidableEq, Repr

/-- An `optional string` field read through its getter: the empty string
when the field is unset. -/
def getString (s : Option GoString) : GoString := s.getD []

/-- An `optional bool` field read through its getter. -/
def getBool (b : Option Bool) : Bool := b.getD false

structure EnumDescriptorProto where
  Name : Option GoString
  deriving DecidableEq, Repr

structure FieldDescriptorProto where
  Name : Option GoString
  TypeName : Option GoString
  deriving DecidableEq, Repr

inductive DescriptorProto where
  | mk (Name : Option GoString) (Field : List FieldDescriptorProto)
      (NestedType : List DescriptorProto) (EnumType : List EnumDescriptorProto)

def DescriptorProto.GetName : DescriptorProto → GoString
  | .mk n _ _ _ => getString n

def DescriptorProto.GetField : DescriptorProto → List FieldDescriptorProto
  | .mk _ f _ _ => f

def DescriptorProto.GetNestedType : DescriptorProto → List DescriptorProto
  | .mk _ _ n _ => n

def DescriptorProto.GetEnumType : DescriptorProto → List EnumDescriptorProto
  | .mk _ _ _ e => e

/-- The HTTP binding rule; the registry does not look inside it. -/
structure HttpRule where
  pattern : GoString
  deriving DecidableEq, Repr

/-- What the `google.api.http` extension slot of a method's options holds:
a decodable rule, bytes that `proto.GetExtension` fails to decode, or a
value of another type. -/
inductive HttpExtension where
  | rule (r : HttpRule)
  | undecodable
  | otherType
  deriving DecidableEq, Repr

structure MethodOptions where
  /-- The extension `options.E_Http`, when `proto.HasExtension` holds. -/
  Http : Option HttpExtension
  deriving DecidableEq, Repr

structure MethodDescriptorProto where
  Name : Option GoString
  InputType : Option GoString
  OutputType : Option GoString
  Options : Option MethodOptions
  ClientStreaming : Option Bool
  ServerStreaming : Option Bool
  deriving DecidableEq, Repr

structure ServiceDescriptorProto where
  Name : Option GoString
  Method : List MethodDescriptorProto
  deriving DecidableEq, Repr

structure FileOptions where
  GoPackage : Option GoString
  deriving DecidableEq, Repr

structure FileDescriptorProto where
  Name : Option GoString
  Package : Option GoString
  MessageType : List DescriptorProto
  EnumType : List EnumDescriptorProto
  Service : List ServiceDescriptorProto
  Options : Option FileOptions
  Syntax : Option GoString

/-- The getter `f.Options.GetGoPackage()`, safe on a nil `Options`. -/
def FileDescriptorProto.GetGoPackage (f : FileDescriptorProto) : GoString :=
  match f.Options with
  | none => []
  | some o => getString o.GoPackage

structure CodeGeneratorRequest where
  FileToGenerate : List GoString
  Parameter : Option GoString
  ProtoFile : List FileDescriptorProto

/-! ## types.go -/

/-- GoPackage represents a golang package. -/
structure GoPackage where
  Path : GoString
  Name : GoString
  Alias : GoString
  deriving DecidableEq, Repr

/-- The part of a `File` that messages, enums and services reach through
their `File` pointer: the descriptor and the Go package, both fixed when the
file is created. -/
structure FileInfo where
  FileDescriptorProto : FileDescriptorProto
  GoPkg : GoPackage

/-- Field wraps a field descriptor (`FieldMessage` is never assigned by the
registry). -/
structure Field where
  FieldDescriptorProto : FieldDescriptorProto
  deriving DecidableEq, Repr

/-- Message describes a protocol buffer message type. -/
structure Message where
  File : FileInfo
  Outers : List GoString
  DescriptorProto : DescriptorProto
  Fields : List Field
  Index : Nat

/-- Enum describes a protocol buffer enum type. -/
structure Enum where
  File : FileInfo
  Outers : List GoString
  EnumDescriptorProto : EnumDescriptorProto
  Index : Nat

/-- Method wraps a method descriptor with its resolved message types. -/
structure Method where
  MethodDescriptorProto : MethodDescriptorProto
  RequestType : Message
  ResponseType : Message

/-- Service wraps a service descriptor with its loaded methods. -/
structure Service where
  File : FileInfo
  ServiceDescriptorProto : ServiceDescriptorProto
  Methods : List Method

/-- File wraps a file descriptor for richer features. -/
structure File where
  FileDescriptorProto : FileDescriptorProto
  GoPkg : GoPackage
  Messages : List Message
  Enums : List Enum
  Services : List Service

/-- The view of a file that its messages, enums and services point to. -/
def File.info (f : File) : FileInfo := ⟨f.FileDescriptorProto, f.GoPkg⟩

/-- FQMN returns a fully qualified message name of this message. -/
def Message.FQMN (m : Message) : GoString :=
  let components : List GoString := [[]]
  let components :=
    match m.File.FileDescriptorProto.Package with
    | some p => components ++ [p]
    | none => components
  let components := components ++ m.Outers
  let components := components ++ [m.DescriptorProto.GetName]
  stringsJoin components ['.']

/-- FQEN returns a fully qualified enum name of this enum. -/
def Enum.FQEN (e : Enum) : GoString :=
  let components : List GoString := [[]]
  let components :=
    match e.File.FileDescriptorProto.Package with
    | some p => components ++ [p]
    | none => components
  let components := components ++ e.Outers
  let components := components ++ [getString e.EnumDescriptorProto.Name]
  stringsJoin components ['.']

/-- GoType returns a go type name for the message type, prefixed with the
package alias if the message's package is not `currentPackage`. -/
def Message.GoType (m : Message) (currentPackage : GoString) : GoString :=
  let components := m.Outers ++ [m.DescriptorProto.GetName]
  let name := stringsJoin components ['_']
  if m.File.GoPkg.Path = currentPackage then name
  else
    let pkg := if m.File.GoPkg.Alias ≠ [] then m.File.GoPkg.Alias else m.File.GoPkg.Name
    pkg ++ ['.'] ++ name

/-! ## registry.go -/

/-- Registry is a registry of information extracted from a
`CodeGeneratorRequest`. -/
structure Registry where
  /-- A mapping from fully-qualified message name to descriptor. -/
  msgs : GoMap GoString Message
  /-- A mapping from fully-qualified enum name to descriptor. -/
  enums : GoMap GoString Enum
  /-- A mapping from file path to descriptor. -/
  files : GoMap GoString File
  /-- The field `prefix`: inserted before package paths derived from file
  names. -/
  importPrefix : GoString
  /-- A user-specified mapping from file path to proto package. -/
  pkgMap : GoMap GoString GoString
  /-- A mapping from package aliases to the package paths that took them. -/
  pkgAliases : GoMap GoString GoString

/-- NewRegistry returns a new Registry. -/
def NewRegistry : Registry :=
  { msgs := [], enums := [], files := [], importPrefix := [], pkgMap := [], pkgAliases := [] }

/-- The loop `for len(components) > 0` of LookupMsg and LookupEnum over a
table, when `n` components are left (`components[:n]`): the key is the
remaining components and `name` joined with `.`; the entry under the first
key present is returned, otherwise the last component is dropped. -/
def lookupLoop {β : Type} (table : GoMap GoString β) (name : GoString)
    (components : List GoString) : Nat → Option β
  | 0 => none
  | n + 1 =>
    let fqn := stringsJoin (components.take (n + 1) ++ [name]) ['.']
    match table.get fqn with
    | some v => some v
    | none => lookupLoop table name components n

/-- The scope a relative name is resolved from: `location`, with a leading
`.` added when it has none. -/
def scopeOf (location : GoString) : GoString :=
  if stringsHasPrefix location ['.'] then location else '.' :: location

/-- LookupMsg looks up a message type by `name`.  It tries to resolve `name`
from `location` if `name` is a relative message name. -/
def Registry.LookupMsg (r : Registry) (location name : GoString) : Except Err Message :=
  if stringsHasPrefix name ['.'] then
    match r.msgs.get name with
    | none => .error (.noMessageFound name)
    | some m => .ok m
  else
    let components := stringsSplit '.' (scopeOf location)
    match lookupLoop r.msgs name components components.length with
    | some m => .ok m
    | none => .error (.noMessageFound name)

/-- LookupEnum looks up an enum type by `name`.  It tries to resolve `name`
from `location` if `name` is a relative enum name. -/
def Registry.LookupEnum (r : Registry) (location name : GoString) : Except Err Enum :=
  if stringsHasPrefix name ['.'] then
    match r.enums.get name with
    | none => .error (.noEnumFound name)
    | some e => .ok e
  else
    let components := stringsSplit '.' (scopeOf location)
    match lookupLoop r.enums name components components.length with
    | some e => .ok e
    | none => .error (.noEnumFound name)

/-- LookupFile looks up a file by name. -/
def Registry.LookupFile (r : Registry) (name : GoString) : Except Err File :=
  match r.files.get name with
  | none => .error (.noSuchFileGiven name)
  | some f => .ok f

/-- AddPkgMap adds a mapping from a .proto file to proto package name. -/
def Registry.AddPkgMap (r : Registry) (file protoPkg : GoString) : Registry :=
  { r with pkgMap := r.pkgMap.set file protoPkg }

/-- SetPrefix registers the prefix to be added to go package paths generated
from proto package names. -/
def Registry.SetPrefix (r : Registry) (pfx : GoString) : Registry :=
  { r with importPrefix := pfx }

/-- ReserveGoPackageAlias reserves the unique alias of a go package: the
registry after the call and the error returned (`none` for `nil`). -/
def Registry.ReserveGoPackageAlias (r : Registry) (aliasName pkgpath : GoString) :
    Registry × Option Err :=
  match r.pkgAliases.get aliasName with
  | some taken =>
    if taken = pkgpath then (r, none)
    else (r, some (.aliasTaken aliasName))
  | none => ({ r with pkgAliases := r.pkgAliases.set aliasName pkgpath }, none)

/-- The function goPackagePath returns the go package path which go files
generated from `f` should have. -/
def Registry.goPackagePath (r : Registry) (f : FileDescriptorProto) : GoString :=
  let name := getString f.Name
  match r.pkgMap.get name with
  | some pkg => pathJoin r.importPrefix pkg
  | none =>
    let gopkg := f.GetGoPackage
    let idx := stringsLastIndex '/' gopkg
    if 0 ≤ idx then
      let sc := stringsLastIndex ';' gopkg
      if 0 < sc then sliceTo gopkg (sc + 1 - 1) else gopkg
    else pathJoin r.importPrefix (pathDir name)

/-- The function sanitizePackageName replaces unallowed characters in a
package name with allowed characters. -/
def sanitizePackageName (pkgName : GoString) : GoString :=
  let pkgName := stringsReplaceAll '.' '_' pkgName
  let pkgName := stringsReplaceAll '-' '_' pkgName
  pkgName

/-- The function packageIdentityName returns the identity of packages. -/
def packageIdentityName (f : FileDescriptorProto) : GoString :=
  match f.Options.bind (fun o => o.GoPackage) with
  | some gopkg0 =>
    let idx := stringsLastIndex '/' gopkg0
    let gopkg := if idx < 0 then sliceFrom gopkg0 (idx + 1) else gopkg0
    let gopkg := sliceFrom gopkg (idx + 1)
    let sc := stringsIndexByte ';' gopkg
    if sc < 0 then sanitizePackageName gopkg
    else sanitizePackageName (sliceFrom gopkg (sc + 1))
  | none =>
    match f.Package with
    | none =>
      let base := filepathBase (getString f.Name)
      let ext := filepathExt base
      stringsTrimSuffix base ext
    | some p => p

/-- The function defaultGoPackageName returns the default go package name to
be used for go files generated from `f`. -/
def defaultGoPackageName (f : FileDescriptorProto) : GoString :=
  let name := packageIdentityName f
  sanitizePackageName name

/-- The function registerEnum, from index `i` on: appends the enums to the
file and stores each under its FQEN. -/
def Registry.registerEnum (r : Registry) (file : File) (outerPath : List GoString) :
    List EnumDescriptorProto → Nat → Registry × File
  | [], _ => (r, file)
  | ed :: rest, i =>
    let e : Enum :=
      { File := file.info, Outers := outerPath, EnumDescriptorProto := ed, Index := i }
    let file := { file with Enums := file.Enums ++ [e] }
    let r := { r with enums := r.enums.set e.FQEN e }
    Registry.registerEnum r file outerPath rest (i + 1)

mutual
/-- The function registerMsg, from index `i` on: appends each message to the
file, stores it under its FQMN, then registers its nested messages and enums
with the message's name added to the outer path. -/
def Registry.registerMsg (r : Registry) (file : File) (outerPath : List GoString) :
    List DescriptorProto → Nat → Registry × File
  | [], _ => (r, file)
  | md :: rest, i =>
    let (r, file) := Registry.registerMsgBody r file outerPath md i
    Registry.registerMsg r file outerPath rest (i + 1)
/-- The body of the loop of registerMsg for the message at index `i`. -/
def Registry.registerMsgBody (r : Registry) (file : File) (outerPath : List GoString) :
    DescriptorProto → Nat → Registry × File
  | .mk name fields nested enums, i =>
    let md := DescriptorProto.mk name fields nested enums
    let m : Message :=
      { File := file.info, Outers := outerPath, DescriptorProto := md,
        Fields := fields.map (fun fd => ⟨fd⟩), Index := i }
    let file := { file with Messages := file.Messages ++ [m] }
    let r := { r with msgs := r.msgs.set m.FQMN m }
    let outers := outerPath ++ [getString name]
    let (r, file) := Registry.registerMsg r file outers nested 0
    Registry.registerEnum r file outers enums 0
end

/-- The alias `fmt.Sprintf("%s_%d", name, i)`. -/
def aliasOf (name : GoString) (i : Nat) : GoString := name ++ ['_'] ++ formatDecimal i

/-- The loop `for i := 0; ; i++` of loadFile, from `i` on, for at most `fuel`
iterations: the first alias `Name_i` that can be reserved for the package's
path, with the registry after the reservation; `none` when the fuel runs out. -/
def Registry.aliasLoop (r : Registry) (pkg : GoPackage) : Nat → Nat → Option (Registry × GoPackage)
  | 0, _ => none
  | fuel + 1, i =>
    let aliasName := aliasOf pkg.Name i
    match r.ReserveGoPackageAlias aliasName pkg.Path with
    | (r, none) => some (r, { pkg with Alias := aliasName })
    | (_, some _) => Registry.aliasLoop r pkg fuel (i + 1)

/-- The first statements of loadFile: the Go package of the file, with the
default name reserved as its alias when possible and otherwise the first
`Name_i` that can be reserved; `fuel` bounds the alias loop. -/
def Registry.reservePackage (fuel : Nat) (r : Registry) (file : FileDescriptorProto) :
    Option (Registry × GoPackage) :=
  let pkg : GoPackage :=
    { Path := r.goPackagePath file, Name := defaultGoPackageName file, Alias := [] }
  match r.ReserveGoPackageAlias pkg.Name pkg.Path with
  | (r, none) => some (r, pkg)
  | (r, some _) => r.aliasLoop pkg fuel 0

/-- The function loadFile loads messages, enumerations and fields from
`file`; `fuel` bounds the alias loop.  The new `*File` is stored in `r.files`
before its messages and enums are appended through the pointer; here the
finished file is stored at the end. -/
def Registry.loadFile (fuel : Nat) (r : Registry) (file : FileDescriptorProto) : Option Registry :=
  match r.reservePackage fuel file with
  | none => none
  | some (r, pkg) =>
    let f : File :=
      { FileDescriptorProto := file, GoPkg := pkg, Messages := [], Enums := [], Services := [] }
    let (r, f) := r.registerMsg f [] file.MessageType 0
    let (r, f) := r.registerEnum f [] file.EnumType 0
    some { r with files := r.files.set (getString file.Name) f }

/-- The function extractAPIOptions: the HTTP rule of a method, `none` when the
method has no options or no HTTP extension. -/
def extractAPIOptions (meth : MethodDescriptorProto) : Except Err (Option HttpRule) :=
  match meth.Options with
  | none => .ok none
  | some o =>
    match o.Http with
    | none => .ok none
    | some .undecodable => .error .extensionDecode
    | some .otherType => .error .extensionNotHttpRule
    | some (.rule opts) => .ok (some opts)

/-- The function newMethod resolves the input and output types of a method
from the package of the service's file. -/
def Registry.newMethod (r : Registry) (svc : Service) (md : MethodDescriptorProto)
    (_opts : Option HttpRule) : Except Err Method :=
  match r.LookupMsg (getString svc.File.FileDescriptorProto.Package) (getString md.InputType) with
  | .error err => .error err
  | .ok requestType =>
    match r.LookupMsg (getString svc.File.FileDescriptorProto.Package) (getString md.OutputType) with
    | .error err => .error err
    | .ok responseType =>
      .ok { MethodDescriptorProto := md, RequestType := requestType, ResponseType := responseType }

/-- The inner loop of loadServices: the methods of a service appended to
`svc.Methods` in declaration order, or the first error. -/
def Registry.loadMethods (r : Registry) (svc : Service) :
    List MethodDescriptorProto → Except Err Service
  | [] => .ok svc
  | md :: rest =>
    match extractAPIOptions md with
    | .error err => .error err
    | .ok opts =>
      match r.newMethod svc md opts with
      | .error err => .error err
      | .ok meth => Registry.loadMethods r { svc with Methods := svc.Methods ++ [meth] } rest

/-- The outer loop of loadServices: the services that have at least one
method, appended to `svcs`, or the first error. -/
def Registry.loadServiceList (r : Registry) (file : File) (svcs : List Service) :
    List ServiceDescriptorProto → Except Err (List Service)
  | [] => .ok svcs
  | sd :: rest =>
    let svc : Service := { File := file.info, ServiceDescriptorProto := sd, Methods := [] }
    match r.loadMethods svc sd.Method with
    | .error err => .error err
    | .ok svc =>
      if svc.Methods.length = 0 then Registry.loadServiceList r file svcs rest
      else Registry.loadServiceList r file (svcs ++ [svc]) rest

/-- The function loadServices registers services and their methods from
`file`: the file after the call (its `Services` assigned on success only)
and the error returned. -/
def Registry.loadServices (r : Registry) (file : File) : File × Option Err :=
  match r.loadServiceList file [] file.FileDescriptorProto.Service with
  | .error err => (file, some err)
  | .ok svcs => ({ file with Services := svcs }, none)

/-- The first loop of Load: loadFile on every file of the request. -/
def Registry.loadFiles (fuel : Nat) (r : Registry) : List FileDescriptorProto → Option Registry
  | [] => some r
  | file :: rest =>
    match r.loadFile fuel file with
    | none => none
    | some r => Registry.loadFiles fuel r rest

/-- The second loop of Load over the names of the files to generate.  The
target is the `*File` stored under `name`, so the assignment to its
`Services` is visible in `r.files[name]`. -/
def Registry.loadTargets (r : Registry) (targetPkg : GoString) :
    List GoString → Registry × Option Err
  | [] => (r, none)
  | name :: rest =>
    match r.files.get name with
    | none => (r, some (.noSuchFile name))
    | some target =>
      let name' := packageIdentityName target.FileDescriptorProto
      let checked : Except Err GoString :=
        if targetPkg = [] then .ok name'
        else if targetPkg ≠ name' then .error (.inconsistentPackageNames targetPkg name')
        else .ok targetPkg
      match checked with
      | .error err => (r, some err)
      | .ok targetPkg =>
        match r.loadServices target with
        | (target, some err) => ({ r with files := r.files.set name target }, some err)
        | (target, none) =>
          Registry.loadTargets { r with files := r.files.set name target } targetPkg rest

/-- Load loads definitions of services, methods, messages, enumerations and
fields from `req`: the registry after the call and the error returned;
`none` when the fuel of an alias loop runs out. -/
def Registry.Load (fuel : Nat) (r : Registry) (req : CodeGeneratorRequest) :
    Option (Registry × Option Err) :=
  match r.loadFiles fuel req.ProtoFile with
  | none => none
  | some r => some (r.loadTargets [] req.FileToGenerate)

/-! ## generator/types.go and generator/generator.go -/

structure templateHandler where
  Name : GoString
  Service : GoString
  Arg : GoString
  deriving DecidableEq, Repr

structure templateService where
  Name : GoString
  Handlers : List templateHandler
  deriving DecidableEq, Repr

structure templateFileInfo where
  Package : GoString
  Services : List templateService
  deriving DecidableEq, Repr

/-- The ways a call of the generator ends other than with a result: the
sentinel error `errNoTargetService`, an error of `format.Source`, and the
run-time panic of the slice expression `m.GetInputType()[1:]` on an empty
string. -/
inductive GenError where
  /-- Text "no target service defined in the file". -/
  | errNoTargetService
  /-- An error returned by `format.Source`. -/
  | formatError (msg : GoString)
  /-- The panic "slice bounds out of range". -/
  | sliceBoundsPanic
  deriving DecidableEq, Repr

/-- A parsed template of `text/template`, taken as the function from the
template input to the text that `Execute` writes to the buffer. -/
abbrev Template := templateFileInfo → GoString

/-- The message `CodeGeneratorResponse_File` of the plugin protocol. -/
structure CodeGeneratorResponse_File where
  Name : Option GoString
  Content : Option GoString
  deriving DecidableEq, Repr

/-- The library values the generator uses: the two parsed templates and
`format.Source`. -/
structure Library where
  MinimalTemplate : Template
  RouterTemplate : Template
  formatSource : GoString → Except GoString GoString

/-- The constants `minimal` and `router`. -/
inductive Mode where
  | minimal
  | router
  deriving DecidableEq, Repr

structure generator where
  reg : Registry
  useRequestContext : Bool
  withRouter : Bool

/-- New returns a new generator which generates plugin files. -/
def New (reg : Registry) (useRequestContext : Bool) : generator :=
  { reg := reg, useRequestContext := useRequestContext, withRouter := true }

/-- The call `proto.HasExtension(m.Options, options.E_Http)` on non-nil
options. -/
def hasHttpExtension (o : MethodOptions) : Bool := o.Http.isSome

/-- The method markSeen, as the map `pkgSeen` after the call.  The slice
`imports` is passed by value, so the caller never sees the appended package. -/
def markSeen (file : File) (m : Method) (pkgSeen : GoMap GoString Bool) : GoMap GoString Bool :=
  let pkg := m.RequestType.File.GoPkg
  let skip : Bool :=
    match m.MethodDescriptorProto.Options with
    | none => true
    | some o =>
      !hasHttpExtension o || decide (pkg = file.GoPkg) || (pkgSeen.get pkg.Path).getD false
  if skip then pkgSeen else pkgSeen.set pkg.Path true

/-- The method is neither server-streaming nor client-streaming. -/
def Method.isUnary (m : Method) : Bool :=
  !(getBool m.MethodDescriptorProto.ServerStreaming ||
    getBool m.MethodDescriptorProto.ClientStreaming)

/-- The inner loop of generateFrom over the methods of a service: streaming
methods are skipped, every other method gets a handler appended to
`handlers`. -/
def handlerLoop (file : File) :
    List Method → List templateHandler → GoMap GoString Bool →
      Except GenError (List templateHandler × GoMap GoString Bool)
  | [], handlers, pkgSeen => .ok (handlers, pkgSeen)
  | m :: rest, handlers, pkgSeen =>
    if getBool m.MethodDescriptorProto.ServerStreaming ||
        getBool m.MethodDescriptorProto.ClientStreaming then
      handlerLoop file rest handlers pkgSeen
    else
      let inputType := getString m.MethodDescriptorProto.InputType
      if inputType.length < 1 then .error .sliceBoundsPanic
      else
        let handler : templateHandler :=
          { Name := getString m.MethodDescriptorProto.Name, Service := [],
            Arg := sliceFrom inputType 1 }
        handlerLoop file rest (handlers ++ [handler]) (markSeen file m pkgSeen)

/-- The outer loop of generateFrom over the services of the file: every
service gets an entry, appended to `services` before its methods are
looked at. -/
def serviceLoop (file : File) :
    List Service → List templateService → GoMap GoString Bool →
      Except GenError (List templateService × GoMap GoString Bool)
  | [], services, pkgSeen => .ok (services, pkgSeen)
  | svc :: rest, services, pkgSeen =>
    match handlerLoop file svc.Methods [] pkgSeen with
    | .error err => .error err
    | .ok (handlers, pkgSeen) =>
      let tService : templateService :=
        { Name := getString svc.ServiceDescriptorProto.Name, Handlers := handlers }
      serviceLoop file rest (services ++ [tService]) pkgSeen

/-- The template input `tFileInfo` that generateFrom builds for the file. -/
def templateInput (file : File) : Except GenError templateFileInfo :=
  match serviceLoop file file.Services [] [] with
  | .error err => .error err
  | .ok (services, _) => .ok { Package := file.GoPkg.Name, Services := services }

/-- The method generateFrom: the text the template writes for the template
input of the file; the error of `t.Execute` is dropped and the returned error
is always nil.  The receiver is not used. -/
def generateFrom (file : File) (t : Template) : Except GenError GoString :=
  match templateInput file with
  | .error err => .error err
  | .ok tFileInfo => .ok (t tFileInfo)

/-- The template the mode selects in buildFiles. -/
def Library.fromTemplate (lib : Library) : Mode → Template
  | .minimal => lib.MinimalTemplate
  | .router => lib.RouterTemplate

/-- The text after `%s` in the format `fileName` the mode selects in
buildFiles. -/
def fileNameSuffix : Mode → GoString
  | .minimal => ".pb.http.go".toList
  | .router => ".pb.http.router.go".toList

/-- The output name of buildFiles for the source file `name`:
`fmt.Sprintf(fileName, base)` with `base` the name without its extension. -/
def outputName (mode : Mode) (name : GoString) : GoString :=
  let ext := filepathExt name
  let base := stringsTrimSuffix name ext
  base ++ fileNameSuffix mode

/-- The loop of buildFiles over the targets, with the files built so far. -/
def buildFilesLoop (lib : Library) (mode : Mode) :
    List File → List CodeGeneratorResponse_File →
      Except GenError (List CodeGeneratorResponse_File)
  | [], files => .ok files
  | file :: rest, files =>
    match generateFrom file (lib.fromTemplate mode) with
    | .error .errNoTargetService => buildFilesLoop lib mode rest files
    | .error err => .error err
    | .ok minimalCode =>
      match lib.formatSource minimalCode with
      | .error msg => .error (.formatError msg)
      | .ok formatted =>
        let name := getString file.FileDescriptorProto.Name
        let output := outputName mode name
        buildFilesLoop lib mode rest
          (files ++ [{ Name := some output, Content := some formatted }])

/-- The method buildFiles. -/
def buildFiles (lib : Library) (targets : List File) (mode : Mode) :
    Except GenError (List CodeGeneratorResponse_File) :=
  buildFilesLoop lib mode targets []

/-- The method Generate. -/
def generator.Generate (g : generator) (lib : Library) (targets : List File) :
    Except GenError (List CodeGeneratorResponse_File) :=
  match buildFiles lib targets .minimal with
  | .error err => .error err
  | .ok minimalFiles =>
    let files := [] ++ minimalFiles
    if g.withRouter then
      match buildFiles lib targets .router with
      | .error err => .error err
      | .ok routerFiles => .ok (files ++ routerFiles)
    else .ok files

/-! ## The rendered router: example/pb/example.pb.http.router.go -/

/-- The functions stored as `http.HandlerFunc`: a method value of the
adapter (`out.srv.GetPerson`) or a function supplied by the caller. -/
inductive Handler where
  | method (name : GoString)
  | custom (id : Nat)
  deriving DecidableEq, Repr

/-- A value of type `http.HandlerFunc`: `none` is the nil function. -/
abbrev HandlerFunc := Option Handler

/-- The struct `options`; `routes` is `none` for a nil map. -/
structure options where
  routes : Option (GoMap GoString HandlerFunc)
  withSwagger : Bool

/-- The error values of the router constructor. -/
inductive RouterError where
  /-- Text "nil routes were provided". -/
  | nilRoutes
  deriving DecidableEq, Repr

/-- The method validate of `options`. -/
def options.validate (o : options) : Option RouterError :=
  match o.routes with
  | none => some .nilRoutes
  | some _ => none

/-- The type `option`: a function that updates the options in place. -/
abbrev option := options → options

/-- WithRoutes sets handlers to specific routes. -/
def WithRoutes (routes : Option (GoMap GoString HandlerFunc)) : option :=
  fun opts => { opts with routes := routes }

/-- WithSwagger sets the swagger flag. -/
def WithSwagger : option :=
  fun opts => { opts with withSwagger := true }

/-- The routes of a router; `srv` and `codecBuilder` are left out. -/
structure Router where
  routes : GoMap GoString HandlerFunc

/-- The loop `for route, handler := range defaultOptions.routes` of the
constructor: a nil handler is skipped, every other handler is stored. -/
def applyRoutes :
    List (GoString × HandlerFunc) → GoMap GoString HandlerFunc → GoMap GoString HandlerFunc
  | [], routes => routes
  | (route, handler) :: rest, routes =>
    match handler with
    | none => applyRoutes rest routes
    | some h => applyRoutes rest (routes.set route (some h))

/-- The constructor the router template renders for a service whose rendered
default table is `defaultRoutes`. -/
def NewRouter (defaultRoutes : GoMap GoString HandlerFunc) (opts : List option) :
    Except RouterError Router :=
  let defaultOptions := opts.foldl (fun o opt => opt o) { routes := some [], withSwagger := false }
  match defaultOptions.validate with
  | some err => .error err
  | none =>
    .ok { routes := applyRoutes (defaultOptions.routes.getD []) defaultRoutes }

/-- The default route table of the example router. -/
def exampleDefaultRoutes : GoMap GoString HandlerFunc :=
  [("/example/getperson".toList, some (.method "GetPerson".toList))]

/-- NewExampleRouter of the shipped example. -/
def NewExampleRouter (opts : List option) : Except RouterError Router :=
  NewRouter exampleDefaultRoutes opts

/-! ## generator/minimalTemplate.go and generator/routerTemplate.go -/

/-- Go function `strings.ToLower(s)`, the template function `lower`.  In a string of
ASCII bytes the letters `A` to `Z` are replaced by `a` to `z`; any other
string is handed to `strings.Map(unicode.ToLower, s)` of the standard library,
here `mapToLower`. -/
def stringsToLower (mapToLower : GoString → GoString) (s : GoString) : GoString :=
  if s.all (fun c => decide (c.toNat < 128)) then s.map Char.toLower else mapToLower s

/-- The body of the range over the handlers of a service in MinimalTemplate: the
adapter method of one handler. -/
def minimalHandlerText (service : templateService) (handler : templateHandler) : GoString :=
  "\nfunc (s *HTTP".toList ++ service.Name ++ "Server) ".toList ++ handler.Name ++
  "(w http.ResponseWriter, r *http.Request) \x7b\n".toList ++
  "    defer r.Body.Close()\n\targ := ".toList ++ handler.Arg ++
  "\x7b\x7d\n\terr := s.cdc.ReadRequest(r, &arg)\n".toList ++
  "    if err != nil \x7b\n        s.cdc.WriteError(w, err)\n\t\treturn\n".toList ++
  "    \x7d\n\tgrpcResp, err := s.srv.".toList ++ handler.Name ++
  "(r.Context(), &arg)\n\tif err != nil \x7b\n".toList ++
  "        s.cdc.WriteError(w, err)\n\t\treturn\n\t\x7d\n".toList ++
  "\ts.cdc.WriteResponse(w, grpcResp)\n\x7d\n".toList

/-- The body of the range over the services in MinimalTemplate: the adapter type
of one service, its constructor and its methods. -/
def minimalServiceText (service : templateService) : GoString :=
  "\n\ntype HTTP".toList ++ service.Name ++ "Server struct \x7b\n\tsrv\t\t".toList ++
  service.Name ++ "Server\n\tcdc\tcodec.Codec\n\x7d\n\nfunc NewHTTP".toList ++ service.Name ++
  "Server(srv ".toList ++ service.Name ++ "Server, cdc codec.Codec) *HTTP".toList ++
  service.Name ++ "Server \x7b\n\treturn &HTTP".toList ++ service.Name ++
  "Server\x7b\n\t\tsrv: srv,\n\t\tcdc: cdc,\n\t\x7d\n\x7d\n\n".toList ++
  (service.Handlers.map (minimalHandlerText service)).flatten ++ "\n\n".toList

/-- The text that MinimalTemplate writes for a template input: the literal text
of the template with every action replaced by its value and every range by
the texts of its body, in order. -/
def MinimalTemplate : Template :=
  fun info =>
    "\npackage ".toList ++ info.Package ++ "\n\nimport (\n\t\"net/http\"\n\n".toList ++
    "\t\"github.com/lazada/protoc-gen-go-http/codec\"\n)\n\n".toList ++
    (info.Services.map minimalServiceText).flatten ++ "\n\n".toList

/-- The text of RouterTemplate before the range over the services: the package
clause, the imports and the options. -/
def routerHeaderText (info : templateFileInfo) : GoString :=
  "\npackage ".toList ++ info.Package ++
  "\n\nimport (\n\t\"errors\"\n\t\"fmt\"\n\t\"net/http\"\n\n".toList ++
  "\t\"github.com/lazada/protoc-gen-go-http/codec\"\n)\n\n".toList ++
  "type options struct \x7b\n\troutes\t\tmap[string]http.HandlerFunc\n".toList ++
  "\twithSwagger bool\n\x7d\n\nfunc (o *options) validate() error \x7b\n".toList ++
  "\tif o.routes == nil \x7b\n".toList ++
  "\t\treturn errors.New(\"nil routes were provided\")\n\t\x7d\n\n".toList ++
  "\treturn nil\n\x7d\n\ntype option func(*options)\n\n".toList ++
  "// WithRoutes sets handlers to specific routes.\n".toList ++
  "// Set the handler to nil to delete a route.\n".toList ++
  "func WithRoutes(routes map[string]http.HandlerFunc) option \x7b\n".toList ++
  "\treturn func(opts *options) \x7b\n\t\topts.routes = routes\n\t\x7d\n".toList ++
  "\x7d\n\nfunc WithSwagger() option \x7b\n".toList ++
  "\treturn func(opts *options) \x7b\n\t\topts.withSwagger = true\n".toList ++
  "\t\x7d\n\x7d\n\n".toList

/-- The body of the range inside the literal of the default route table in
RouterTemplate: the entry of one handler. -/
def routerRouteText (mapToLower : GoString → GoString) (service : templateService)
    (handler : templateHandler) : GoString :=
  "\"/".toList ++ stringsToLower mapToLower service.Name ++ "/".toList ++
  stringsToLower mapToLower handler.Name ++
  "\": out.srv.".toList ++ handler.Name ++ ",\n\t\t".toList

/-- The body of the second range over the handlers of a service in
RouterTemplate: the adapter method of one handler. -/
def routerHandlerText (service : templateService) (handler : templateHandler) : GoString :=
  "\nfunc (s *http".toList ++ service.Name ++ "Server) ".toList ++ handler.Name ++
  "(w http.ResponseWriter, r *http.Request) \x7b\n".toList ++
  "    defer r.Body.Close()\n\targ := ".toList ++ handler.Arg ++
  "\x7b\x7d\n\terr := s.cdc.ReadRequest(r, &arg)\n".toList ++
  "    if err != nil \x7b\n        s.cdc.WriteError(w, err)\n\t\treturn\n".toList ++
  "    \x7d\n\n\tgrpcResp, err := s.srv.".toList ++ handler.Name ++
  "(r.Context(), &arg)\n\tif err != nil \x7b\n".toList ++
  "        s.cdc.WriteError(w, err)\n\t\treturn\n\t\x7d\n\n".toList ++
  "\ts.cdc.WriteResponse(w, grpcResp)\n\x7d\n".toList

/-- The part of the body of the range over the services in RouterTemplate before
the default route table: the router type and the first statements of its
constructor. -/
def routerBeginText (service : templateService) : GoString :=
  "\n\ntype ".toList ++ service.Name ++ "Router struct \x7b\n\tsrv\t\t\t\t*http".toList ++
  service.Name ++ "Server\n\tcodecBuilder\tcodec.CodecBuilder\n".toList ++
  "\troutes\t\t\tmap[string]http.HandlerFunc\n\x7d\n\nfunc New".toList ++ service.Name ++
  "Router(srv ".toList ++ service.Name ++
  "Server, codecBuilder codec.CodecBuilder, opts ...option) (*".toList ++ service.Name ++
  "Router, error) \x7b\n\tout := &".toList ++ service.Name ++
  "Router\x7b\n\t\tsrv:\t\t\tnewHTTP".toList ++ service.Name ++
  "Server(srv, codecBuilder()),\n\t\tcodecBuilder:\tcodecBuilder,\n".toList ++
  "\t\troutes:\t\t\tmake(map[string]http.HandlerFunc),\n\t\x7d\n\n".toList ++
  "\tdefaultOptions := &options\x7b\n".toList ++
  "\t\troutes:\tmake(map[string]http.HandlerFunc),\n\t\x7d\n\n".toList ++
  "\tfor _, opt := range opts \x7b\n\t\topt(defaultOptions)\n\t\x7d\n\n".toList ++
  "\tif err := defaultOptions.validate(); err != nil \x7b\n".toList ++
  "\t\treturn nil, err\n\t\x7d\n\n".toList

/-- The assignment of the default route table in RouterTemplate: a map literal
with the entries of the handlers of the service, in order. -/
def routerTableText (mapToLower : GoString → GoString) (service : templateService) :
    GoString :=
  "\tout.routes = map[string]http.HandlerFunc\x7b\n\t\t".toList ++
  (service.Handlers.map (routerRouteText mapToLower service)).flatten ++
  "\n\t\x7d\n".toList

/-- The part of the body of the range over the services in RouterTemplate after
the default route table: the loop over the supplied routes, ServeHTTP and the
adapter. -/
def routerEndText (service : templateService) : GoString :=
  "\n\tfor route, handler := range defaultOptions.routes \x7b\n".toList ++
  "\t\tif handler == nil \x7b\n\t\t\tcontinue\n\t\t\x7d\n".toList ++
  "\t\tout.routes[route] = handler\n\t\x7d\n\n\treturn out, nil\n\x7d\n\n".toList ++
  "func (s *".toList ++ service.Name ++
  "Router) ServeHTTP(w http.ResponseWriter, r *http.Request) \x7b\n".toList ++
  "\tc := s.codecBuilder()\n\n\troute, err := c.Route(r)\n".toList ++
  "\tif err != nil \x7b\n\t\tc.WriteError(w, err)\n\t\treturn\n\t\x7d\n\n".toList ++
  "\thandler, ok := s.routes[route]\n\tif !ok \x7b\n".toList ++
  "\t\tc.WriteError(w, fmt.Errorf(\"no handler for route %s\", route))\n".toList ++
  "\t\treturn\n\t\x7d\n\n\thandler(w, r)\n\x7d\n\ntype http".toList ++ service.Name ++
  "Server struct \x7b\n\tsrv\t\t".toList ++ service.Name ++
  "Server\n\tcdc\tcodec.Codec\n\x7d\n\nfunc newHTTP".toList ++ service.Name ++
  "Server(srv ".toList ++ service.Name ++ "Server, cdc codec.Codec) *http".toList ++
  service.Name ++ "Server \x7b\n\treturn &http".toList ++ service.Name ++
  "Server\x7b\n\t\tsrv: srv,\n\t\tcdc: cdc,\n\t\x7d\n\x7d\n\n".toList ++
  (service.Handlers.map (routerHandlerText service)).flatten ++ "\n\n".toList

/-- The body of the range over the services in RouterTemplate. -/
def routerServiceText (mapToLower : GoString → GoString) (service : templateService) :
    GoString :=
  routerBeginText service ++ routerTableText mapToLower service ++ routerEndText service

/-- The text that RouterTemplate writes for a template input; `mapToLower` is
the library function that `lower` falls back on. -/
def RouterTemplate (mapToLower : GoString → GoString) : Template :=
  fun info =>
    routerHeaderText info ++ (info.Services.map (routerServiceText mapToLower)).flatten ++
      "\n".toList

/-- The library of the program: the two templates of the package and
`format.Source`. -/
def goLibrary (mapToLower : GoString → GoString)
    (formatSource : GoString → Except GoString GoString) : Library :=
  { MinimalTemplate := MinimalTemplate, RouterTemplate := RouterTemplate mapToLower,
    formatSource := formatSource }

/-! ## Specification-side notions -/

/-- The dotted form of a list of name components: every component preceded
by a `.`, as in `.a.b.T`. -/
def dotted : List GoString → GoString
  | [] => []
  | c :: cs => '.' :: c ++ dotted cs

/-- The candidate keys of a relative lookup of `name` from the scope
`.c1.c2...cn`: `.c1...cn.name`, `.c1...c(n-1).name`, ..., `.c1.name`,
`.name`, in this order. -/
def scopeKeys (cs : List GoString) (name : GoString) : List GoString :=
  (List.range (cs.length + 1)).reverse.map (fun k => dotted (cs.take k ++ [name]))

/-- The entry of a table under the first of the given keys that is present. -/
def firstPresent {β : Type} (table : GoMap GoString β) (keys : List GoString) : Option β :=
  keys.findSome? (fun k => table.get k)

/-- The fully-qualified name of the specification: `.` + package +
outer chain + name, the package being left out for a file that declares none. -/
def fqName (pkg : Option GoString) (outers : List GoString) (name : GoString) : GoString :=
  dotted (pkg.toList ++ outers ++ [name])

/-- The identifier a package is imported under: the alias when there is one,
the package name otherwise. -/
def effectiveIdent (p : GoPackage) : GoString :=
  if p.Alias ≠ [] then p.Alias else p.Name

/-- A message `md` is declared, at any depth, in the forest `mds` whose roots
have the outer path `outers`; `outers'` is the outer path of `md`. -/
inductive MsgIn : List GoString → List DescriptorProto → List GoString → DescriptorProto → Prop
  | here {outers : List GoString} {mds : List DescriptorProto} {md : DescriptorProto} :
      md ∈ mds → MsgIn outers mds outers md
  | nested {outers outers' : List GoString} {mds : List DescriptorProto}
      {md md' : DescriptorProto} :
      md ∈ mds → MsgIn (outers ++ [md.GetName]) md.GetNestedType outers' md' →
      MsgIn outers mds outers' md'

/-- An enum `ed` is declared inside a message, at any depth, of the forest
`mds`; `outers'` is the outer path of `ed`. -/
inductive EnumIn : List GoString → List DescriptorProto → List GoString →
    EnumDescriptorProto → Prop
  | here {outers : List GoString} {mds : List DescriptorProto} {md : DescriptorProto}
      {ed : EnumDescriptorProto} :
      md ∈ mds → ed ∈ md.GetEnumType → EnumIn outers mds (outers ++ [md.GetName]) ed
  | nested {outers outers' : List GoString} {mds : List DescriptorProto}
      {md : DescriptorProto} {ed : EnumDescriptorProto} :
      md ∈ mds → EnumIn (outers ++ [md.GetName]) md.GetNestedType outers' ed →
      EnumIn outers mds outers' ed

/-- The file declares the message `md` with outer path `outers`. -/
def DeclaresMsg (f : FileDescriptorProto) (outers : List GoString) (md : DescriptorProto) : Prop :=
  MsgIn [] f.MessageType outers md

/-- The file declares the enum `ed` with outer path `outers`, at top level
or inside a message. -/
def DeclaresEnum (f : FileDescriptorProto) (outers : List GoString)
    (ed : EnumDescriptorProto) : Prop :=
  (outers = [] ∧ ed ∈ f.EnumType) ∨ EnumIn [] f.MessageType outers ed

/-- The number written by a string of decimal digits. -/
def decimalValue (s : GoString) : Nat :=
  s.foldl (fun acc c => 10 * acc + (c.toNat - 48)) 0

/-- The key `k` of the message table holds a message whose FQMN is `k`. -/
def MsgOK (r : Registry) (k : GoString) : Prop :=
  ∃ m, r.msgs.get k = some m ∧ m.FQMN = k

/-- The key `k` of the enum table holds an enum whose FQEN is `k`. -/
def EnumOK (r : Registry) (k : GoString) : Prop :=
  ∃ e, r.enums.get k = some e ∧ e.FQEN = k

/-- Everything but the message and enum tables is the same in both
registries. -/
def SameConfig (r r' : Registry) : Prop :=
  r'.pkgAliases = r.pkgAliases ∧ r'.files = r.files ∧ r'.importPrefix = r.importPrefix ∧
    r'.pkgMap = r.pkgMap

/-- The alias `a` is reserved for a path other than `p`. -/
def TakenByOther (r : Registry) (a p : GoString) : Prop :=
  ∃ t, r.pkgAliases.get a = some t ∧ t ≠ p

/-- What the registration of messages and enums may change: nothing but the
two tables and the lists of the file; keys that hold an entry named like the
key keep such an entry, and every entry is either an old one or named like
its key. -/
def RegPost (r : Registry) (file : File) (res : Registry × File) : Prop :=
  SameConfig r res.1 ∧ res.2.info = file.info ∧ res.2.Services = file.Services ∧
  (∀ k, MsgOK r k → MsgOK res.1 k) ∧ (∀ k, EnumOK r k → EnumOK res.1 k) ∧
  (∀ k m, res.1.msgs.get k = some m → r.msgs.get k = some m ∨ m.FQMN = k) ∧
  (∀ k e, res.1.enums.get k = some e → r.enums.get k = some e ∨ e.FQEN = k)

/-- The message registered by registerMsg for the descriptor `md` at index
`i`. -/
def mkMessage (file : File) (outerPath : List GoString) (md : DescriptorProto) (i : Nat) :
    Message :=
  { File := file.info, Outers := outerPath, DescriptorProto := md,
    Fields := md.GetField.map (fun fd => ⟨fd⟩), Index := i }

/-- The enum registered by registerEnum for the descriptor `ed` at index `i`. -/
def mkEnum (file : File) (outerPath : List GoString) (ed : EnumDescriptorProto) (i : Nat) :
    Enum :=
  { File := file.info, Outers := outerPath, EnumDescriptorProto := ed, Index := i }

/-- Every message and every nested enum declared in the forest `mds` is
stored in the registry under its fully-qualified name. -/
def MsgCover (pkg : Option GoString) (r : Registry) (outers : List GoString)
    (mds : List DescriptorProto) : Prop :=
  (∀ o' md', MsgIn outers mds o' md' → MsgOK r (fqName pkg o' md'.GetName)) ∧
  (∀ o' ed, EnumIn outers mds o' ed → EnumOK r (fqName pkg o' (getString ed.Name)))

/-- The assignment `r.msgs[m.FQMN()] = m`. -/
def Registry.storeMsg (r : Registry) (m : Message) : Registry :=
  { r with msgs := r.msgs.set m.FQMN m }

/-- The statement `file.Messages = append(file.Messages, m)`. -/
def File.appendMsg (file : File) (m : Message) : File :=
  { file with Messages := file.Messages ++ [m] }

/-- The registry `r'` extends `r`: same configuration, reserved aliases
stay reserved, keys that hold an entry named like the key keep such an entry,
and every entry is either an old one or named like its key. -/
def Grows (r r' : Registry) : Prop :=
  r'.importPrefix = r.importPrefix ∧ r'.pkgMap = r.pkgMap ∧
  (∀ k v, r.pkgAliases.get k = some v → r'.pkgAliases.get k = some v) ∧
  (∀ k, MsgOK r k → MsgOK r' k) ∧ (∀ k, EnumOK r k → EnumOK r' k) ∧
  (∀ k m, r'.msgs.get k = some m → r.msgs.get k = some m ∨ m.FQMN = k) ∧
  (∀ k e, r'.enums.get k = some e → r.enums.get k = some e ∨ e.FQEN = k)

/-- Every message and enum the file declares, at any depth, is stored in the
registry under its fully-qualified name. -/
def Covers (r : Registry) (f : FileDescriptorProto) : Prop :=
  (∀ o md, DeclaresMsg f o md → MsgOK r (fqName f.Package o md.GetName)) ∧
  (∀ o ed, DeclaresEnum f o ed → EnumOK r (fqName f.Package o (getString ed.Name)))

/-- The literal `&File` of loadFile. -/
def newFile (file : FileDescriptorProto) (pkg : GoPackage) : File :=
  { FileDescriptorProto := file, GoPkg := pkg, Messages := [], Enums := [], Services := [] }

/-- The `File` that loadFile creates for `f` when `f` is loaded after the
files `before` (read from `r.files` right after loadFile returns). -/
def createdFile (fuel : Nat) (r : Registry) (before : List FileDescriptorProto)
    (f : FileDescriptorProto) : Option File :=
  match r.loadFiles fuel before with
  | none => none
  | some rA =>
    match rA.loadFile fuel f with
    | none => none
    | some rB => rB.files.get (getString f.Name)

/-- The `*File` stored under `name` after `loadServices` ran on it. -/
def Registry.storeFile (r : Registry) (name : GoString) (file : File) : Registry :=
  { r with files := r.files.set name file }

/-- The resolved types of a method are messages named like the method's
declared input and output types. -/
def MethodResolved (meth : Method) : Prop :=
  meth.RequestType.FQMN = getString meth.MethodDescriptorProto.InputType ∧
  meth.ResponseType.FQMN = getString meth.MethodDescriptorProto.OutputType

/-- Option extraction succeeds on every method of the file, and the declared
input and output types of every method are keys of the message table that
hold a message of that name. -/
def Loadable (r : Registry) (fdp : FileDescriptorProto) : Prop :=
  ∀ sd ∈ fdp.Service, ∀ md ∈ sd.Method,
    (∃ o, extractAPIOptions md = .ok o) ∧ MsgOK r (getString md.InputType) ∧
      MsgOK r (getString md.OutputType)

/-- The services of a loaded file: each comes from a declared service, lists
that service's methods in declaration order, all resolved; and every declared
service with a method is among them. -/
def ServicesLoaded (file : File) : Prop :=
  (∀ svc ∈ file.Services,
    svc.ServiceDescriptorProto ∈ file.FileDescriptorProto.Service ∧
    svc.Methods.map (fun m => m.MethodDescriptorProto) = svc.ServiceDescriptorProto.Method ∧
    ∀ meth ∈ svc.Methods, MethodResolved meth) ∧
  (∀ sd ∈ file.FileDescriptorProto.Service, sd.Method ≠ [] →
    ∃ svc ∈ file.Services, svc.ServiceDescriptorProto = sd)

/-- The input or the output type of the method is not resolved by LookupMsg
from the given location. -/
def BadMethod (r : Registry) (location : GoString) (md : MethodDescriptorProto) : Prop :=
  (∃ err, r.LookupMsg location (getString md.InputType) = .error err) ∨
  (∃ err, r.LookupMsg location (getString md.OutputType) = .error err)

/-- Some method of some service of the file has an input or output type that
LookupMsg does not resolve from the file's package. -/
def BadFile (r : Registry) (fdp : FileDescriptorProto) : Prop :=
  ∃ sd ∈ fdp.Service, ∃ md ∈ sd.Method, BadMethod r (getString fdp.Package) md

/-- The handler generateFrom makes for a method: named after the method,
with the input type without its first byte as argument type. -/
def handlerOf (m : Method) : templateHandler :=
  { Name := getString m.MethodDescriptorProto.Name, Service := [],
    Arg := sliceFrom (getString m.MethodDescriptorProto.InputType) 1 }

/-- The entry of the template input for a service: its name and the handlers
of its methods that are neither server-streaming nor client-streaming, in
declaration order. -/
def entryOf (svc : Service) : templateService :=
  { Name := getString svc.ServiceDescriptorProto.Name,
    Handlers := (svc.Methods.filter Method.isUnary).map handlerOf }

/-- The part of `s` after its last `c`; all of `s` when `c` does not occur
in it. -/
def afterLast (c : Char) (s : GoString) : GoString :=
  (s.reverse.takeWhile (fun d => d ≠ c)).reverse

/-- The part of `s` after its first `c`; empty when `c` does not occur in
it. -/
def afterFirst (c : Char) (s : GoString) : GoString :=
  (s.dropWhile (fun d => d ≠ c)).drop 1

/-- Every key of the message table is the FQMN of the message stored under
it, and every key of the enum table the FQEN of the enum stored under it. -/
def KeysNamed (r : Registry) : Prop :=
  (∀ k m, r.msgs.get k = some m → m.FQMN = k) ∧ (∀ k e, r.enums.get k = some e → e.FQEN = k)

/-- The registries reached from NewRegistry by calls of the methods that
change a registry: SetPrefix, AddPkgMap, ReserveGoPackageAlias, loadFile and
Load (whatever error Load returns). -/
inductive Reached : Registry → Prop
  | new : Reached NewRegistry
  | setPrefix {r : Registry} (pfx : GoString) : Reached r → Reached (r.SetPrefix pfx)
  | addPkgMap {r : Registry} (file protoPkg : GoString) :
      Reached r → Reached (r.AddPkgMap file protoPkg)
  | reserve {r : Registry} (aliasName pkgpath : GoString) :
      Reached r → Reached (r.ReserveGoPackageAlias aliasName pkgpath).1
  | loadFile {r r' : Registry} (fuel : Nat) (file : FileDescriptorProto) :
      Reached r → r.loadFile fuel file = some r' → Reached r'
  | load {r r' : Registry} (fuel : Nat) (req : CodeGeneratorRequest) (err : Option Err) :
      Reached r → r.Load fuel req = some (r', err) → Reached r'

/-- The artifact of a target in the pass of the mode: the output name of the
mode for the target's file name, with the formatted rendering as content. -/
def artifactOf (lib : Library) (mode : Mode) (file : File) : CodeGeneratorResponse_File :=
  { Name := some (outputName mode (getString file.FileDescriptorProto.Name)),
    Content :=
      match generateFrom file (lib.fromTemplate mode) with
      | .ok code => (lib.formatSource code).toOption
      | .error _ => none }

/-- The registry after the assignments `r.msgs[k] = m` and `r.enums[k] = e` of
the two lists, in order. -/
def Registry.applyWrites (r : Registry) (ms : List (GoString × Message))
    (es : List (GoString × Enum)) : Registry :=
  { r with
    msgs := ms.foldl (fun t w => t.set w.1 w.2) r.msgs
    enums := es.foldl (fun t w => t.set w.1 w.2) r.enums }

/-- The table `b` agrees with the table `a` up to the table `t`: every key
holds in `b` what it holds in `a` or what it holds in `t`. -/
def Agree {β : Type} (t a b : GoMap GoString β) : Prop :=
  ∀ k, b.get k = a.get k ∨ b.get k = t.get k

/-- The two files differ at most in their services. -/
def SvcEq (f g : File) : Prop :=
  f.FileDescriptorProto = g.FileDescriptorProto ∧ f.GoPkg = g.GoPkg ∧
    f.Messages = g.Messages ∧ f.Enums = g.Enums

/-- Both entries are absent, or both are files that differ at most in their
services. -/
def FileRel : Option File → Option File → Prop
  | none, none => True
  | some f, some g => SvcEq f g
  | _, _ => False

/-- The base name of a slash-separated path: its last non-empty element; `.`
for the empty path and `/` for a path of slashes only. -/
def baseName (p : GoString) : GoString :=
  match ((stringsSplit '/' p).filter (fun e => e ≠ [])).getLast? with
  | some e => e
  | none => if p = [] then ['.'] else ['/']

/-- A file name without its extension: when the last path element has a `.`,
the name without its last `.` and what follows it; otherwise the name. -/
def withoutExtension (name : GoString) : GoString :=
  if '.' ∈ afterLast '/' name then
    name.take (name.length - ((afterLast '.' name).length + 1))
  else name

/-- The package identity name as the specification words it: for a file with
a `go_package`, the part after the last `/`, replaced by the string after the
`;` when that part contains one, with every `.` and `-` replaced by `_`;
otherwise the declared package; otherwise the base name of the file without
its extension. -/
def specIdentityName (f : FileDescriptorProto) : GoString :=
  match f.Options.bind (fun o => o.GoPackage) with
  | some goPackage =>
    let last := afterLast '/' goPackage
    let chosen := if ';' ∈ last then afterFirst ';' last else last
    chosen.map (fun c => if c = '.' ∨ c = '-' then '_' else c)
  | none =>
    match f.Package with
    | some p => p
    | none => withoutExtension (baseName (getString f.Name))


/-- The lower-case letter of an upper-case ASCII letter, read off the two
alphabets; every other byte is left as it is. -/
def lowerLetter (c : Char) : Char :=
  (("ABCDEFGHIJKLMNOPQRSTUVWXYZ".toList.zip "abcdefghijklmnopqrstuvwxyz".toList).lookup c).getD c

/-- The lower-cased form of a name: in a name of ASCII bytes every upper-case
letter is replaced by its lower-case letter; for any other name it is what the
Unicode mapping `mapToLower` of the library gives. -/
def lowercase (mapToLower : GoString → GoString) (s : GoString) : GoString :=
  if ∀ c ∈ s, c.toNat < 128 then s.map lowerLetter else mapToLower s

/-- The key of the default route of a method: `/`, the lower-cased service
name, `/`, the lower-cased method name. -/
def routeKey (mapToLower : GoString → GoString) (service method : GoString) : GoString :=
  ['/'] ++ lowercase mapToLower service ++ ['/'] ++ lowercase mapToLower method

/-- The entry of a map literal that maps the route key of a method to the
method value of the adapter (`out.srv`) of that name, with the comma and the
line break after it. -/
def routeEntry (mapToLower : GoString → GoString) (service method : GoString) : GoString :=
  ['"'] ++ routeKey mapToLower service method ++ "\": out.srv.".toList ++ method ++
    ",\n\t\t".toList

/-- The default route table that the rendered map literal of a service
denotes. -/
def defaultRoutesOf (mapToLower : GoString → GoString) (service : templateService) :
    GoMap GoString HandlerFunc :=
  service.Handlers.map (fun handler => (routeKey mapToLower service.Name handler.Name,
    some (.method handler.Name)))

/-- The call of `format.Source` fails for the file in the pass of the mode:
generateFrom returns a text and `format.Source` rejects it. -/
def FormatFails (lib : Library) (mode : Mode) (file : File) : Prop :=
  ∃ code msg, generateFrom file (lib.fromTemplate mode) = .ok code ∧
    lib.formatSource code = .error msg

/-- The text `sub` occurs in `s`. -/
def occursIn (sub : GoString) : GoString → Bool
  | [] => sub.isEmpty
  | c :: s => stringsHasPrefix (c :: s) sub || occursIn sub s

/-! ## Concrete inputs -/

namespace Sample

def msgT : DescriptorProto :=
  .mk (some ['T']) [] [.mk (some ['U']) [] [] [⟨some ['E']⟩]] []

def fileA : FileDescriptorProto :=
  { Name := some "x/a.proto".toList, Package := some "a".toList, MessageType := [msgT],
    EnumType := [⟨some ['K']⟩],
    Service := [⟨some ['S'],
      [⟨some ['M'], some ".a.T".toList, some ".a.T.U".toList, none, none, none⟩]⟩],
    Options := none, Syntax := none }

def fileB : FileDescriptorProto :=
  { Name := some "y/a.proto".toList, Package := some "a".toList, MessageType := [],
    EnumType := [], Service := [], Options := none, Syntax := none }

/-- A file whose go_package option is an import path with an alias marker. -/
def fileC : FileDescriptorProto :=
  { Name := some "z/c.proto".toList, Package := some "c".toList, MessageType := [],
    EnumType := [], Service := [],
    Options := some ⟨some "example.com/x/y;z".toList⟩, Syntax := none }

def req : CodeGeneratorRequest := ⟨["x/a.proto".toList], none, [fileA, fileB]⟩

def infoA : FileInfo := ⟨fileA, ⟨"x".toList, "a".toList, []⟩⟩

def messageT : Message :=
  { File := infoA, Outers := [], DescriptorProto := msgT, Fields := [], Index := 0 }

def messageU : Message :=
  { File := infoA, Outers := [['T']], DescriptorProto := .mk (some ['U']) [] [] [⟨some ['E']⟩],
    Fields := [], Index := 0 }

def enumK : Enum :=
  { File := infoA, Outers := [], EnumDescriptorProto := ⟨some ['K']⟩, Index := 0 }

/-- A registry in which only `.a.T` (a message) and `.a.K` (an enum) are
registered. -/
def regT : Registry :=
  { NewRegistry with msgs := [(".a.T".toList, messageT)], enums := [(".a.K".toList, enumK)] }

/-- A registry in which the alias `a` is reserved for another package. -/
def regTaken : Registry :=
  { NewRegistry with pkgAliases := [("a".toList, "other/path".toList)] }

/-- A request that names a file to generate that is not among its files. -/
def reqMissing : CodeGeneratorRequest :=
  ⟨["x/a.proto".toList, "x/missing.proto".toList], none, [fileA, fileB]⟩

/-- A file whose go_package ends in a slash: its package identity name is
empty. -/
def fileSlash : FileDescriptorProto :=
  { Name := some "p/e.proto".toList, Package := some "e".toList, MessageType := [],
    EnumType := [], Service := [], Options := some ⟨some "example.com/x/".toList⟩,
    Syntax := none }

/-- A file whose package identity name is `z`. -/
def fileZed : FileDescriptorProto :=
  { Name := some "p/z.proto".toList, Package := some "e".toList, MessageType := [],
    EnumType := [], Service := [], Options := some ⟨some "example.com/z".toList⟩,
    Syntax := none }

/-- A request with two files to generate, both present, whose package
identity names are the empty string and `z`. -/
def reqTwoPackages : CodeGeneratorRequest :=
  ⟨["p/e.proto".toList, "p/z.proto".toList], none, [fileSlash, fileZed]⟩

/-- A file with a method whose output type is declared nowhere. -/
def fileDangling : FileDescriptorProto :=
  { Name := some "x/d.proto".toList, Package := some "a".toList, MessageType := [],
    EnumType := [],
    Service := [⟨some ['S'],
      [⟨some ['M'], some ".a.T".toList, some ".a.Nowhere".toList, none, none, none⟩]⟩],
    Options := none, Syntax := none }

def reqDangling : CodeGeneratorRequest :=
  ⟨["x/d.proto".toList], none, [fileA, fileDangling]⟩

/-- The registry after the files of `reqDangling` are registered. -/
def regDangling : Registry :=
  (NewRegistry.loadFiles 2 reqDangling.ProtoFile).getD NewRegistry

/-- The file stored under `x/d.proto` in `regDangling`. -/
def targetDangling : File :=
  (regDangling.files.get "x/d.proto".toList).getD (newFile fileDangling ⟨[], [], []⟩)

/-- The shipped example: package `example`, messages `Query` and `Person`,
service `Example` with the unary method `GetPerson`, which carries an HTTP
binding, and the server-streaming method `ListPeople`. -/
def fileExample : FileDescriptorProto :=
  { Name := some "example.proto".toList, Package := some "example".toList,
    MessageType := [.mk (some "Query".toList) [] [] [], .mk (some "Person".toList) [] [] []],
    EnumType := [],
    Service := [⟨some "Example".toList,
      [⟨some "GetPerson".toList, some ".example.Query".toList, some ".example.Person".toList,
          some ⟨some (.rule ⟨"/v1/person".toList⟩)⟩, none, none⟩,
       ⟨some "ListPeople".toList, some ".example.Query".toList, some ".example.Person".toList,
          none, none, some true⟩]⟩],
    Options := none, Syntax := some "proto3".toList }

def reqExample : CodeGeneratorRequest := ⟨["example.proto".toList], none, [fileExample]⟩

/-- The file of the example as Load leaves it. -/
def targetExample : File :=
  ((NewRegistry.Load 1 reqExample).bind (fun p => p.1.files.get "example.proto".toList)).getD
    (newFile fileExample ⟨[], [], []⟩)

/-- The file `x/a.proto` as Load leaves it; its only method is unary and has
no options. -/
def targetA : File :=
  ((NewRegistry.Load 2 req).bind (fun p => p.1.files.get "x/a.proto".toList)).getD
    (newFile fileA ⟨[], [], []⟩)

/-- A loaded file without services. -/
def targetEmpty : File := newFile fileB ⟨['y'], ['a'], []⟩

/-- A file whose only service has only a server-streaming method. -/
def fileStream : FileDescriptorProto :=
  { Name := some "s.proto".toList, Package := some "a".toList, MessageType := [msgT],
    EnumType := [],
    Service := [⟨some "Feed".toList,
      [⟨some "Watch".toList, some ".a.T".toList, some ".a.T".toList, none, none, some true⟩]⟩],
    Options := none, Syntax := none }

/-- The file `s.proto` as Load leaves it. -/
def targetStream : File :=
  ((NewRegistry.Load 1 ⟨["s.proto".toList], none, [fileStream]⟩).bind
    (fun p => p.1.files.get "s.proto".toList)).getD (newFile fileStream ⟨[], [], []⟩)

/-- A library whose templates write the package clause only and whose
formatter returns its input. -/
def libPlain : Library :=
  { MinimalTemplate := fun info => "package ".toList ++ info.Package,
    RouterTemplate := fun info => "package ".toList ++ info.Package ++ " // router".toList,
    formatSource := fun src => .ok src }

/-- The template input of `targetA`. -/
def inputA : templateFileInfo := ⟨['a'], [⟨['S'], [⟨['M'], [], "a.T".toList⟩]⟩]⟩

/-- The template input of `targetStream`. -/
def inputStream : templateFileInfo := ⟨['a'], [⟨"Feed".toList, []⟩]⟩

/-- A registry in which the name `a` and the aliases `a_0` and `a_1` are
reserved for other packages. -/
def regBusy : Registry :=
  { NewRegistry with
    pkgAliases := [("a".toList, "other/path".toList), ("a_0".toList, "p0".toList),
      ("a_1".toList, "p1".toList)] }

/-- The registry after Load of the request `req` on a new registry. -/
def regLoaded : Registry := ((NewRegistry.Load 2 req).getD (NewRegistry, none)).1

/-- The registry after the files of the example request are registered. -/
def regExample : Registry := (NewRegistry.loadFiles 1 reqExample.ProtoFile).getD NewRegistry

/-- The file of the example as loadFile stores it, before its services are
loaded. -/
def storedExample : File :=
  (regExample.files.get "example.proto".toList).getD (newFile fileExample ⟨[], [], []⟩)

/-- A library like `libPlain` whose formatter rejects the text rendered for
the package `example`. -/
def libPicky : Library :=
  { libPlain with
    formatSource := fun src =>
      if src = "package example".toList then .error "expected declaration".toList else .ok src }

/-- A routes map with a replacement for the default route, a new route and a
nil handler. -/
def routesMixed : GoMap GoString HandlerFunc :=
  [("/example/getperson".toList, some (.custom 1)), ("/extra".toList, some (.custom 2)),
    ("/gone".toList, none)]

/-- The template input of `targetExample`. -/
def inputExample : templateFileInfo :=
  ⟨"example".toList, [⟨"Example".toList, [⟨"GetPerson".toList, [], "example.Query".toList⟩]⟩]⟩

/-- A template input with two services, the first with two handlers. -/
def inputTwo : templateFileInfo :=
  ⟨"shop".toList,
    [⟨"Cart".toList, [⟨"AddItem".toList, [], "shop.Item".toList⟩,
        ⟨"Clear".toList, [], "shop.Empty".toList⟩]⟩,
      ⟨"Audit".toList, []⟩]⟩

/-- A request with two files that share the default package name and one
file to generate. -/
def reqShared : CodeGeneratorRequest := ⟨["x/a.proto".toList], none, [fileB, fileA]⟩

/-- The registry after Load of `reqShared` on a new registry. -/
def regShared : Registry := ((NewRegistry.Load 3 reqShared).getD (NewRegistry, none)).1

/-- A file that declares no package and has no options, named with dots in a
directory and in the base name. -/
def fileDotted : FileDescriptorProto :=
  { Name := some "dir.v1/my-file.v2.proto".toList, Package := none, MessageType := [],
    EnumType := [], Service := [], Options := none, Syntax := none }

/-- A file whose go_package has dots and a hyphen in its last element. -/
def fileHyphen : FileDescriptorProto :=
  { Name := some "h.proto".toList, Package := some "h".toList, MessageType := [],
    EnumType := [], Service := [], Options := some ⟨some "example.com/x/my-pkg.v1".toList⟩,
    Syntax := none }



/-- A file with a message whose name is empty and a method whose input type
is empty; the empty input type resolves to that message from the package of
the file. -/
def filePanic : FileDescriptorProto :=
  { Name := some "x/e.proto".toList, Package := some "a".toList,
    MessageType := [.mk (some []) [] [] []], EnumType := [],
    Service := [⟨some ['S'], [⟨some ['M'], some [], some ".a.".toList, none, none, none⟩]⟩],
    Options := none, Syntax := none }

/-- A request with two files to generate, the second being `filePanic`. -/
def reqPanic : CodeGeneratorRequest :=
  ⟨["x/a.proto".toList, "x/e.proto".toList], none, [fileA, filePanic]⟩

/-- The registry after Load of `reqPanic` on a new registry. -/
def regPanic : Registry := ((NewRegistry.Load 2 reqPanic).getD (NewRegistry, none)).1

/-- The first file to generate of `reqPanic`, as Load leaves it. -/
def targetKept : File :=
  (regPanic.files.get "x/a.proto".toList).getD (newFile fileA ⟨[], [], []⟩)

/-- The second file to generate of `reqPanic`, as Load leaves it. -/
def targetPanic : File :=
  (regPanic.files.get "x/e.proto".toList).getD (newFile filePanic ⟨[], [], []⟩)

/-- A file with a message whose name starts with a byte outside ASCII (the
two bytes C3 A9 of the encoding of a character, then `X`), and a method whose
input type is that name. -/
def fileBytes : FileDescriptorProto :=
  { Name := some "b.proto".toList, Package := some "a".toList,
    MessageType := [.mk (some [Char.ofNat 0xC3, Char.ofNat 0xA9, 'X']) [] [] []],
    EnumType := [],
    Service := [⟨some ['S'], [⟨some ['M'], some [Char.ofNat 0xC3, Char.ofNat 0xA9, 'X'],
      some [Char.ofNat 0xC3, Char.ofNat 0xA9, 'X'], none, none, none⟩]⟩],
    Options := none, Syntax := none }

/-- The file `b.proto` as Load leaves it. -/
def targetBytes : File :=
  ((NewRegistry.Load 1 ⟨["b.proto".toList], none, [fileBytes]⟩).bind
    (fun p => p.1.files.get "b.proto".toList)).getD (newFile fileBytes ⟨[], [], []⟩)

end Sample

/-! # Properties -/

/-! ## Strings -/

theorem stringsJoin_cons_cons (e e' : GoString) (es : List GoString) (sep : GoString) :
    stringsJoin (e :: e' :: es) sep = e ++ sep ++ stringsJoin (e' :: es) sep := rfl

theorem dot_stringsJoin_eq_dotted (c : GoString) (cs : List GoString) :
    '.' :: stringsJoin (c :: cs) ['.'] = dotted (c :: cs) := by
  induction cs generalizing c with
  | nil => simp [stringsJoin, dotted]
  | cons d ds ih =>
    rw [stringsJoin_cons_cons, dotted, ← ih d]
    simp

theorem stringsJoin_nil_cons (c : GoString) (cs : List GoString) :
    stringsJoin ([] :: c :: cs) ['.'] = dotted (c :: cs) := by
  rw [stringsJoin_cons_cons, ← dot_stringsJoin_eq_dotted]
  simp

theorem stringsSplit_ne_nil (sep : Char) (s : GoString) : stringsSplit sep s ≠ [] := by
  induction s with
  | nil => simp [stringsSplit]
  | cons c s ih =>
    unfold stringsSplit
    split
    · simp
    · split <;> simp

theorem stringsSplit_no_sep (sep : Char) (s : GoString) (h : sep ∉ s) :
    stringsSplit sep s = [s] := by
  induction s with
  | nil => rfl
  | cons c s ih =>
    simp only [List.mem_cons, not_or] at h
    unfold stringsSplit
    rw [if_neg (fun hc => h.1 hc.symm), ih h.2]

theorem stringsSplit_append_sep (sep : Char) (c : GoString) (s : GoString) (h : sep ∉ c) :
    stringsSplit sep (c ++ sep :: s) = c :: stringsSplit sep s := by
  induction c with
  | nil => simp [stringsSplit]
  | cons d c ih =>
    simp only [List.mem_cons, not_or] at h
    rw [List.cons_append, stringsSplit, if_neg (fun hc => h.1 hc.symm), ih h.2]

/-- Splitting a joined list of separator-free components gives the
components back. -/
theorem stringsSplit_stringsJoin (sep : Char) (cs : List GoString) (hne : cs ≠ [])
    (h : ∀ c ∈ cs, sep ∉ c) : stringsSplit sep (stringsJoin cs [sep]) = cs := by
  induction cs with
  | nil => exact absurd rfl hne
  | cons c cs ih =>
    cases cs with
    | nil => simpa [stringsJoin] using stringsSplit_no_sep sep c (h c (by simp))
    | cons d ds =>
      rw [stringsJoin_cons_cons, List.append_assoc, List.singleton_append,
        stringsSplit_append_sep sep c _ (h c (by simp)),
        ih (by simp) (fun x hx => h x (List.mem_cons_of_mem _ hx))]

theorem stringsJoin_cons_head (c : Char) (p : GoString) (ps : List GoString)
    (sep : GoString) :
    stringsJoin ((c :: p) :: ps) sep = c :: stringsJoin (p :: ps) sep := by
  cases ps with
  | nil => rfl
  | cons q qs => simp [stringsJoin_cons_cons]

/-- Joining the pieces of a split gives the string back. -/
theorem stringsJoin_stringsSplit (sep : Char) (s : GoString) :
    stringsJoin (stringsSplit sep s) [sep] = s := by
  induction s with
  | nil => rfl
  | cons c s ih =>
    unfold stringsSplit
    split
    · rename_i hc
      cases hs : stringsSplit sep s with
      | nil => exact absurd hs (stringsSplit_ne_nil sep s)
      | cons p ps =>
        rw [stringsJoin_cons_cons, ← hs, ih, hc]
        rfl
    · cases hs : stringsSplit sep s with
      | nil => exact absurd hs (stringsSplit_ne_nil sep s)
      | cons p ps =>
        simp only []
        rw [stringsJoin_cons_head, ← hs, ih]

theorem stringsSplit_sep_not_mem (sep : Char) (s : GoString) :
    ∀ c ∈ stringsSplit sep s, sep ∉ c := by
  induction s with
  | nil => simp [stringsSplit]
  | cons d s ih =>
    unfold stringsSplit
    split
    · intro c hc
      rcases List.mem_cons.mp hc with h | h
      · simp [h]
      · exact ih c h
    · rename_i hd
      cases hs : stringsSplit sep s with
      | nil => exact absurd hs (stringsSplit_ne_nil sep s)
      | cons p ps =>
        simp only []
        rw [hs] at ih
        intro c hc
        rcases List.mem_cons.mp hc with h | h
        · subst h
          simp only [List.mem_cons, not_or]
          exact ⟨fun h' => hd h'.symm, ih p (List.mem_cons_self _ _)⟩
        · exact ih c (List.mem_cons_of_mem _ h)

/-- Every location is a dotted scope: it is written with or without a leading
`.` from a non-empty list of dot-free components. -/
theorem location_has_scope (location : GoString) :
    ∃ cs : List GoString, cs ≠ [] ∧ (∀ c ∈ cs, '.' ∉ c) ∧
      (location = '.' :: stringsJoin cs ['.'] ∨
        (location = stringsJoin cs ['.'] ∧ stringsHasPrefix location ['.'] = false)) := by
  cases location with
  | nil => exact ⟨[[]], by simp, by simp, Or.inr ⟨rfl, rfl⟩⟩
  | cons c s =>
    by_cases hc : c = '.'
    · subst hc
      exact ⟨stringsSplit '.' s, stringsSplit_ne_nil _ _, stringsSplit_sep_not_mem _ _,
        Or.inl (by rw [stringsJoin_stringsSplit])⟩
    · refine ⟨stringsSplit '.' (c :: s), stringsSplit_ne_nil _ _, stringsSplit_sep_not_mem _ _,
        Or.inr ⟨by rw [stringsJoin_stringsSplit], ?_⟩⟩
      simp [stringsHasPrefix, hc]

/-! ## Maps -/

theorem GoMap.get_set {α β : Type} [DecidableEq α] (m : GoMap α β) (k k' : α) (v : β) :
    (m.set k v).get k' = if k = k' then some v else m.get k' := by
  induction m with
  | nil => simp [GoMap.set, GoMap.get]
  | cons p m ih =>
    obtain ⟨a, b⟩ := p
    by_cases h : a = k
    · subst h
      by_cases h' : a = k' <;> simp [GoMap.set, GoMap.get, h']
    · by_cases h' : a = k'
      · subst h'
        simp [GoMap.set, GoMap.get, h, Ne.symm h]
      · simp [GoMap.set, GoMap.get, h, h', ih]

theorem GoMap.get_set_self {α β : Type} [DecidableEq α] (m : GoMap α β) (k : α) (v : β) :
    (m.set k v).get k = some v := by
  rw [GoMap.get_set, if_pos rfl]

theorem GoMap.get_set_ne {α β : Type} [DecidableEq α] (m : GoMap α β) {k k' : α} (v : β)
    (h : k ≠ k') : (m.set k v).get k' = m.get k' := by
  rw [GoMap.get_set, if_neg h]

/-! ## Name resolution -/

/-- The scope of a location given by its components. -/
theorem stringsSplit_scopeOf (cs : List GoString) (location : GoString) (hne : cs ≠ [])
    (hdot : ∀ c ∈ cs, '.' ∉ c)
    (hloc : location = '.' :: stringsJoin cs ['.'] ∨
      (location = stringsJoin cs ['.'] ∧ stringsHasPrefix location ['.'] = false)) :
    stringsSplit '.' (scopeOf location) = [] :: cs := by
  have key : scopeOf location = '.' :: stringsJoin cs ['.'] := by
    rcases hloc with h | ⟨h, hp⟩
    · subst h
      simp [scopeOf, stringsHasPrefix]
    · unfold scopeOf
      rw [hp, h]
      simp
  rw [key, stringsSplit, if_pos rfl, stringsSplit_stringsJoin '.' cs hne hdot]

/-- The loop over the components `[] :: cs` is the search for the first key
present among the candidate keys of the scope. -/
theorem lookupLoop_eq_firstPresent {β : Type} (table : GoMap GoString β) (name : GoString)
    (cs : List GoString) (n : Nat) :
    lookupLoop table name ([] :: cs) (n + 1) =
      firstPresent table ((List.range (n + 1)).reverse.map
        (fun k => dotted (cs.take k ++ [name]))) := by
  have hr : ∀ m, (List.range (m + 1)).reverse = m :: (List.range m).reverse := by
    intro m
    rw [List.range_succ, List.reverse_append]
    rfl
  have key : ∀ m, stringsJoin (List.take (m + 1) ([] :: cs) ++ [name]) ['.'] =
      dotted (List.take m cs ++ [name]) := by
    intro m
    rw [List.take_succ_cons, List.cons_append]
    cases hcs : List.take m cs ++ [name] with
    | nil => simp at hcs
    | cons d ds => exact stringsJoin_nil_cons d ds
  induction n with
  | zero =>
    rw [lookupLoop, hr]
    simp only [key, firstPresent, List.map_cons, List.findSome?_cons, lookupLoop,
      List.range_zero, List.reverse_nil, List.map_nil, List.findSome?_nil]
    cases table.get (dotted (List.take 0 cs ++ [name])) <;> rfl
  | succ n ih =>
    rw [lookupLoop, ih, hr (n + 1)]
    simp only [key, firstPresent, List.map_cons, List.findSome?_cons]
    cases table.get (dotted (List.take (n + 1) cs ++ [name])) <;> rfl

theorem lookupLoop_scope {β : Type} (table : GoMap GoString β) (name : GoString)
    (cs : List GoString) :
    lookupLoop table name ([] :: cs) ([] :: cs : List GoString).length =
      firstPresent table (scopeKeys cs name) := by
  rw [List.length_cons, lookupLoop_eq_firstPresent]
  rfl

theorem firstPresent_eq_none {β : Type} (table : GoMap GoString β) (keys : List GoString) :
    firstPresent table keys = none ↔ ∀ k ∈ keys, table.get k = none := by
  simp [firstPresent]

/-- LookupMsg on a relative name, in terms of the candidate keys. -/
theorem LookupMsg_relative (r : Registry) (cs : List GoString) (name location : GoString)
    (hne : cs ≠ []) (hdot : ∀ c ∈ cs, '.' ∉ c) (hname : stringsHasPrefix name ['.'] = false)
    (hloc : location = '.' :: stringsJoin cs ['.'] ∨
      (location = stringsJoin cs ['.'] ∧ stringsHasPrefix location ['.'] = false)) :
    r.LookupMsg location name =
      match firstPresent r.msgs (scopeKeys cs name) with
      | some m => .ok m
      | none => .error (.noMessageFound name) := by
  unfold Registry.LookupMsg
  simp only [hname, Bool.false_eq_true, if_false]
  rw [stringsSplit_scopeOf cs location hne hdot hloc, lookupLoop_scope]

/-- LookupEnum on a relative name, in terms of the candidate keys. -/
theorem LookupEnum_relative (r : Registry) (cs : List GoString) (name location : GoString)
    (hne : cs ≠ []) (hdot : ∀ c ∈ cs, '.' ∉ c) (hname : stringsHasPrefix name ['.'] = false)
    (hloc : location = '.' :: stringsJoin cs ['.'] ∨
      (location = stringsJoin cs ['.'] ∧ stringsHasPrefix location ['.'] = false)) :
    r.LookupEnum location name =
      match firstPresent r.enums (scopeKeys cs name) with
      | some e => .ok e
      | none => .error (.noEnumFound name) := by
  unfold Registry.LookupEnum
  simp only [hname, Bool.false_eq_true, if_false]
  rw [stringsSplit_scopeOf cs location hne hdot hloc, lookupLoop_scope]

theorem dotted_append (xs ys : List GoString) : dotted (xs ++ ys) = dotted xs ++ dotted ys := by
  induction xs with
  | nil => rfl
  | cons x xs ih => simp [dotted, ih]

theorem stringsJoin_nil_cons_append (xs : List GoString) (name : GoString) :
    stringsJoin ([[]] ++ xs ++ [name]) ['.'] = dotted (xs ++ [name]) := by
  cases h : xs ++ [name] with
  | nil => simp at h
  | cons d ds =>
    rw [List.append_assoc, h]
    exact stringsJoin_nil_cons d ds

theorem stringsHasPrefix_dotted_append (xs : List GoString) (name : GoString) :
    stringsHasPrefix (dotted (xs ++ [name])) ['.'] = true := by
  cases xs <;> simp [dotted, stringsHasPrefix]

theorem Message.FQMN_eq (m : Message) :
    m.FQMN = fqName m.File.FileDescriptorProto.Package m.Outers m.DescriptorProto.GetName := by
  unfold Message.FQMN fqName
  cases m.File.FileDescriptorProto.Package with
  | none => simpa using stringsJoin_nil_cons_append m.Outers _
  | some p => simpa using stringsJoin_nil_cons_append (p :: m.Outers) _

theorem Enum.FQEN_eq (e : Enum) :
    e.FQEN = fqName e.File.FileDescriptorProto.Package e.Outers
      (getString e.EnumDescriptorProto.Name) := by
  unfold Enum.FQEN fqName
  cases e.File.FileDescriptorProto.Package with
  | none => simpa using stringsJoin_nil_cons_append e.Outers _
  | some p => simpa using stringsJoin_nil_cons_append (p :: e.Outers) _

theorem stringsHasPrefix_fqName (pkg : Option GoString) (outers : List GoString)
    (name : GoString) : stringsHasPrefix (fqName pkg outers name) ['.'] = true := by
  unfold fqName
  exact stringsHasPrefix_dotted_append _ _

/-! ## Claims on name resolution and qualified names -/

/-- C1: for a name that starts with `.`, LookupMsg returns the message stored
in the message table under exactly that name, fails with the not-found error
when the table has no such key, and gives the same result from every
location. -/
theorem C1_LookupMsg_absolute (r : Registry) (location name : GoString)
    (habs : stringsHasPrefix name ['.'] = true) :
    (∀ m, r.msgs.get name = some m → r.LookupMsg location name = .ok m) ∧
    (r.msgs.get name = none → r.LookupMsg location name = .error (.noMessageFound name)) ∧
    (∀ location', r.LookupMsg location' name = r.LookupMsg location name) := by
  refine ⟨?_, ?_, ?_⟩
  · intro m hm
    simp [Registry.LookupMsg, habs, hm]
  · intro hm
    simp [Registry.LookupMsg, habs, hm]
  · intro location'
    simp [Registry.LookupMsg, habs]

theorem C1_LookupMsg_absolute_witness :
    stringsHasPrefix ".a.T".toList ['.'] = true ∧
    Sample.regT.LookupMsg "x.y".toList ".a.T".toList = .ok Sample.messageT ∧
    Sample.regT.LookupMsg ".a".toList ".T".toList = .error (.noMessageFound ".T".toList) :=
  ⟨by decide,
   (C1_LookupMsg_absolute Sample.regT "x.y".toList ".a.T".toList (by decide)).1 _ rfl,
   (C1_LookupMsg_absolute Sample.regT ".a".toList ".T".toList (by decide)).2.1 rfl⟩

/-- C2: for a name that does not start with `.` and a location whose scope is
`.c1.c2...cn` (written with or without the leading `.`), LookupMsg returns the
message stored under the first key present among `.c1...cn.name`,
`.c1...c(n-1).name`, ..., `.c1.name`, `.name`, in this order; in particular,
from the scope `.a.b.c` a message registered as `.a.T` and neither as
`.a.b.c.T` nor as `.a.b.T` is returned for the name `T`. -/
theorem C2_LookupMsg_relative_order (r : Registry) (cs : List GoString)
    (name location : GoString) (hne : cs ≠ []) (hdot : ∀ c ∈ cs, '.' ∉ c)
    (hname : stringsHasPrefix name ['.'] = false)
    (hloc : location = '.' :: stringsJoin cs ['.'] ∨
      (location = stringsJoin cs ['.'] ∧ stringsHasPrefix location ['.'] = false)) :
    (r.LookupMsg location name =
      match firstPresent r.msgs (scopeKeys cs name) with
      | some m => .ok m
      | none => .error (.noMessageFound name)) ∧
    (∀ a b c m, cs = [a, b, c] → r.msgs.get (dotted [a, b, c, name]) = none →
      r.msgs.get (dotted [a, b, name]) = none → r.msgs.get (dotted [a, name]) = some m →
      r.LookupMsg location name = .ok m) := by
  have h := LookupMsg_relative r cs name location hne hdot hname hloc
  refine ⟨h, ?_⟩
  intro a b c m hcs h3 h2 h1
  subst hcs
  rw [h]
  simp [scopeKeys, firstPresent, List.range_succ, h1, h2, h3]

theorem C2_LookupMsg_relative_order_witness :
    Sample.regT.LookupMsg ".a.b.c".toList ['T'] = .ok Sample.messageT ∧
    Sample.regT.LookupMsg "a.b.c".toList ['T'] = .ok Sample.messageT :=
  ⟨(C2_LookupMsg_relative_order Sample.regT [['a'], ['b'], ['c']] ['T'] ".a.b.c".toList
      (by decide) (by decide) (by decide) (Or.inl (by decide))).2
      ['a'] ['b'] ['c'] Sample.messageT rfl rfl rfl rfl,
   (C2_LookupMsg_relative_order Sample.regT [['a'], ['b'], ['c']] ['T'] "a.b.c".toList
      (by decide) (by decide) (by decide) (Or.inr ⟨by decide, by decide⟩)).2
      ['a'] ['b'] ['c'] Sample.messageT rfl rfl rfl rfl⟩

/-- C3: for a relative name, LookupMsg returns the not-found error exactly
when none of the candidate keys of the location's scope (from the full scope
down to the empty scope, each followed by `.` and the name) is present in the
message table, and it returns no other error; the same holds for LookupEnum
over the enum table. -/
theorem C3_Lookup_not_found_iff (r : Registry) (cs : List GoString)
    (name location : GoString) (hne : cs ≠ []) (hdot : ∀ c ∈ cs, '.' ∉ c)
    (hname : stringsHasPrefix name ['.'] = false)
    (hloc : location = '.' :: stringsJoin cs ['.'] ∨
      (location = stringsJoin cs ['.'] ∧ stringsHasPrefix location ['.'] = false)) :
    ((∃ err, r.LookupMsg location name = .error err) ↔
      ∀ k ∈ scopeKeys cs name, r.msgs.get k = none) ∧
    (∀ err, r.LookupMsg location name = .error err → err = .noMessageFound name) ∧
    ((∃ err, r.LookupEnum location name = .error err) ↔
      ∀ k ∈ scopeKeys cs name, r.enums.get k = none) ∧
    (∀ err, r.LookupEnum location name = .error err → err = .noEnumFound name) := by
  have hm := LookupMsg_relative r cs name location hne hdot hname hloc
  have he := LookupEnum_relative r cs name location hne hdot hname hloc
  rw [hm, he, ← firstPresent_eq_none, ← firstPresent_eq_none]
  refine ⟨?_, ?_, ?_, ?_⟩
  · cases firstPresent r.msgs (scopeKeys cs name) <;> simp
  · cases firstPresent r.msgs (scopeKeys cs name) <;> simp
  · cases firstPresent r.enums (scopeKeys cs name) <;> simp
  · cases firstPresent r.enums (scopeKeys cs name) <;> simp

theorem C3_Lookup_not_found_iff_witness :
    (∃ err, Sample.regT.LookupMsg ".a.b".toList ['K'] = .error err) ∧
    (∃ err, Sample.regT.LookupEnum ".a.b".toList ['T'] = .error err) :=
  ⟨(C3_Lookup_not_found_iff Sample.regT [['a'], ['b']] ['K'] ".a.b".toList
      (by decide) (by decide) (by decide) (Or.inl (by decide))).1.2
      (by
        rw [show scopeKeys [['a'], ['b']] ['K'] = [".a.b.K".toList, ".a.K".toList, ".K".toList]
          from by decide]
        intro k hk
        simp only [List.mem_cons, List.mem_nil_iff, or_false] at hk
        rcases hk with rfl | rfl | rfl <;> rfl),
   (C3_Lookup_not_found_iff Sample.regT [['a'], ['b']] ['T'] ".a.b".toList
      (by decide) (by decide) (by decide) (Or.inl (by decide))).2.2.1.2
      (by
        rw [show scopeKeys [['a'], ['b']] ['T'] = [".a.b.T".toList, ".a.T".toList, ".T".toList]
          from by decide]
        intro k hk
        simp only [List.mem_cons, List.mem_nil_iff, or_false] at hk
        rcases hk with rfl | rfl | rfl <;> rfl)⟩

/-- C6: for a message whose file declares the package `p`, FQMN is
`.` + `p` + `.` + `o1` + ... + `.` + `ok` + `.` + `n` for the outer chain
`o1..ok` and the name `n`; FQMN always starts with `.`; FQEN obeys the same
rule for enums. -/
theorem C6_FQMN_FQEN_format (m : Message) (e : Enum) :
    (∀ p, m.File.FileDescriptorProto.Package = some p →
      m.FQMN = '.' :: p ++ dotted m.Outers ++ '.' :: m.DescriptorProto.GetName) ∧
    stringsHasPrefix m.FQMN ['.'] = true ∧
    (∀ p, e.File.FileDescriptorProto.Package = some p →
      e.FQEN = '.' :: p ++ dotted e.Outers ++ '.' :: getString e.EnumDescriptorProto.Name) ∧
    stringsHasPrefix e.FQEN ['.'] = true := by
  refine ⟨?_, ?_, ?_, ?_⟩
  · intro p hp
    rw [Message.FQMN_eq, hp]
    simp [fqName, dotted, dotted_append]
  · rw [Message.FQMN_eq]
    exact stringsHasPrefix_fqName _ _ _
  · intro p hp
    rw [Enum.FQEN_eq, hp]
    simp [fqName, dotted, dotted_append]
  · rw [Enum.FQEN_eq]
    exact stringsHasPrefix_fqName _ _ _

theorem C6_FQMN_FQEN_format_witness :
    Sample.messageU.FQMN = ".a.T.U".toList ∧ Sample.enumK.FQEN = ".a.K".toList :=
  ⟨(C6_FQMN_FQEN_format Sample.messageU Sample.enumK).1 ['a'] rfl,
   (C6_FQMN_FQEN_format Sample.messageU Sample.enumK).2.2.1 ['a'] rfl⟩

/-! ## Package paths -/

theorem stringsLastIndex_ge (c : Char) (s : GoString) : -1 ≤ stringsLastIndex c s := by
  induction s with
  | nil => simp [stringsLastIndex]
  | cons d s ih =>
    simp only [stringsLastIndex]
    split
    · omega
    · split <;> omega

theorem stringsLastIndex_not_mem (c : Char) (s : GoString) (h : c ∉ s) :
    stringsLastIndex c s = -1 := by
  induction s with
  | nil => rfl
  | cons d s ih =>
    simp only [List.mem_cons, not_or] at h
    simp [stringsLastIndex, ih h.2, Ne.symm h.1]

theorem stringsLastIndex_append (c : Char) (pre post : GoString) (h : c ∉ post) :
    stringsLastIndex c (pre ++ c :: post) = pre.length := by
  induction pre with
  | nil => simp [stringsLastIndex, stringsLastIndex_not_mem c post h]
  | cons d pre ih =>
    have hstep : stringsLastIndex c (d :: (pre ++ c :: post)) =
        if 0 ≤ stringsLastIndex c (pre ++ c :: post) then
          stringsLastIndex c (pre ++ c :: post) + 1
        else if d = c then 0 else -1 := rfl
    rw [List.cons_append, hstep, ih, if_pos (by omega), List.length_cons]
    push_cast
    rfl

theorem stringsLastIndex_nonneg_iff (c : Char) (s : GoString) :
    0 ≤ stringsLastIndex c s ↔ c ∈ s := by
  induction s with
  | nil => simp [stringsLastIndex]
  | cons d s ih =>
    simp only [stringsLastIndex, List.mem_cons]
    by_cases h : 0 ≤ stringsLastIndex c s
    · rw [if_pos h]
      constructor
      · intro _
        exact Or.inr (ih.mp h)
      · intro _
        omega
    · rw [if_neg h]
      have hs : c ∉ s := fun hc => h (ih.mpr hc)
      by_cases hd : d = c
      · simp [hd]
      · simp [hd, hs, Ne.symm hd]

/-- C10: goPackagePath is the configured prefix joined with the override
package when an override is registered for the file's name (whatever the
go_package option is, and in particular after AddPkgMap and SetPrefix);
otherwise, when go_package contains `/`, it is go_package cut just before its
last `;` if that `;` is not the first character, and go_package itself if it
has no `;` or only a leading one, the prefix not being used; otherwise it is
the prefix joined with the directory of the file's name. -/
theorem C10_goPackagePath_cases (r : Registry) (f : FileDescriptorProto) :
    (∀ pkg, r.pkgMap.get (getString f.Name) = some pkg →
      r.goPackagePath f = pathJoin r.importPrefix pkg) ∧
    (∀ pkg pfx, ((r.AddPkgMap (getString f.Name) pkg).SetPrefix pfx).goPackagePath f =
      pathJoin pfx pkg) ∧
    (r.pkgMap.get (getString f.Name) = none → '/' ∈ f.GetGoPackage →
      (∀ pre post, f.GetGoPackage = pre ++ ';' :: post → ';' ∉ post → pre ≠ [] →
        r.goPackagePath f = pre) ∧
      ((';' ∉ f.GetGoPackage ∨ ∃ post, f.GetGoPackage = ';' :: post ∧ ';' ∉ post) →
        r.goPackagePath f = f.GetGoPackage)) ∧
    (r.pkgMap.get (getString f.Name) = none → '/' ∉ f.GetGoPackage →
      r.goPackagePath f = pathJoin r.importPrefix (pathDir (getString f.Name))) := by
  refine ⟨?_, ?_, ?_, ?_⟩
  · intro pkg hpkg
    simp [Registry.goPackagePath, hpkg]
  · intro pkg pfx
    simp [Registry.goPackagePath, Registry.AddPkgMap, Registry.SetPrefix, GoMap.get_set_self]
  · intro hnone hslash
    have hidx : 0 ≤ stringsLastIndex '/' f.GetGoPackage :=
      (stringsLastIndex_nonneg_iff _ _).mpr hslash
    refine ⟨?_, ?_⟩
    · intro pre post hsplit hpost hpre
      have hsc : stringsLastIndex ';' f.GetGoPackage = pre.length := by
        rw [hsplit]
        exact stringsLastIndex_append ';' pre post hpost
      have hlen : 0 < pre.length := List.length_pos.mpr hpre
      simp only [Registry.goPackagePath, hnone, hidx, if_true, hsc]
      rw [if_pos (by omega)]
      simp [sliceTo, hsplit]
    · intro h
      have hsc : ¬ 0 < stringsLastIndex ';' f.GetGoPackage := by
        rcases h with h | ⟨post, hsplit, hpost⟩
        · rw [stringsLastIndex_not_mem _ _ h]
          omega
        · rw [hsplit]
          have := stringsLastIndex_append ';' [] post hpost
          simp only [List.nil_append, List.length_nil] at this
          rw [this]
          simp
      simp only [Registry.goPackagePath, hnone, hidx, if_true]
      rw [if_neg hsc]
  · intro hnone hslash
    have hidx : ¬ 0 ≤ stringsLastIndex '/' f.GetGoPackage := by
      rw [stringsLastIndex_nonneg_iff]
      exact hslash
    simp [Registry.goPackagePath, hnone, hidx]

theorem C10_goPackagePath_cases_witness :
    (NewRegistry.SetPrefix "pfx".toList).goPackagePath Sample.fileC = "example.com/x/y".toList ∧
    (NewRegistry.SetPrefix "pfx".toList).goPackagePath Sample.fileA = "pfx/x".toList ∧
    ((NewRegistry.SetPrefix "pfx".toList).AddPkgMap "z/c.proto".toList
      "over/ride".toList).goPackagePath Sample.fileC = "pfx/over/ride".toList :=
  ⟨((C10_goPackagePath_cases (NewRegistry.SetPrefix "pfx".toList) Sample.fileC).2.2.1
      (by decide) (by decide)).1 "example.com/x/y".toList ['z'] (by decide) (by decide)
      (by decide),
   (C10_goPackagePath_cases (NewRegistry.SetPrefix "pfx".toList) Sample.fileA).2.2.2
      (by decide) (by decide),
   (C10_goPackagePath_cases ((NewRegistry.SetPrefix "pfx".toList).AddPkgMap "z/c.proto".toList
      "over/ride".toList) Sample.fileC).1 "over/ride".toList (by decide)⟩

/-! ## Aliases -/

theorem digitChar_value (d : Nat) (h : d < 10) : (Nat.digitChar d).toNat - 48 = d := by
  interval_cases d <;> rfl

theorem decimalValue_concat (xs : GoString) (c : Char) :
    decimalValue (xs ++ [c]) = 10 * decimalValue xs + (c.toNat - 48) := by
  simp [decimalValue]

theorem decimalValue_decimalDigits (fuel n : Nat) (h : n < fuel) :
    decimalValue (decimalDigits fuel n) = n := by
  induction fuel generalizing n with
  | zero => omega
  | succ fuel ih =>
    unfold decimalDigits
    split
    · rename_i hlt
      simpa [decimalValue] using digitChar_value n hlt
    · rw [decimalValue_concat, ih (n / 10) (by omega), digitChar_value (n % 10) (by omega)]
      omega

theorem formatDecimal_injective {i j : Nat} (h : formatDecimal i = formatDecimal j) : i = j := by
  have hi := decimalValue_decimalDigits (i + 1) i (by omega)
  have hj := decimalValue_decimalDigits (j + 1) j (by omega)
  unfold formatDecimal at h
  rw [h, hj] at hi
  exact hi.symm

theorem aliasOf_injective {name : GoString} {i j : Nat} (h : aliasOf name i = aliasOf name j) :
    i = j :=
  formatDecimal_injective (List.append_cancel_left h)

theorem aliasOf_ne_nil (name : GoString) (i : Nat) : aliasOf name i ≠ [] := by
  simp [aliasOf]

theorem GoMap.mem_keys_of_get {α β : Type} [DecidableEq α] (m : GoMap α β) (k : α) (v : β)
    (h : m.get k = some v) : k ∈ m.map Prod.fst := by
  induction m with
  | nil => simp [GoMap.get] at h
  | cons p m ih =>
    obtain ⟨a, b⟩ := p
    by_cases hk : a = k
    · simp [hk]
    · simp only [GoMap.get, hk, if_false] at h
      simp [ih h]

theorem GoMap.length_set_le {α β : Type} [DecidableEq α] (m : GoMap α β) (k : α) (v : β) :
    (m.set k v).length ≤ m.length + 1 := by
  induction m with
  | nil => simp [GoMap.set]
  | cons p m ih =>
    obtain ⟨a, b⟩ := p
    by_cases hk : a = k
    · simp [GoMap.set, hk]
    · simp only [GoMap.set, hk, if_false, List.length_cons]
      omega

/-- The three cases of ReserveGoPackageAlias. -/
theorem Registry.reserve_cases (r : Registry) (a p : GoString) :
    (r.pkgAliases.get a = some p ∧ r.ReserveGoPackageAlias a p = (r, none)) ∨
    (TakenByOther r a p ∧ r.ReserveGoPackageAlias a p = (r, some (.aliasTaken a))) ∨
    (r.pkgAliases.get a = none ∧
      r.ReserveGoPackageAlias a p = ({ r with pkgAliases := r.pkgAliases.set a p }, none)) := by
  unfold Registry.ReserveGoPackageAlias TakenByOther
  cases h : r.pkgAliases.get a with
  | none => simp
  | some t =>
    by_cases ht : t = p
    · simp [ht]
    · simp [ht]

theorem Registry.reserve_snd_eq_none_iff (r : Registry) (a p : GoString) :
    (r.ReserveGoPackageAlias a p).2 = none ↔ ¬ TakenByOther r a p := by
  rcases r.reserve_cases a p with ⟨h, e⟩ | ⟨h, e⟩ | ⟨h, e⟩
  · simp [e, TakenByOther, h]
  · simp [e, h]
  · simp [e, TakenByOther, h]

/-- What a successful reservation leaves behind. -/
theorem Registry.reserve_ok (r : Registry) (a p : GoString)
    (h : (r.ReserveGoPackageAlias a p).2 = none) :
    (r.ReserveGoPackageAlias a p).1.pkgAliases.get a = some p ∧
    (∀ k v, r.pkgAliases.get k = some v →
      (r.ReserveGoPackageAlias a p).1.pkgAliases.get k = some v) ∧
    (r.ReserveGoPackageAlias a p).1.pkgAliases.length ≤ r.pkgAliases.length + 1 ∧
    (r.ReserveGoPackageAlias a p).1.msgs = r.msgs ∧
    (r.ReserveGoPackageAlias a p).1.enums = r.enums ∧
    (r.ReserveGoPackageAlias a p).1.files = r.files ∧
    (r.ReserveGoPackageAlias a p).1.importPrefix = r.importPrefix ∧
    (r.ReserveGoPackageAlias a p).1.pkgMap = r.pkgMap := by
  rcases r.reserve_cases a p with ⟨hg, e⟩ | ⟨hg, e⟩ | ⟨hg, e⟩
  · rw [e]
    simp [hg]
  · rw [e] at h
    simp at h
  · rw [e]
    refine ⟨GoMap.get_set_self _ _ _, ?_, GoMap.length_set_le _ _ _, rfl, rfl, rfl, rfl, rfl⟩
    intro k v hk
    have hne : a ≠ k := by
      intro hak
      rw [hak, hk] at hg
      cases hg
    simpa [GoMap.get_set_ne _ _ hne] using hk

theorem Registry.aliasLoop_succ (r : Registry) (pkg : GoPackage) (fuel i : Nat) :
    r.aliasLoop pkg (fuel + 1) i =
      if (r.ReserveGoPackageAlias (aliasOf pkg.Name i) pkg.Path).2 = none then
        some ((r.ReserveGoPackageAlias (aliasOf pkg.Name i) pkg.Path).1,
          { pkg with Alias := aliasOf pkg.Name i })
      else r.aliasLoop pkg fuel (i + 1) := by
  rw [Registry.aliasLoop]
  rcases r.reserve_cases (aliasOf pkg.Name i) pkg.Path with ⟨_, e⟩ | ⟨_, e⟩ | ⟨_, e⟩ <;>
    simp [e]

/-- The alias loop, when it returns, has chosen the first index whose alias
is not reserved for another path. -/
theorem Registry.aliasLoop_some (r : Registry) (pkg : GoPackage) (fuel i : Nat)
    (r' : Registry) (pkg' : GoPackage) (h : r.aliasLoop pkg fuel i = some (r', pkg')) :
    ∃ j, i ≤ j ∧ j < i + fuel ∧ pkg' = { pkg with Alias := aliasOf pkg.Name j } ∧
      (∀ l, i ≤ l → l < j → TakenByOther r (aliasOf pkg.Name l) pkg.Path) ∧
      ¬ TakenByOther r (aliasOf pkg.Name j) pkg.Path ∧
      r' = (r.ReserveGoPackageAlias (aliasOf pkg.Name j) pkg.Path).1 := by
  induction fuel generalizing i with
  | zero => simp [Registry.aliasLoop] at h
  | succ fuel ih =>
    rw [Registry.aliasLoop_succ] at h
    by_cases hfree : (r.ReserveGoPackageAlias (aliasOf pkg.Name i) pkg.Path).2 = none
    · rw [if_pos hfree] at h
      simp only [Option.some.injEq, Prod.mk.injEq] at h
      refine ⟨i, le_refl _, by omega, h.2.symm, ?_, ?_, h.1.symm⟩
      · intro l h1 h2
        omega
      · exact (r.reserve_snd_eq_none_iff _ _).mp hfree
    · rw [if_neg hfree] at h
      obtain ⟨j, h1, h2, h3, h4, h5, h6⟩ := ih (i + 1) h
      refine ⟨j, by omega, by omega, h3, ?_, h5, h6⟩
      intro l hl1 hl2
      by_cases hli : l = i
      · subst hli
        by_contra hcon
        exact hfree ((r.reserve_snd_eq_none_iff _ _).mpr hcon)
      · exact h4 l (by omega) hl2

/-- The alias loop returns the index `j` when the aliases before `j` are
reserved for other paths, the alias of `j` is not, and the fuel reaches `j`. -/
theorem Registry.aliasLoop_eq (r : Registry) (pkg : GoPackage) (fuel i j : Nat)
    (hij : i ≤ j) (hfuel : j < i + fuel)
    (hbusy : ∀ l, i ≤ l → l < j → TakenByOther r (aliasOf pkg.Name l) pkg.Path)
    (hfree : ¬ TakenByOther r (aliasOf pkg.Name j) pkg.Path) :
    r.aliasLoop pkg fuel i =
      some ((r.ReserveGoPackageAlias (aliasOf pkg.Name j) pkg.Path).1,
        { pkg with Alias := aliasOf pkg.Name j }) := by
  induction fuel generalizing i with
  | zero => omega
  | succ fuel ih =>
    rw [Registry.aliasLoop_succ]
    by_cases hi : i = j
    · subst hi
      rw [if_pos ((r.reserve_snd_eq_none_iff _ _).mpr hfree)]
    · have hb := hbusy i (le_refl _) (by omega)
      rw [if_neg (fun hn => (r.reserve_snd_eq_none_iff _ _).mp hn hb)]
      exact ih (i + 1) (by omega) (by omega) (fun l h1 h2 => hbusy l (by omega) h2)

theorem Registry.aliasLoop_none (r : Registry) (pkg : GoPackage) (fuel i : Nat)
    (h : r.aliasLoop pkg fuel i = none) :
    ∀ l, i ≤ l → l < i + fuel → TakenByOther r (aliasOf pkg.Name l) pkg.Path := by
  induction fuel generalizing i with
  | zero =>
    intro l h1 h2
    omega
  | succ fuel ih =>
    rw [Registry.aliasLoop_succ] at h
    by_cases hfree : (r.ReserveGoPackageAlias (aliasOf pkg.Name i) pkg.Path).2 = none
    · rw [if_pos hfree] at h
      cases h
    · rw [if_neg hfree] at h
      intro l h1 h2
      by_cases hli : l = i
      · subst hli
        by_contra hcon
        exact hfree ((r.reserve_snd_eq_none_iff _ _).mpr hcon)
      · exact ih (i + 1) h l (by omega) (by omega)

/-- The alias loop finds a free alias within as many steps as there are
reserved aliases, plus one. -/
theorem Registry.aliasLoop_ne_none (r : Registry) (pkg : GoPackage) (fuel i : Nat)
    (hfuel : r.pkgAliases.length < fuel) : r.aliasLoop pkg fuel i ≠ none := by
  intro h
  have hall := r.aliasLoop_none pkg fuel i h
  have hcard : (Finset.range fuel).card ≤ (r.pkgAliases.map Prod.fst).toFinset.card := by
    apply Finset.card_le_card_of_injOn (fun l => aliasOf pkg.Name (i + l))
    · intro l hl
      obtain ⟨t, ht, _⟩ := hall (i + l) (by omega) (by simpa using hl)
      simpa using GoMap.mem_keys_of_get _ _ _ ht
    · intro a _ b _ hab
      have := aliasOf_injective hab
      omega
  have hle := List.toFinset_card_le (r.pkgAliases.map Prod.fst)
  simp only [Finset.card_range, List.length_map] at hcard hle
  omega

/-- The outcome of the alias reservation of loadFile. -/
theorem Registry.reservePackage_some (fuel : Nat) (r : Registry) (file : FileDescriptorProto)
    (r1 : Registry) (pkg : GoPackage) (h : r.reservePackage fuel file = some (r1, pkg)) :
    pkg.Path = r.goPackagePath file ∧ pkg.Name = defaultGoPackageName file ∧
    ((¬ TakenByOther r pkg.Name pkg.Path ∧ pkg.Alias = [] ∧
        r1 = (r.ReserveGoPackageAlias pkg.Name pkg.Path).1) ∨
      (TakenByOther r pkg.Name pkg.Path ∧ ∃ j, j < fuel ∧ pkg.Alias = aliasOf pkg.Name j ∧
        (∀ l, l < j → TakenByOther r (aliasOf pkg.Name l) pkg.Path) ∧
        ¬ TakenByOther r (aliasOf pkg.Name j) pkg.Path ∧
        r1 = (r.ReserveGoPackageAlias (aliasOf pkg.Name j) pkg.Path).1)) := by
  unfold Registry.reservePackage at h
  rcases r.reserve_cases (defaultGoPackageName file) (r.goPackagePath file) with
    ⟨hg, e⟩ | ⟨hg, e⟩ | ⟨hg, e⟩
  · simp only [e, Option.some.injEq, Prod.mk.injEq] at h
    obtain ⟨h1, h2⟩ := h
    subst h1 h2
    refine ⟨rfl, rfl, Or.inl ⟨?_, rfl, ?_⟩⟩
    · exact (r.reserve_snd_eq_none_iff _ _).mp (by rw [e])
    · simp only [e]
  · simp only [e] at h
    obtain ⟨j, _, h2, h3, h4, h5, h6⟩ := r.aliasLoop_some _ fuel 0 r1 pkg h
    subst h3
    exact ⟨rfl, rfl, Or.inr ⟨hg, j, by omega, rfl, fun l hl => h4 l (Nat.zero_le _) hl, h5, h6⟩⟩
  · simp only [e, Option.some.injEq, Prod.mk.injEq] at h
    obtain ⟨h1, h2⟩ := h
    subst h1 h2
    refine ⟨rfl, rfl, Or.inl ⟨?_, rfl, ?_⟩⟩
    · exact (r.reserve_snd_eq_none_iff _ _).mp (by rw [e])
    · simp only [e]

/-- After the alias reservation the alias table maps the identifier the
package is imported under to the package path; reserved aliases stay
reserved and nothing else changes. -/
theorem Registry.reservePackage_post (fuel : Nat) (r : Registry) (file : FileDescriptorProto)
    (r1 : Registry) (pkg : GoPackage) (h : r.reservePackage fuel file = some (r1, pkg)) :
    r1.pkgAliases.get (effectiveIdent pkg) = some pkg.Path ∧
    (∀ k v, r.pkgAliases.get k = some v → r1.pkgAliases.get k = some v) ∧
    r1.pkgAliases.length ≤ r.pkgAliases.length + 1 ∧
    r1.msgs = r.msgs ∧ r1.enums = r.enums ∧ r1.files = r.files ∧
    r1.importPrefix = r.importPrefix ∧ r1.pkgMap = r.pkgMap := by
  obtain ⟨_, _, hc | hc⟩ := r.reservePackage_some fuel file r1 pkg h
  · obtain ⟨hfree, halias, hr1⟩ := hc
    have hok := r.reserve_ok pkg.Name pkg.Path ((r.reserve_snd_eq_none_iff _ _).mpr hfree)
    rw [← hr1] at hok
    have hid : effectiveIdent pkg = pkg.Name := by simp [effectiveIdent, halias]
    rw [hid]
    exact hok
  · obtain ⟨_, j, _, halias, _, hfree, hr1⟩ := hc
    have hok := r.reserve_ok (aliasOf pkg.Name j) pkg.Path
      ((r.reserve_snd_eq_none_iff _ _).mpr hfree)
    rw [← hr1] at hok
    have hid : effectiveIdent pkg = aliasOf pkg.Name j := by
      simp [effectiveIdent, halias, aliasOf_ne_nil]
    rw [hid]
    exact hok

/-- The alias reservation of loadFile returns when the fuel exceeds the
number of reserved aliases. -/
theorem Registry.reservePackage_ne_none (fuel : Nat) (r : Registry) (file : FileDescriptorProto)
    (hfuel : r.pkgAliases.length < fuel) : r.reservePackage fuel file ≠ none := by
  unfold Registry.reservePackage
  rcases r.reserve_cases (defaultGoPackageName file) (r.goPackagePath file) with
    ⟨hg, e⟩ | ⟨hg, e⟩ | ⟨hg, e⟩
  · simp [e]
  · simp only [e]
    exact r.aliasLoop_ne_none _ fuel 0 hfuel
  · simp [e]

/-! ## Registration of messages and enums -/

theorem RegPost.unchanged (r : Registry) (file : File) : RegPost r file (r, file) :=
  ⟨⟨rfl, rfl, rfl, rfl⟩, rfl, rfl, fun _ h => h, fun _ h => h, fun _ _ h => Or.inl h,
    fun _ _ h => Or.inl h⟩

theorem RegPost.andThen {r : Registry} {file : File} {res1 res2 : Registry × File}
    (h1 : RegPost r file res1) (h2 : RegPost res1.1 res1.2 res2) : RegPost r file res2 := by
  obtain ⟨⟨a1, a2, a3, a4⟩, b, c, d, e, f, g⟩ := h1
  obtain ⟨⟨a1', a2', a3', a4'⟩, b', c', d', e', f', g'⟩ := h2
  refine ⟨⟨a1'.trans a1, a2'.trans a2, a3'.trans a3, a4'.trans a4⟩, b'.trans b, c'.trans c,
    fun k h => d' k (d k h), fun k h => e' k (e k h), ?_, ?_⟩
  · intro k m hm
    rcases f' k m hm with h | h
    · exact f k m h
    · exact Or.inr h
  · intro k en hen
    rcases g' k en hen with h | h
    · exact g k en h
    · exact Or.inr h

theorem RegPost.setMsg (r : Registry) (file : File) (m : Message) (ms : List Message) :
    RegPost r file ({ r with msgs := r.msgs.set m.FQMN m }, { file with Messages := ms }) ∧
    MsgOK { r with msgs := r.msgs.set m.FQMN m } m.FQMN := by
  refine ⟨⟨⟨rfl, rfl, rfl, rfl⟩, rfl, rfl, ?_, fun _ h => h, ?_, fun _ _ h => Or.inl h⟩, ?_⟩
  · intro k hk
    by_cases hkm : m.FQMN = k
    · exact ⟨m, by simp [GoMap.get_set, hkm], hkm⟩
    · obtain ⟨m', h1, h2⟩ := hk
      exact ⟨m', by simpa [GoMap.get_set, hkm] using h1, h2⟩
  · intro k m' hm'
    by_cases hkm : m.FQMN = k
    · simp only [GoMap.get_set, hkm, if_true, Option.some.injEq] at hm'
      subst hm'
      exact Or.inr hkm
    · simp only [GoMap.get_set, hkm, if_false] at hm'
      exact Or.inl hm'
  · exact ⟨m, GoMap.get_set_self _ _ _, rfl⟩

theorem RegPost.setEnum (r : Registry) (file : File) (e : Enum) (es : List Enum) :
    RegPost r file ({ r with enums := r.enums.set e.FQEN e }, { file with Enums := es }) ∧
    EnumOK { r with enums := r.enums.set e.FQEN e } e.FQEN := by
  refine ⟨⟨⟨rfl, rfl, rfl, rfl⟩, rfl, rfl, fun _ h => h, ?_, fun _ _ h => Or.inl h, ?_⟩, ?_⟩
  · intro k hk
    by_cases hkm : e.FQEN = k
    · exact ⟨e, by simp [GoMap.get_set, hkm], hkm⟩
    · obtain ⟨m', h1, h2⟩ := hk
      exact ⟨m', by simpa [GoMap.get_set, hkm] using h1, h2⟩
  · intro k m' hm'
    by_cases hkm : e.FQEN = k
    · simp only [GoMap.get_set, hkm, if_true, Option.some.injEq] at hm'
      subst hm'
      exact Or.inr hkm
    · simp only [GoMap.get_set, hkm, if_false] at hm'
      exact Or.inl hm'
  · exact ⟨e, GoMap.get_set_self _ _ _, rfl⟩

theorem RegPost.package_eq {r : Registry} {file : File} {res : Registry × File}
    (h : RegPost r file res) :
    res.2.FileDescriptorProto.Package = file.FileDescriptorProto.Package := by
  have := congrArg (fun i => i.FileDescriptorProto.Package) h.2.1
  simpa [File.info] using this

theorem Registry.registerEnum_cons (r : Registry) (file : File) (outers : List GoString)
    (ed : EnumDescriptorProto) (rest : List EnumDescriptorProto) (i : Nat) :
    r.registerEnum file outers (ed :: rest) i =
      Registry.registerEnum
        { r with enums := r.enums.set (mkEnum file outers ed i).FQEN (mkEnum file outers ed i) }
        { file with Enums := file.Enums ++ [mkEnum file outers ed i] } outers rest (i + 1) := by
  rw [Registry.registerEnum]
  rfl

theorem mkEnum_FQEN (file : File) (outers : List GoString) (ed : EnumDescriptorProto) (i : Nat) :
    (mkEnum file outers ed i).FQEN =
      fqName file.FileDescriptorProto.Package outers (getString ed.Name) := by
  rw [Enum.FQEN_eq]
  rfl

theorem mkMessage_FQMN (file : File) (outers : List GoString) (md : DescriptorProto) (i : Nat) :
    (mkMessage file outers md i).FQMN =
      fqName file.FileDescriptorProto.Package outers md.GetName := by
  rw [Message.FQMN_eq]
  rfl

/-- The function registerEnum stores every enum of the list under its
fully-qualified name. -/
theorem Registry.registerEnum_post (eds : List EnumDescriptorProto) (r : Registry) (file : File)
    (outers : List GoString) (i : Nat) :
    RegPost r file (r.registerEnum file outers eds i) ∧
    ∀ ed ∈ eds, EnumOK (r.registerEnum file outers eds i).1
      (fqName file.FileDescriptorProto.Package outers (getString ed.Name)) := by
  induction eds generalizing r file i with
  | nil => exact ⟨RegPost.unchanged r file, fun _ h => absurd h (List.not_mem_nil _)⟩
  | cons ed rest ih =>
    rw [Registry.registerEnum_cons]
    obtain ⟨hstep, hok⟩ := RegPost.setEnum r file (mkEnum file outers ed i)
      (file.Enums ++ [mkEnum file outers ed i])
    obtain ⟨hrest, hcov⟩ := ih
      { r with enums := r.enums.set (mkEnum file outers ed i).FQEN (mkEnum file outers ed i) }
      { file with Enums := file.Enums ++ [mkEnum file outers ed i] } (i + 1)
    refine ⟨hstep.andThen hrest, ?_⟩
    intro ed' hed'
    rcases List.mem_cons.mp hed' with h | h
    · subst h
      rw [← mkEnum_FQEN file outers ed' i]
      exact hrest.2.2.2.2.1 _ hok
    · exact hcov ed' h

theorem MsgIn.consCases {outers o' : List GoString} {md md' : DescriptorProto}
    {rest : List DescriptorProto} (h : MsgIn outers (md :: rest) o' md') :
    (o' = outers ∧ md' = md) ∨ MsgIn (outers ++ [md.GetName]) md.GetNestedType o' md' ∨
      MsgIn outers rest o' md' := by
  cases h with
  | here hmem =>
    rcases List.mem_cons.mp hmem with h | h
    · exact Or.inl ⟨rfl, h⟩
    · exact Or.inr (Or.inr (MsgIn.here h))
  | nested hmem hin =>
    rcases List.mem_cons.mp hmem with h | h
    · subst h
      exact Or.inr (Or.inl hin)
    · exact Or.inr (Or.inr (MsgIn.nested h hin))

theorem EnumIn.consSplit {outers o' : List GoString} {md : DescriptorProto}
    {ed : EnumDescriptorProto} {rest : List DescriptorProto}
    (h : EnumIn outers (md :: rest) o' ed) :
    (o' = outers ++ [md.GetName] ∧ ed ∈ md.GetEnumType) ∨
      EnumIn (outers ++ [md.GetName]) md.GetNestedType o' ed ∨ EnumIn outers rest o' ed := by
  cases h with
  | here hmem hed =>
    rcases List.mem_cons.mp hmem with h | h
    · subst h
      exact Or.inl ⟨rfl, hed⟩
    · exact Or.inr (Or.inr (EnumIn.here h hed))
  | nested hmem hin =>
    rcases List.mem_cons.mp hmem with h | h
    · subst h
      exact Or.inr (Or.inl hin)
    · exact Or.inr (Or.inr (EnumIn.nested h hin))

theorem MsgCover.nil (pkg : Option GoString) (r : Registry) (outers : List GoString) :
    MsgCover pkg r outers [] := by
  refine ⟨?_, ?_⟩
  · intro o' md' h
    cases h with
    | here hmem => exact absurd hmem (List.not_mem_nil _)
    | nested hmem _ => exact absurd hmem (List.not_mem_nil _)
  · intro o' ed h
    cases h with
    | here hmem _ => exact absurd hmem (List.not_mem_nil _)
    | nested hmem _ => exact absurd hmem (List.not_mem_nil _)

theorem MsgCover.keep {pkg : Option GoString} {r : Registry} {file : File}
    {res : Registry × File} {outers : List GoString} {mds : List DescriptorProto}
    (h : RegPost r file res) (hc : MsgCover pkg r outers mds) : MsgCover pkg res.1 outers mds :=
  ⟨fun o' md' hin => h.2.2.2.1 _ (hc.1 o' md' hin),
   fun o' ed hin => h.2.2.2.2.1 _ (hc.2 o' ed hin)⟩

theorem Registry.registerMsg_cons (r : Registry) (file : File) (outers : List GoString)
    (md : DescriptorProto) (rest : List DescriptorProto) (i : Nat) :
    r.registerMsg file outers (md :: rest) i =
      Registry.registerMsg (r.registerMsgBody file outers md i).1
        (r.registerMsgBody file outers md i).2 outers rest (i + 1) := by
  rw [Registry.registerMsg]

theorem Registry.registerMsgBody_eq (r : Registry) (file : File) (outers : List GoString)
    (md : DescriptorProto) (i : Nat) :
    r.registerMsgBody file outers md i =
      Registry.registerEnum
        (Registry.registerMsg (r.storeMsg (mkMessage file outers md i))
          (file.appendMsg (mkMessage file outers md i))
          (outers ++ [md.GetName]) md.GetNestedType 0).1
        (Registry.registerMsg (r.storeMsg (mkMessage file outers md i))
          (file.appendMsg (mkMessage file outers md i))
          (outers ++ [md.GetName]) md.GetNestedType 0).2
        (outers ++ [md.GetName]) md.GetEnumType 0 := by
  cases md with
  | mk name fields nested enums =>
    rw [Registry.registerMsgBody]
    rfl

theorem RegPost.storeMsg (r : Registry) (file : File) (m : Message) :
    RegPost r file (r.storeMsg m, file.appendMsg m) ∧ MsgOK (r.storeMsg m) m.FQMN :=
  RegPost.setMsg r file m _

/-- The postcondition of the body of registerMsg, given the postcondition of
registerMsg on the nested messages. -/
theorem Registry.registerMsgBody_post_of (md : DescriptorProto) (r : Registry) (file : File)
    (outers : List GoString) (i : Nat)
    (hnested : ∀ (r' : Registry) (file' : File),
      RegPost r' file' (r'.registerMsg file' (outers ++ [md.GetName]) md.GetNestedType 0) ∧
      MsgCover file'.FileDescriptorProto.Package
        (r'.registerMsg file' (outers ++ [md.GetName]) md.GetNestedType 0).1
        (outers ++ [md.GetName]) md.GetNestedType) :
    RegPost r file (r.registerMsgBody file outers md i) ∧
    MsgOK (r.registerMsgBody file outers md i).1
      (fqName file.FileDescriptorProto.Package outers md.GetName) ∧
    MsgCover file.FileDescriptorProto.Package (r.registerMsgBody file outers md i).1
      (outers ++ [md.GetName]) md.GetNestedType ∧
    (∀ ed ∈ md.GetEnumType, EnumOK (r.registerMsgBody file outers md i).1
      (fqName file.FileDescriptorProto.Package (outers ++ [md.GetName])
        (getString ed.Name))) := by
  rw [Registry.registerMsgBody_eq]
  obtain ⟨hs, hok⟩ := RegPost.storeMsg r file (mkMessage file outers md i)
  obtain ⟨hn1, hn2⟩ := hnested (r.storeMsg (mkMessage file outers md i))
    (file.appendMsg (mkMessage file outers md i))
  obtain ⟨he1, he2⟩ := Registry.registerEnum_post md.GetEnumType
    (Registry.registerMsg (r.storeMsg (mkMessage file outers md i))
      (file.appendMsg (mkMessage file outers md i))
      (outers ++ [md.GetName]) md.GetNestedType 0).1
    (Registry.registerMsg (r.storeMsg (mkMessage file outers md i))
      (file.appendMsg (mkMessage file outers md i))
      (outers ++ [md.GetName]) md.GetNestedType 0).2
    (outers ++ [md.GetName]) 0
  rw [mkMessage_FQMN] at hok
  have hpkg : (file.appendMsg (mkMessage file outers md i)).FileDescriptorProto.Package =
      file.FileDescriptorProto.Package := rfl
  rw [hn1.package_eq, hpkg] at he2
  rw [hpkg] at hn2
  refine ⟨hs.andThen (hn1.andThen he1), ?_, ?_, ?_⟩
  · exact he1.2.2.2.1 _ (hn1.2.2.2.1 _ hok)
  · exact MsgCover.keep he1 hn2
  · exact he2

mutual
/-- The function registerMsg stores every message of the forest, and every
enum nested in it, under its fully-qualified name. -/
theorem Registry.registerMsg_post : ∀ (mds : List DescriptorProto) (r : Registry) (file : File)
    (outers : List GoString) (i : Nat),
    RegPost r file (r.registerMsg file outers mds i) ∧
    MsgCover file.FileDescriptorProto.Package (r.registerMsg file outers mds i).1 outers mds
  | [], r, file, outers, i => by
    rw [Registry.registerMsg]
    exact ⟨RegPost.unchanged r file, MsgCover.nil _ _ _⟩
  | md :: rest, r, file, outers, i => by
    have hb := Registry.registerMsgBody_post md r file outers i
    have hr := Registry.registerMsg_post rest (r.registerMsgBody file outers md i).1
      (r.registerMsgBody file outers md i).2 outers (i + 1)
    rw [Registry.registerMsg_cons]
    obtain ⟨hb1, hb2, hb3, hb4⟩ := hb
    obtain ⟨hr1, hr2⟩ := hr
    rw [hb1.package_eq] at hr2
    refine ⟨hb1.andThen hr1, ?_, ?_⟩
    · intro o' md' hin
      rcases hin.consCases with ⟨h1, h2⟩ | h | h
      · subst h1 h2
        exact hr1.2.2.2.1 _ hb2
      · exact hr1.2.2.2.1 _ (hb3.1 o' md' h)
      · exact hr2.1 o' md' h
    · intro o' ed hin
      rcases hin.consSplit with ⟨h1, h2⟩ | h | h
      · subst h1
        exact hr1.2.2.2.2.1 _ (hb4 ed h2)
      · exact hr1.2.2.2.2.1 _ (hb3.2 o' ed h)
      · exact hr2.2 o' ed h
/-- The body of registerMsg stores the message, its nested messages and its
enums under their fully-qualified names. -/
theorem Registry.registerMsgBody_post : ∀ (md : DescriptorProto) (r : Registry) (file : File)
    (outers : List GoString) (i : Nat),
    RegPost r file (r.registerMsgBody file outers md i) ∧
    MsgOK (r.registerMsgBody file outers md i).1
      (fqName file.FileDescriptorProto.Package outers md.GetName) ∧
    MsgCover file.FileDescriptorProto.Package (r.registerMsgBody file outers md i).1
      (outers ++ [md.GetName]) md.GetNestedType ∧
    (∀ ed ∈ md.GetEnumType, EnumOK (r.registerMsgBody file outers md i).1
      (fqName file.FileDescriptorProto.Package (outers ++ [md.GetName]) (getString ed.Name)))
  | .mk name fields nested enums, r, file, outers, i =>
    Registry.registerMsgBody_post_of (.mk name fields nested enums) r file outers i
      (fun r' file' => Registry.registerMsg_post nested r' file' _ 0)
end

/-! ## Loading files -/

theorem Grows.self (r : Registry) : Grows r r :=
  ⟨rfl, rfl, fun _ _ h => h, fun _ h => h, fun _ h => h, fun _ _ h => Or.inl h,
    fun _ _ h => Or.inl h⟩

theorem Grows.chain {r1 r2 r3 : Registry} (h1 : Grows r1 r2) (h2 : Grows r2 r3) :
    Grows r1 r3 := by
  obtain ⟨a, b, c, d, e, f, g⟩ := h1
  obtain ⟨a', b', c', d', e', f', g'⟩ := h2
  refine ⟨a'.trans a, b'.trans b, fun k v h => c' k v (c k v h), fun k h => d' k (d k h),
    fun k h => e' k (e k h), ?_, ?_⟩
  · intro k m hm
    rcases f' k m hm with h | h
    · exact f k m h
    · exact Or.inr h
  · intro k en hen
    rcases g' k en hen with h | h
    · exact g k en h
    · exact Or.inr h

theorem Covers.ofGrows {r r' : Registry} {f : FileDescriptorProto} (h : Grows r r')
    (hc : Covers r f) : Covers r' f :=
  ⟨fun o md hd => h.2.2.2.1 _ (hc.1 o md hd), fun o ed hd => h.2.2.2.2.1 _ (hc.2 o ed hd)⟩

theorem Registry.loadFile_of_reserve (fuel : Nat) (r : Registry) (f : FileDescriptorProto)
    (r1 : Registry) (pkg : GoPackage) (h : r.reservePackage fuel f = some (r1, pkg)) :
    r.loadFile fuel f =
      some { (Registry.registerEnum (r1.registerMsg (newFile f pkg) [] f.MessageType 0).1
                (r1.registerMsg (newFile f pkg) [] f.MessageType 0).2 [] f.EnumType 0).1 with
             files := GoMap.set
               (Registry.registerEnum (r1.registerMsg (newFile f pkg) [] f.MessageType 0).1
                 (r1.registerMsg (newFile f pkg) [] f.MessageType 0).2 [] f.EnumType 0).1.files
               (getString f.Name)
               (Registry.registerEnum (r1.registerMsg (newFile f pkg) [] f.MessageType 0).1
                 (r1.registerMsg (newFile f pkg) [] f.MessageType 0).2 [] f.EnumType 0).2 } := by
  unfold Registry.loadFile
  rw [h]
  rfl

/-- What loadFile does: it reserves the alias of the file's package, stores
the file's messages and enums under their fully-qualified names and stores
the new file under the file's name. -/
theorem Registry.loadFile_some (fuel : Nat) (r : Registry) (f : FileDescriptorProto)
    (r' : Registry) (h : r.loadFile fuel f = some r') :
    ∃ r1 pkg file, r.reservePackage fuel f = some (r1, pkg) ∧
      Grows r r' ∧ Covers r' f ∧ r'.pkgAliases = r1.pkgAliases ∧
      r'.files = r.files.set (getString f.Name) file ∧
      file.FileDescriptorProto = f ∧ file.GoPkg = pkg ∧ file.Services = [] := by
  cases hres : r.reservePackage fuel f with
  | none => simp [Registry.loadFile, hres] at h
  | some p =>
    obtain ⟨r1, pkg⟩ := p
    rw [r.loadFile_of_reserve fuel f r1 pkg hres] at h
    obtain ⟨hm1, hm2⟩ := Registry.registerMsg_post f.MessageType r1 (newFile f pkg) [] 0
    obtain ⟨he1, he2⟩ := Registry.registerEnum_post f.EnumType
      (r1.registerMsg (newFile f pkg) [] f.MessageType 0).1
      (r1.registerMsg (newFile f pkg) [] f.MessageType 0).2 [] 0
    have hpost := hm1.andThen he1
    obtain ⟨hal, ha, hb, hc, hd, he, hf, hg⟩ := r.reservePackage_post fuel f r1 pkg hres
    obtain ⟨⟨p1, p2, p3, p4⟩, q, q', qm, qe, qm2, qe2⟩ := hpost
    have hinfo := congrArg FileInfo.FileDescriptorProto q
    have hgopkg := congrArg FileInfo.GoPkg q
    simp only [File.info, newFile] at hinfo hgopkg
    simp only [Option.some.injEq] at h
    subst h
    refine ⟨r1, pkg, _, rfl, ⟨?_, ?_, ?_, ?_, ?_, ?_, ?_⟩, ⟨?_, ?_⟩, p1, ?_, hinfo, hgopkg, q'⟩
    · exact p3.trans hf
    · exact p4.trans hg
    · intro k v hk
      show GoMap.get _ k = some v
      rw [p1]
      exact ha k v hk
    · intro k hk
      apply qm
      obtain ⟨m, hm, hfq⟩ := hk
      exact ⟨m, by rw [hc]; exact hm, hfq⟩
    · intro k hk
      apply qe
      obtain ⟨m, hm, hfq⟩ := hk
      exact ⟨m, by rw [hd]; exact hm, hfq⟩
    · intro k m hm
      have := qm2 k m hm
      rwa [hc] at this
    · intro k e hen
      have := qe2 k e hen
      rwa [hd] at this
    · intro o md hdecl
      exact he1.2.2.2.1 _ (hm2.1 o md hdecl)
    · intro o ed hdecl
      rcases hdecl with ⟨ho, hmem⟩ | hin
      · subst ho
        have := he2 ed hmem
        rw [hm1.package_eq] at this
        exact this
      · exact he1.2.2.2.2.1 _ (hm2.2 o ed hin)
    · show GoMap.set _ _ _ = _
      rw [p2, he]
      rfl

/-- The function loadFile returns when the fuel exceeds the number of
reserved aliases, and reserves at most one more alias. -/
theorem Registry.loadFile_terminates (fuel : Nat) (r : Registry) (f : FileDescriptorProto)
    (hfuel : r.pkgAliases.length < fuel) :
    ∃ r', r.loadFile fuel f = some r' ∧ r'.pkgAliases.length ≤ r.pkgAliases.length + 1 := by
  cases hres : r.reservePackage fuel f with
  | none => exact absurd hres (r.reservePackage_ne_none fuel f hfuel)
  | some p =>
    obtain ⟨r1, pkg⟩ := p
    refine ⟨_, r.loadFile_of_reserve fuel f r1 pkg hres, ?_⟩
    obtain ⟨r1', pkg', file, h1, _, _, h4, _⟩ :=
      r.loadFile_some fuel f _ (r.loadFile_of_reserve fuel f r1 pkg hres)
    rw [hres] at h1
    simp only [Option.some.injEq, Prod.mk.injEq] at h1
    rw [h4, ← h1.1]
    exact (r.reservePackage_post fuel f r1 pkg hres).2.2.1

theorem Registry.loadFiles_cons (fuel : Nat) (r : Registry) (f : FileDescriptorProto)
    (rest : List FileDescriptorProto) :
    r.loadFiles fuel (f :: rest) =
      match r.loadFile fuel f with
      | none => none
      | some r1 => r1.loadFiles fuel rest := by
  rw [Registry.loadFiles]

theorem Registry.loadFiles_append (fuel : Nat) (r : Registry)
    (xs ys : List FileDescriptorProto) :
    r.loadFiles fuel (xs ++ ys) =
      match r.loadFiles fuel xs with
      | none => none
      | some r1 => r1.loadFiles fuel ys := by
  induction xs generalizing r with
  | nil => simp [Registry.loadFiles]
  | cons x xs ih =>
    rw [List.cons_append, Registry.loadFiles_cons, Registry.loadFiles_cons]
    cases r.loadFile fuel x with
    | none => rfl
    | some r1 => exact ih r1

/-- The first loop of Load returns when the fuel is at least the number of
reserved aliases plus the number of files. -/
theorem Registry.loadFiles_terminates (fuel : Nat) (r : Registry)
    (files : List FileDescriptorProto) (hfuel : r.pkgAliases.length + files.length ≤ fuel) :
    ∃ r', r.loadFiles fuel files = some r' ∧
      r'.pkgAliases.length ≤ r.pkgAliases.length + files.length := by
  induction files generalizing r with
  | nil => exact ⟨r, rfl, by simp⟩
  | cons f rest ih =>
    simp only [List.length_cons] at hfuel
    obtain ⟨r1, h1, hlen⟩ := r.loadFile_terminates fuel f (by omega)
    obtain ⟨r', h2, hlen'⟩ := ih r1 (by omega)
    refine ⟨r', ?_, ?_⟩
    · rw [Registry.loadFiles_cons, h1]
      exact h2
    · simp only [List.length_cons]
      omega

theorem Registry.loadFile_grows (fuel : Nat) (r : Registry) (f : FileDescriptorProto)
    (r' : Registry) (h : r.loadFile fuel f = some r') : Grows r r' := by
  obtain ⟨_, _, _, _, hg, _⟩ := r.loadFile_some fuel f r' h
  exact hg

theorem Registry.loadFiles_grows (fuel : Nat) (r : Registry) (files : List FileDescriptorProto)
    (r' : Registry) (h : r.loadFiles fuel files = some r') : Grows r r' := by
  induction files generalizing r with
  | nil =>
    simp only [Registry.loadFiles, Option.some.injEq] at h
    subst h
    exact Grows.self r
  | cons f rest ih =>
    rw [Registry.loadFiles_cons] at h
    cases h1 : r.loadFile fuel f with
    | none => simp [h1] at h
    | some r1 =>
      simp only [h1] at h
      exact (r.loadFile_grows fuel f r1 h1).chain (ih r1 h)

/-- After the first loop of Load every file of the list has its messages and
enums stored under their fully-qualified names, and the file stored under
the name of a file of the list was created from a file of the list with that
name and has no services yet. -/
theorem Registry.loadFiles_covers (fuel : Nat) (r : Registry) (files : List FileDescriptorProto)
    (r' : Registry) (h : r.loadFiles fuel files = some r') :
    (∀ f ∈ files, Covers r' f) ∧
    (∀ f ∈ files, ∃ file, r'.files.get (getString f.Name) = some file ∧
      file.FileDescriptorProto ∈ files ∧
      getString file.FileDescriptorProto.Name = getString f.Name ∧ file.Services = []) ∧
    (∀ name, (∀ f ∈ files, getString f.Name ≠ name) → r'.files.get name = r.files.get name) := by
  induction files generalizing r with
  | nil =>
    simp only [Registry.loadFiles, Option.some.injEq] at h
    subst h
    simp
  | cons f rest ih =>
    rw [Registry.loadFiles_cons] at h
    cases h1 : r.loadFile fuel f with
    | none => simp [h1] at h
    | some r1 =>
      simp only [h1] at h
      obtain ⟨ihc, ihf, ihn⟩ := ih r1 h
      obtain ⟨_, _, file, _, _, hcov, _, hfiles, hfdp, _, hsvc⟩ := r.loadFile_some fuel f r1 h1
      have hgrow := r1.loadFiles_grows fuel rest r' h
      refine ⟨?_, ?_, ?_⟩
      · intro g hg
        rcases List.mem_cons.mp hg with hg | hg
        · subst hg
          exact Covers.ofGrows hgrow hcov
        · exact ihc g hg
      · intro g hg
        by_cases hex : ∃ g' ∈ rest, getString g'.Name = getString g.Name
        · obtain ⟨g', hg', hname⟩ := hex
          obtain ⟨file', h1', h2', h3', h4'⟩ := ihf g' hg'
          exact ⟨file', by rw [← hname]; exact h1', List.mem_cons_of_mem _ h2',
            by rw [h3', hname], h4'⟩
        · have hnot : ∀ g' ∈ rest, getString g'.Name ≠ getString g.Name := by
            intro g' hg' hn
            exact hex ⟨g', hg', hn⟩
          have hgf : g = f := by
            rcases List.mem_cons.mp hg with hg | hg
            · exact hg
            · exact absurd rfl (hnot g hg)
          subst hgf
          refine ⟨file, ?_, ?_, ?_, hsvc⟩
          · rw [ihn _ hnot, hfiles]
            exact GoMap.get_set_self _ _ _
          · rw [hfdp]
            exact List.mem_cons_self _ _
          · rw [hfdp]
      · intro name hname
        rw [ihn name (fun g hg => hname g (List.mem_cons_of_mem _ hg)), hfiles]
        exact GoMap.get_set_ne _ _ (hname f (List.mem_cons_self _ _))

theorem Registry.goPackagePath_congr {r r' : Registry} (h1 : r'.importPrefix = r.importPrefix)
    (h2 : r'.pkgMap = r.pkgMap) (f : FileDescriptorProto) :
    r'.goPackagePath f = r.goPackagePath f := by
  unfold Registry.goPackagePath
  rw [h1, h2]

theorem TakenByOther.stays {r r' : Registry} {a p : GoString}
    (h : ∀ k v, r.pkgAliases.get k = some v → r'.pkgAliases.get k = some v)
    (ht : TakenByOther r a p) : TakenByOther r' a p := by
  obtain ⟨t, h1, h2⟩ := ht
  exact ⟨t, h a t h1, h2⟩

theorem TakenByOther.not_of_get {r : Registry} {a p : GoString}
    (h : r.pkgAliases.get a = some p) : ¬ TakenByOther r a p := by
  rintro ⟨t, h1, h2⟩
  rw [h] at h1
  exact h2 (Option.some.inj h1).symm

/-- Two alias reservations for the same package name and path, the second in
a registry that kept every alias of the first, choose the same alias. -/
theorem Registry.reservePackage_same (fuel fuel' : Nat) (r rC : Registry)
    (f g : FileDescriptorProto) (r1 r1' : Registry) (pkgF pkgG : GoPackage)
    (hF : r.reservePackage fuel f = some (r1, pkgF))
    (hG : rC.reservePackage fuel' g = some (r1', pkgG))
    (hkeep : ∀ k v, r1.pkgAliases.get k = some v → rC.pkgAliases.get k = some v)
    (hname : pkgF.Name = pkgG.Name) (hpath : pkgF.Path = pkgG.Path) :
    pkgF.Alias = pkgG.Alias := by
  obtain ⟨hid, hkeep0, _⟩ := r.reservePackage_post fuel f r1 pkgF hF
  have hkeep' : ∀ k v, r.pkgAliases.get k = some v → rC.pkgAliases.get k = some v :=
    fun k v h => hkeep k v (hkeep0 k v h)
  have hidC := hkeep _ _ hid
  obtain ⟨_, _, hcF⟩ := r.reservePackage_some fuel f r1 pkgF hF
  obtain ⟨_, _, hcG⟩ := rC.reservePackage_some fuel' g r1' pkgG hG
  rw [← hname, ← hpath] at hcG
  rcases hcF with ⟨hfree, haF, _⟩ | ⟨htaken, j, _, haF, hbusy, hfreej, _⟩
  · have hidn : effectiveIdent pkgF = pkgF.Name := by simp [effectiveIdent, haF]
    rw [hidn] at hidC
    rcases hcG with ⟨_, haG, _⟩ | ⟨htakenG, _⟩
    · rw [haF, haG]
    · exact absurd htakenG (TakenByOther.not_of_get hidC)
  · have hidn : effectiveIdent pkgF = aliasOf pkgF.Name j := by
      simp [effectiveIdent, haF, aliasOf_ne_nil]
    rw [hidn] at hidC
    rcases hcG with ⟨hfreeG, _⟩ | ⟨_, j', _, haG, hbusyG, hfreeG, _⟩
    · exact absurd (TakenByOther.stays hkeep' htaken) hfreeG
    · have hjj : j = j' := by
        rcases Nat.lt_trichotomy j j' with hlt | heq | hgt
        · exact absurd (hbusyG j hlt) (TakenByOther.not_of_get hidC)
        · exact heq
        · exact absurd (TakenByOther.stays hkeep' (hbusy j' hgt)) hfreeG
      rw [haF, haG, hjj, hname]

theorem createdFile_eq (fuel : Nat) (r : Registry) (before : List FileDescriptorProto)
    (f : FileDescriptorProto) (rA rB : Registry) (hA : r.loadFiles fuel before = some rA)
    (hB : rA.loadFile fuel f = some rB) :
    createdFile fuel r before f = rB.files.get (getString f.Name) := by
  simp [createdFile, hA, hB]

/-- The file created for `f` after the files `before`, with the alias
reservation it comes from. -/
theorem createdFile_spec (fuel : Nat) (r : Registry) (before : List FileDescriptorProto)
    (f : FileDescriptorProto) (rA rB : Registry) (hA : r.loadFiles fuel before = some rA)
    (hB : rA.loadFile fuel f = some rB) :
    ∃ r1 file, createdFile fuel r before f = some file ∧ file.FileDescriptorProto = f ∧
      rA.reservePackage fuel f = some (r1, file.GoPkg) ∧ rB.pkgAliases = r1.pkgAliases ∧
      rB.pkgAliases.get (effectiveIdent file.GoPkg) = some file.GoPkg.Path := by
  obtain ⟨r1, pkg, file, hres, _, _, hal, hfiles, hfdp, hpkg, _⟩ := rA.loadFile_some fuel f rB hB
  refine ⟨r1, file, ?_, hfdp, ?_, hal, ?_⟩
  · rw [createdFile_eq fuel r before f rA rB hA hB, hfiles]
    exact GoMap.get_set_self _ _ _
  · rw [hpkg]
    exact hres
  · rw [hal, hpkg]
    exact (rA.reservePackage_post fuel f r1 pkg hres).1

theorem Registry.loadFiles_split (fuel : Nat) (r : Registry)
    (before after : List FileDescriptorProto) (f : FileDescriptorProto) (r' : Registry)
    (h : r.loadFiles fuel (before ++ f :: after) = some r') :
    ∃ rA rB, r.loadFiles fuel before = some rA ∧ rA.loadFile fuel f = some rB ∧
      rB.loadFiles fuel after = some r' := by
  rw [Registry.loadFiles_append] at h
  cases hA : r.loadFiles fuel before with
  | none => simp [hA] at h
  | some rA =>
    simp only [hA, Registry.loadFiles_cons] at h
    cases hB : rA.loadFile fuel f with
    | none => simp [hB] at h
    | some rB =>
      simp only [hB] at h
      exact ⟨rA, rB, rfl, hB, h⟩

/-- The alias table of the final registry maps the identifier of every file
created on the way to the file's package path. -/
theorem createdFile_alias (fuel : Nat) (r : Registry)
    (before after : List FileDescriptorProto) (f : FileDescriptorProto) (r' : Registry)
    (h : r.loadFiles fuel (before ++ f :: after) = some r') :
    ∃ file, createdFile fuel r before f = some file ∧ file.FileDescriptorProto = f ∧
      r'.pkgAliases.get (effectiveIdent file.GoPkg) = some file.GoPkg.Path := by
  obtain ⟨rA, rB, hA, hB, hC⟩ := r.loadFiles_split fuel before after f r' h
  obtain ⟨_, file, hc, hfdp, _, _, hid⟩ := createdFile_spec fuel r before f rA rB hA hB
  exact ⟨file, hc, hfdp, (rB.loadFiles_grows fuel after r' hC).2.2.1 _ _ hid⟩

/-! ## Claims on package aliases -/

/-- C7: when a sequence of files is loaded into a registry, the alias table
maps the effective import identifier of each file created (Alias when
non-empty, otherwise Name, the prefix GoType writes before a type of another
package) to that file's Go package path; hence two loaded files with
different package paths have different effective import identifiers. -/
theorem C7_alias_table_maps_identifiers (fuel : Nat) (r : Registry)
    (files : List FileDescriptorProto) (hfuel : r.pkgAliases.length + files.length ≤ fuel) :
    ∃ r', r.loadFiles fuel files = some r' ∧
      (∀ before f after, files = before ++ f :: after →
        ∃ file, createdFile fuel r before f = some file ∧ file.FileDescriptorProto = f ∧
          r'.pkgAliases.get (effectiveIdent file.GoPkg) = some file.GoPkg.Path) ∧
      (∀ before f after before' g after' file file',
        files = before ++ f :: after → files = before' ++ g :: after' →
        createdFile fuel r before f = some file → createdFile fuel r before' g = some file' →
        file.GoPkg.Path ≠ file'.GoPkg.Path →
        effectiveIdent file.GoPkg ≠ effectiveIdent file'.GoPkg) ∧
      (∀ (m : Message) (currentPackage : GoString), m.File.GoPkg.Path ≠ currentPackage →
        m.GoType currentPackage = effectiveIdent m.File.GoPkg ++ '.' ::
          stringsJoin (m.Outers ++ [m.DescriptorProto.GetName]) ['_']) := by
  obtain ⟨r', hload, _⟩ := r.loadFiles_terminates fuel files hfuel
  refine ⟨r', hload, ?_, ?_, ?_⟩
  · intro before f after hsplit
    subst hsplit
    exact createdFile_alias fuel r before after f r' hload
  · intro before f after before' g after' file file' h1 h2 hc hc' hpath hid
    obtain ⟨x, hx, _, hxa⟩ := createdFile_alias fuel r before after f r' (h1 ▸ hload)
    obtain ⟨y, hy, _, hya⟩ := createdFile_alias fuel r before' after' g r' (h2 ▸ hload)
    rw [hc] at hx
    rw [hc'] at hy
    cases hx
    cases hy
    rw [hid, hya] at hxa
    exact hpath (Option.some.inj hxa).symm
  · intro m currentPackage hne
    simp [Message.GoType, effectiveIdent, hne]

theorem C7_alias_table_maps_identifiers_witness :
    NewRegistry.pkgAliases.length + [Sample.fileA, Sample.fileB].length ≤ 2 ∧
    ∃ r', NewRegistry.loadFiles 2 [Sample.fileA, Sample.fileB] = some r' ∧
      ∃ file, createdFile 2 NewRegistry [Sample.fileA] Sample.fileB = some file ∧
        file.FileDescriptorProto = Sample.fileB ∧
        r'.pkgAliases.get (effectiveIdent file.GoPkg) = some file.GoPkg.Path :=
  ⟨by decide,
   match C7_alias_table_maps_identifiers 2 NewRegistry [Sample.fileA, Sample.fileB]
      (by decide) with
   | ⟨r', hload, h, _⟩ => ⟨r', hload, h [Sample.fileA] Sample.fileB [] rfl⟩⟩

/-- C8 (as stated, refuted): two files with the same default package name and
different package paths loaded into a fresh registry; the first file's Alias
is empty. -/
theorem C8_first_alias_is_empty :
    defaultGoPackageName Sample.fileA = defaultGoPackageName Sample.fileB ∧
    NewRegistry.goPackagePath Sample.fileA ≠ NewRegistry.goPackagePath Sample.fileB ∧
    (createdFile 2 NewRegistry [] Sample.fileA).map (fun f => f.GoPkg.Alias) = some [] ∧
    (createdFile 2 NewRegistry [Sample.fileA] Sample.fileB).map (fun f => f.GoPkg.Alias) =
      some "a_0".toList := by
  decide

/-- C8 (amended): when two files with the same default package name and
different package paths are loaded into a registry with no alias reserved,
the first file keeps an empty Alias and is imported under the default name,
the second file's Alias is the default name followed by `_0`, which is not
empty, and the two effective import identifiers differ. -/
theorem C8_colliding_names_get_distinct_identifiers (fuel : Nat) (r : Registry)
    (f g : FileDescriptorProto) (hfuel : 2 ≤ fuel) (hfresh : r.pkgAliases = [])
    (hname : defaultGoPackageName f = defaultGoPackageName g)
    (hpath : r.goPackagePath f ≠ r.goPackagePath g) :
    ∃ fileF fileG, createdFile fuel r [] f = some fileF ∧
      createdFile fuel r [f] g = some fileG ∧
      fileF.GoPkg.Alias = [] ∧
      fileG.GoPkg.Alias = aliasOf (defaultGoPackageName g) 0 ∧
      fileG.GoPkg.Alias ≠ [] ∧
      effectiveIdent fileF.GoPkg = defaultGoPackageName f ∧
      effectiveIdent fileF.GoPkg ≠ effectiveIdent fileG.GoPkg := by
  obtain ⟨rB, hB, _⟩ := r.loadFile_terminates fuel f (by rw [hfresh]; simp; omega)
  have hBs : r.loadFiles fuel [f] = some rB := by
    rw [Registry.loadFiles_cons, hB]
    rfl
  obtain ⟨r1, fileF, hcF, _, hresF, halF, _⟩ := createdFile_spec fuel r [] f r rB rfl hB
  obtain ⟨hpF, hnF, hcaseF⟩ := r.reservePackage_some fuel f r1 fileF.GoPkg hresF
  have hnotaken : ∀ a p, ¬ TakenByOther r a p := by
    rintro a p ⟨t, ht, _⟩
    rw [hfresh] at ht
    cases ht
  have hgrow := r.loadFile_grows fuel f rB hB
  rcases hcaseF with ⟨_, haF, hr1⟩ | ⟨htaken, _⟩
  swap
  · exact absurd htaken (hnotaken _ _)
  have hr1' : r1.pkgAliases = [(fileF.GoPkg.Name, fileF.GoPkg.Path)] := by
    rw [hr1]
    rcases r.reserve_cases fileF.GoPkg.Name fileF.GoPkg.Path with ⟨hg, _⟩ | ⟨hg, _⟩ | ⟨_, e⟩
    · rw [hfresh] at hg
      cases hg
    · exact absurd hg (hnotaken _ _)
    · rw [e, hfresh]
      rfl
  have hlen : rB.pkgAliases.length < fuel := by
    rw [halF, hr1']
    simp
    omega
  obtain ⟨rD, hD, _⟩ := rB.loadFile_terminates fuel g hlen
  obtain ⟨r1', fileG, hcG, _, hresG, _, _⟩ := createdFile_spec fuel r [f] g rB rD hBs hD
  obtain ⟨hpG, hnG, hcaseG⟩ := rB.reservePackage_some fuel g r1' fileG.GoPkg hresG
  rw [Registry.goPackagePath_congr hgrow.1 hgrow.2.1] at hpG
  have hgetB : ∀ k, rB.pkgAliases.get k =
      if fileF.GoPkg.Name = k then some fileF.GoPkg.Path else none := by
    intro k
    rw [halF, hr1']
    simp [GoMap.get]
  have hnames : fileG.GoPkg.Name = fileF.GoPkg.Name := by rw [hnG, hnF, hname]
  have hpaths : fileF.GoPkg.Path ≠ fileG.GoPkg.Path := by
    rw [hpF, hpG]
    exact hpath
  have hne0 : fileF.GoPkg.Name ≠ aliasOf fileF.GoPkg.Name 0 := by
    intro h
    have := congrArg List.length h
    simp [aliasOf, formatDecimal, decimalDigits] at this
  have hidF : effectiveIdent fileF.GoPkg = fileF.GoPkg.Name := by simp [effectiveIdent, haF]
  have haG : fileG.GoPkg.Alias = aliasOf fileG.GoPkg.Name 0 := by
    rcases hcaseG with ⟨hfree, _⟩ | ⟨_, j, _, haG, hbusy, _⟩
    · exfalso
      apply hfree
      exact ⟨fileF.GoPkg.Path, by rw [hgetB, hnames]; simp, hpaths⟩
    · cases j with
      | zero => exact haG
      | succ j =>
        exfalso
        obtain ⟨t, ht, _⟩ := hbusy 0 (Nat.succ_pos _)
        rw [hgetB, hnames, if_neg hne0] at ht
        cases ht
  have hidG : effectiveIdent fileG.GoPkg = aliasOf fileF.GoPkg.Name 0 := by
    simp [effectiveIdent, haG, aliasOf_ne_nil, hnames]
  refine ⟨fileF, fileG, hcF, hcG, haF, ?_, ?_, ?_, ?_⟩
  · rw [haG, hnG]
  · rw [haG]
    exact aliasOf_ne_nil _ _
  · rw [hidF, hnF]
  · rw [hidF, hidG]
    exact hne0

theorem C8_colliding_names_get_distinct_identifiers_witness :
    ∃ fileF fileG, createdFile 2 NewRegistry [] Sample.fileA = some fileF ∧
      createdFile 2 NewRegistry [Sample.fileA] Sample.fileB = some fileG ∧
      fileF.GoPkg.Alias = [] ∧
      fileG.GoPkg.Alias = aliasOf (defaultGoPackageName Sample.fileB) 0 ∧
      fileG.GoPkg.Alias ≠ [] ∧
      effectiveIdent fileF.GoPkg = defaultGoPackageName Sample.fileA ∧
      effectiveIdent fileF.GoPkg ≠ effectiveIdent fileG.GoPkg :=
  C8_colliding_names_get_distinct_identifiers 2 NewRegistry Sample.fileA Sample.fileB
    (by decide) rfl (by decide) (by decide)

/-- C9: ReserveGoPackageAlias returns an error exactly when the alias is
already reserved for a different path; when the alias is already reserved,
for the same or for a different path, the registry is left unchanged, so
reserving an alias again for its own path succeeds without a new entry; and
two files with the same default name and the same package path loaded into
one registry, with any files loaded in between, get the same alias. -/
theorem C9_reserve_alias_idempotent (r : Registry) (aliasName pkgpath : GoString) :
    ((r.ReserveGoPackageAlias aliasName pkgpath).2 ≠ none ↔
      ∃ taken, r.pkgAliases.get aliasName = some taken ∧ taken ≠ pkgpath) ∧
    (∀ taken, r.pkgAliases.get aliasName = some taken →
      (r.ReserveGoPackageAlias aliasName pkgpath).1 = r) ∧
    (r.pkgAliases.get aliasName = some pkgpath →
      r.ReserveGoPackageAlias aliasName pkgpath = (r, none)) ∧
    (∀ (fuel : Nat) (f g : FileDescriptorProto) (between : List FileDescriptorProto),
      r.pkgAliases.length + (between.length + 2) ≤ fuel →
      defaultGoPackageName f = defaultGoPackageName g →
      r.goPackagePath f = r.goPackagePath g →
      ∃ fileF fileG, createdFile fuel r [] f = some fileF ∧
        createdFile fuel r (f :: between) g = some fileG ∧
        fileF.GoPkg.Alias = fileG.GoPkg.Alias) := by
  refine ⟨?_, ?_, ?_, ?_⟩
  · rw [Ne, r.reserve_snd_eq_none_iff, not_not]
    rfl
  · intro taken htaken
    rcases r.reserve_cases aliasName pkgpath with ⟨_, e⟩ | ⟨_, e⟩ | ⟨hg, _⟩
    · rw [e]
    · rw [e]
    · rw [hg] at htaken
      cases htaken
  · intro hsame
    rcases r.reserve_cases aliasName pkgpath with ⟨_, e⟩ | ⟨ht, _⟩ | ⟨hg, _⟩
    · exact e
    · exact absurd ht (TakenByOther.not_of_get hsame)
    · rw [hg] at hsame
      cases hsame
  · intro fuel f g between hfuel hname hpath
    obtain ⟨rC, hC, hlenC⟩ := r.loadFiles_terminates fuel (f :: between)
      (by simp only [List.length_cons]; omega)
    obtain ⟨rA, rB, hA, hB, hBC⟩ := r.loadFiles_split fuel [] between f rC hC
    simp only [Registry.loadFiles, Option.some.injEq] at hA
    subst hA
    obtain ⟨rD, hD, _⟩ := rC.loadFile_terminates fuel g
      (by simp only [List.length_cons] at hlenC; omega)
    obtain ⟨r1, fileF, hcF, _, hresF, halF, _⟩ := createdFile_spec fuel r [] f r rB rfl hB
    obtain ⟨r1', fileG, hcG, _, hresG, _, _⟩ :=
      createdFile_spec fuel r (f :: between) g rC rD hC hD
    refine ⟨fileF, fileG, hcF, hcG, ?_⟩
    have hgBC := rB.loadFiles_grows fuel between rC hBC
    have hgAB := r.loadFile_grows fuel f rB hB
    obtain ⟨hpF, hnF, _⟩ := r.reservePackage_some fuel f r1 fileF.GoPkg hresF
    obtain ⟨hpG, hnG, _⟩ := rC.reservePackage_some fuel g r1' fileG.GoPkg hresG
    apply Registry.reservePackage_same fuel fuel r rC f g r1 r1' _ _ hresF hresG
    · intro k v hk
      rw [← halF] at hk
      exact hgBC.2.2.1 k v hk
    · rw [hnF, hnG, hname]
    · rw [hpF, hpG, hpath]
      exact (Registry.goPackagePath_congr (hgBC.1.trans hgAB.1) (hgBC.2.1.trans hgAB.2.1) g).symm

theorem C9_reserve_alias_idempotent_witness :
    ∃ fileF fileG, createdFile 4 Sample.regTaken [] Sample.fileA = some fileF ∧
      createdFile 4 Sample.regTaken [Sample.fileA, Sample.fileC] Sample.fileA = some fileG ∧
      fileF.GoPkg.Alias = fileG.GoPkg.Alias :=
  (C9_reserve_alias_idempotent Sample.regTaken [] []).2.2.2 4 Sample.fileA Sample.fileA
    [Sample.fileC] (by decide) rfl rfl

/-! ## Load -/

/-- One iteration of the second loop of Load, by cases. -/
theorem Registry.loadTargets_cons (r : Registry) (targetPkg name : GoString)
    (rest : List GoString) :
    r.loadTargets targetPkg (name :: rest) =
      match r.files.get name with
      | none => (r, some (.noSuchFile name))
      | some target =>
        if targetPkg ≠ [] ∧ targetPkg ≠ packageIdentityName target.FileDescriptorProto then
          (r, some (.inconsistentPackageNames targetPkg
            (packageIdentityName target.FileDescriptorProto)))
        else
          match (r.loadServices target).2 with
          | some err => (r.storeFile name (r.loadServices target).1, some err)
          | none =>
            Registry.loadTargets (r.storeFile name (r.loadServices target).1)
              (if targetPkg = [] then packageIdentityName target.FileDescriptorProto
                else targetPkg) rest := by
  rw [Registry.loadTargets]
  cases hget : r.files.get name with
  | none => rfl
  | some target =>
    simp only []
    by_cases h1 : targetPkg = []
    · subst h1
      simp only [if_true, ne_eq, not_true_eq_false, false_and, if_false]
      cases hls : r.loadServices target with
      | mk t e => cases e <;> rfl
    · by_cases h2 : targetPkg = packageIdentityName target.FileDescriptorProto
      · simp only [h1, if_false, ne_eq, h2, not_true_eq_false, and_false]
        rw [← h2]
        simp only [h1, if_false]
        cases hls : r.loadServices target with
        | mk t e => cases e <;> rfl
      · simp only [h1, if_false, ne_eq, h2, not_false_eq_true, and_self, if_true]

/-- The second loop of Load changes nothing but the table of files. -/
theorem Registry.loadTargets_tables (names : List GoString) (r : Registry)
    (targetPkg : GoString) :
    (r.loadTargets targetPkg names).1.msgs = r.msgs ∧
    (r.loadTargets targetPkg names).1.enums = r.enums ∧
    (r.loadTargets targetPkg names).1.pkgAliases = r.pkgAliases ∧
    (r.loadTargets targetPkg names).1.importPrefix = r.importPrefix ∧
    (r.loadTargets targetPkg names).1.pkgMap = r.pkgMap := by
  induction names generalizing r targetPkg with
  | nil => exact ⟨rfl, rfl, rfl, rfl, rfl⟩
  | cons name rest ih =>
    rw [Registry.loadTargets_cons]
    cases r.files.get name with
    | none => exact ⟨rfl, rfl, rfl, rfl, rfl⟩
    | some target =>
      simp only []
      split
      · exact ⟨rfl, rfl, rfl, rfl, rfl⟩
      · split
        · exact ⟨rfl, rfl, rfl, rfl, rfl⟩
        · exact ih _ _

theorem Registry.LookupMsg_of_MsgOK (r : Registry) (location k : GoString) (h : MsgOK r k) :
    ∃ m, r.LookupMsg location k = .ok m ∧ m.FQMN = k := by
  obtain ⟨m, hm, hk⟩ := h
  have hp : stringsHasPrefix k ['.'] = true := by
    rw [← hk, Message.FQMN_eq]
    exact stringsHasPrefix_fqName _ _ _
  exact ⟨m, by simp [Registry.LookupMsg, hp, hm], hk⟩

theorem Registry.LookupEnum_of_EnumOK (r : Registry) (location k : GoString) (h : EnumOK r k) :
    ∃ e, r.LookupEnum location k = .ok e ∧ e.FQEN = k := by
  obtain ⟨e, he, hk⟩ := h
  have hp : stringsHasPrefix k ['.'] = true := by
    rw [← hk, Enum.FQEN_eq]
    exact stringsHasPrefix_fqName _ _ _
  exact ⟨e, by simp [Registry.LookupEnum, hp, he], hk⟩

theorem MsgOK.ofMsgsEq {r r' : Registry} {k : GoString} (h : r'.msgs = r.msgs) (hk : MsgOK r k) :
    MsgOK r' k := by
  obtain ⟨m, hm, hfq⟩ := hk
  exact ⟨m, by rw [h]; exact hm, hfq⟩

theorem EnumOK.ofEnumsEq {r r' : Registry} {k : GoString} (h : r'.enums = r.enums)
    (hk : EnumOK r k) : EnumOK r' k := by
  obtain ⟨m, hm, hfq⟩ := hk
  exact ⟨m, by rw [h]; exact hm, hfq⟩

theorem Registry.Load_eq (fuel : Nat) (r r1 : Registry) (req : CodeGeneratorRequest)
    (h : r.loadFiles fuel req.ProtoFile = some r1) :
    r.Load fuel req = some (r1.loadTargets [] req.FileToGenerate) := by
  simp [Registry.Load, h]

/-- C4: after Load has run, with or without an error from the service
phase, every message declared at any depth in any file of the request
(a file to generate or not) is resolved by LookupMsg from its fully-qualified
name, and every enum declared at top level or inside a message at any depth
is resolved by LookupEnum from its fully-qualified name. -/
theorem C4_load_registers_all_types (fuel : Nat) (r : Registry) (req : CodeGeneratorRequest)
    (hfuel : r.pkgAliases.length + req.ProtoFile.length ≤ fuel) :
    ∃ r' err, r.Load fuel req = some (r', err) ∧
      ∀ f ∈ req.ProtoFile,
        (∀ outers md, DeclaresMsg f outers md → ∀ location,
          ∃ m, r'.LookupMsg location (fqName f.Package outers md.GetName) = .ok m ∧
            m.FQMN = fqName f.Package outers md.GetName) ∧
        (∀ outers ed, DeclaresEnum f outers ed → ∀ location,
          ∃ e, r'.LookupEnum location (fqName f.Package outers (getString ed.Name)) = .ok e ∧
            e.FQEN = fqName f.Package outers (getString ed.Name)) := by
  obtain ⟨r1, hload, _⟩ := r.loadFiles_terminates fuel req.ProtoFile hfuel
  obtain ⟨hcov, _, _⟩ := r.loadFiles_covers fuel req.ProtoFile r1 hload
  obtain ⟨hm, he, _⟩ := Registry.loadTargets_tables req.FileToGenerate r1 []
  refine ⟨(r1.loadTargets [] req.FileToGenerate).1, (r1.loadTargets [] req.FileToGenerate).2,
    r.Load_eq fuel r1 req hload, ?_⟩
  intro f hf
  refine ⟨?_, ?_⟩
  · intro outers md hdecl location
    exact Registry.LookupMsg_of_MsgOK _ location _ (MsgOK.ofMsgsEq hm ((hcov f hf).1 outers md hdecl))
  · intro outers ed hdecl location
    exact Registry.LookupEnum_of_EnumOK _ location _
      (EnumOK.ofEnumsEq he ((hcov f hf).2 outers ed hdecl))

theorem C4_load_registers_all_types_witness :
    ∃ r' err, NewRegistry.Load 2 Sample.req = some (r', err) ∧
      (∃ m, r'.LookupMsg [] ".a.T.U".toList = .ok m ∧ m.FQMN = ".a.T.U".toList) ∧
      (∃ e, r'.LookupEnum [] ".a.T.U.E".toList = .ok e ∧ e.FQEN = ".a.T.U.E".toList) ∧
      (∃ e, r'.LookupEnum [] ".a.K".toList = .ok e ∧ e.FQEN = ".a.K".toList) :=
  match C4_load_registers_all_types 2 NewRegistry Sample.req (by decide) with
  | ⟨r', err, hload, h⟩ =>
    ⟨r', err, hload,
      (h Sample.fileA (List.mem_cons_self _ _)).1 _ _
        (@MsgIn.nested _ _ _ Sample.msgT _ (List.mem_cons_self _ _)
          (MsgIn.here (List.mem_cons_self _ _))) [],
      (h Sample.fileA (List.mem_cons_self _ _)).2 _ _
        (Or.inr (@EnumIn.nested _ _ _ Sample.msgT _ (List.mem_cons_self _ _)
          (EnumIn.here (List.mem_cons_self _ _) (List.mem_cons_self _ _)))) [],
      (h Sample.fileA (List.mem_cons_self _ _)).2 [] ⟨some ['K']⟩
        (Or.inl ⟨rfl, List.mem_cons_self _ _⟩) []⟩

/-! ## Linking services -/

theorem Registry.newMethod_ok (r : Registry) (svc : Service) (md : MethodDescriptorProto)
    (opts : Option HttpRule) (hin : MsgOK r (getString md.InputType))
    (hout : MsgOK r (getString md.OutputType)) :
    ∃ meth, r.newMethod svc md opts = .ok meth ∧ meth.MethodDescriptorProto = md ∧
      MethodResolved meth := by
  obtain ⟨m1, h1, hf1⟩ := r.LookupMsg_of_MsgOK
    (getString svc.File.FileDescriptorProto.Package) _ hin
  obtain ⟨m2, h2, hf2⟩ := r.LookupMsg_of_MsgOK
    (getString svc.File.FileDescriptorProto.Package) _ hout
  exact ⟨{ MethodDescriptorProto := md, RequestType := m1, ResponseType := m2 },
    by simp only [Registry.newMethod, h1, h2], rfl, hf1, hf2⟩

theorem Registry.loadMethods_ok (r : Registry) (mds : List MethodDescriptorProto)
    (svc : Service)
    (h : ∀ md ∈ mds, (∃ o, extractAPIOptions md = .ok o) ∧ MsgOK r (getString md.InputType) ∧
      MsgOK r (getString md.OutputType)) :
    ∃ svc', r.loadMethods svc mds = .ok svc' ∧
      svc'.ServiceDescriptorProto = svc.ServiceDescriptorProto ∧
      svc'.Methods.map (fun m => m.MethodDescriptorProto) =
        svc.Methods.map (fun m => m.MethodDescriptorProto) ++ mds ∧
      (∀ meth ∈ svc'.Methods, meth ∈ svc.Methods ∨ MethodResolved meth) := by
  induction mds generalizing svc with
  | nil => exact ⟨svc, rfl, rfl, by simp, fun m hm => Or.inl hm⟩
  | cons md rest ih =>
    obtain ⟨⟨o, ho⟩, hin, hout⟩ := h md (List.mem_cons_self _ _)
    obtain ⟨meth, hmeth, hmd, hres⟩ := r.newMethod_ok svc md o hin hout
    obtain ⟨svc', h1, h2, h3, h4⟩ := ih { svc with Methods := svc.Methods ++ [meth] }
      (fun md' hmd' => h md' (List.mem_cons_of_mem _ hmd'))
    refine ⟨svc', ?_, h2, ?_, ?_⟩
    · rw [Registry.loadMethods]
      simp only [ho, hmeth]
      exact h1
    · rw [h3]
      simp [hmd]
    · intro m hm
      rcases h4 m hm with hmem | hr
      · rcases List.mem_append.mp hmem with h5 | h5
        · exact Or.inl h5
        · simp only [List.mem_singleton] at h5
          subst h5
          exact Or.inr hres
      · exact Or.inr hr

theorem Registry.loadServiceList_ok (r : Registry) (file : File)
    (sds : List ServiceDescriptorProto) (svcs : List Service)
    (h : ∀ sd ∈ sds, ∀ md ∈ sd.Method, (∃ o, extractAPIOptions md = .ok o) ∧
      MsgOK r (getString md.InputType) ∧ MsgOK r (getString md.OutputType)) :
    ∃ svcs', r.loadServiceList file svcs sds = .ok svcs' ∧
      (∀ svc ∈ svcs', svc ∈ svcs ∨
        (svc.ServiceDescriptorProto ∈ sds ∧
          svc.Methods.map (fun m => m.MethodDescriptorProto) =
            svc.ServiceDescriptorProto.Method ∧
          ∀ meth ∈ svc.Methods, MethodResolved meth)) ∧
      (∀ svc ∈ svcs, svc ∈ svcs') ∧
      (∀ sd ∈ sds, sd.Method ≠ [] → ∃ svc ∈ svcs', svc.ServiceDescriptorProto = sd) := by
  induction sds generalizing svcs with
  | nil =>
    exact ⟨svcs, rfl, fun s hs => Or.inl hs, fun s hs => hs,
      fun sd hsd => absurd hsd (List.not_mem_nil _)⟩
  | cons sd rest ih =>
    obtain ⟨svc', h1, h2, h3, h4⟩ := r.loadMethods_ok sd.Method
      { File := file.info, ServiceDescriptorProto := sd, Methods := [] }
      (h sd (List.mem_cons_self _ _))
    simp only [List.map_nil, List.nil_append] at h3
    have hgood : svc'.ServiceDescriptorProto ∈ sd :: rest ∧
        svc'.Methods.map (fun m => m.MethodDescriptorProto) =
          svc'.ServiceDescriptorProto.Method ∧
        ∀ meth ∈ svc'.Methods, MethodResolved meth := by
      refine ⟨by rw [h2]; exact List.mem_cons_self _ _, by rw [h3, h2], ?_⟩
      intro meth hmeth
      rcases h4 meth hmeth with hm | hm
      · exact absurd hm (List.not_mem_nil _)
      · exact hm
    by_cases hempty : svc'.Methods.length = 0
    · obtain ⟨svcs', g1, g2, g3, g4⟩ := ih svcs (fun sd' hsd' => h sd' (List.mem_cons_of_mem _ hsd'))
      refine ⟨svcs', ?_, ?_, g3, ?_⟩
      · rw [Registry.loadServiceList]
        simp only [h1, hempty, if_true]
        exact g1
      · intro s hs
        rcases g2 s hs with hmem | ⟨a, b, c⟩
        · exact Or.inl hmem
        · exact Or.inr ⟨List.mem_cons_of_mem _ a, b, c⟩
      · intro sd' hsd' hne
        rcases List.mem_cons.mp hsd' with heq | hmem
        · subst heq
          exfalso
          apply hne
          rw [← h3]
          simp [List.length_eq_zero.mp hempty]
        · exact g4 sd' hmem hne
    · obtain ⟨svcs', g1, g2, g3, g4⟩ := ih (svcs ++ [svc'])
        (fun sd' hsd' => h sd' (List.mem_cons_of_mem _ hsd'))
      refine ⟨svcs', ?_, ?_, ?_, ?_⟩
      · rw [Registry.loadServiceList]
        simp only [h1, hempty, if_false]
        exact g1
      · intro s hs
        rcases g2 s hs with hmem | ⟨a, b, c⟩
        · rcases List.mem_append.mp hmem with h5 | h5
          · exact Or.inl h5
          · simp only [List.mem_singleton] at h5
            subst h5
            exact Or.inr hgood
        · exact Or.inr ⟨List.mem_cons_of_mem _ a, b, c⟩
      · intro s hs
        exact g3 s (List.mem_append_left _ hs)
      · intro sd' hsd' hne
        rcases List.mem_cons.mp hsd' with heq | hmem
        · subst heq
          exact ⟨svc', g3 svc' (List.mem_append_right _ (List.mem_singleton_self _)), h2⟩
        · exact g4 sd' hmem hne

/-- The function loadServices succeeds on a file whose methods have
extractable options and registered types, and loads all its services. -/
theorem Registry.loadServices_ok (r : Registry) (file : File)
    (h : Loadable r file.FileDescriptorProto) :
    ∃ file', r.loadServices file = (file', none) ∧
      file'.FileDescriptorProto = file.FileDescriptorProto ∧ file'.GoPkg = file.GoPkg ∧
      ServicesLoaded file' := by
  obtain ⟨svcs, h1, h2, _, h4⟩ := r.loadServiceList_ok file file.FileDescriptorProto.Service [] h
  refine ⟨{ file with Services := svcs }, ?_, rfl, rfl, ?_, ?_⟩
  · simp only [Registry.loadServices, h1]
  · intro svc hsvc
    rcases h2 svc hsvc with hm | hm
    · exact absurd hm (List.not_mem_nil _)
    · exact hm
  · exact h4

theorem Loadable.ofSameMsgs {r r' : Registry} {fdp : FileDescriptorProto} (h : r'.msgs = r.msgs)
    (hl : Loadable r fdp) : Loadable r' fdp :=
  fun sd hsd md hmd =>
    ⟨(hl sd hsd md hmd).1, MsgOK.ofMsgsEq h (hl sd hsd md hmd).2.1,
      MsgOK.ofMsgsEq h (hl sd hsd md hmd).2.2⟩

theorem Registry.storeFile_get (r : Registry) (name n : GoString) (file : File) :
    (r.storeFile name file).files.get n = if name = n then some file else r.files.get n :=
  GoMap.get_set _ _ _ _

/-- The second loop of Load succeeds when every target is present, agrees on
the package identity name `P` and is loadable; it then leaves every target
with its services loaded and touches no other file. -/
theorem Registry.loadTargets_ok (P : GoString) (names : List GoString) (r : Registry)
    (targetPkg : GoString) (htp : targetPkg = [] ∨ targetPkg = P)
    (h : ∀ n ∈ names, ∃ file, r.files.get n = some file ∧
      packageIdentityName file.FileDescriptorProto = P ∧
      Loadable r file.FileDescriptorProto) :
    ∃ r', r.loadTargets targetPkg names = (r', none) ∧
      (∀ n, n ∉ names → r'.files.get n = r.files.get n) ∧
      (∀ n ∈ names, ∃ file file', r.files.get n = some file ∧ r'.files.get n = some file' ∧
        file'.FileDescriptorProto = file.FileDescriptorProto ∧ file'.GoPkg = file.GoPkg ∧
        ServicesLoaded file') := by
  induction names generalizing r targetPkg with
  | nil => exact ⟨r, rfl, fun _ _ => rfl, fun n hn => absurd hn (List.not_mem_nil _)⟩
  | cons name rest ih =>
    obtain ⟨target, hget, hP, hload⟩ := h name (List.mem_cons_self _ _)
    obtain ⟨target', hls, hfdp, hgo, hsl⟩ := r.loadServices_ok target hload
    have hcheck : ¬ (targetPkg ≠ [] ∧
        targetPkg ≠ packageIdentityName target.FileDescriptorProto) := by
      rintro ⟨h1, h2⟩
      rcases htp with h3 | h3
      · exact h1 h3
      · exact h2 (h3.trans hP.symm)
    have htp' : (if targetPkg = [] then packageIdentityName target.FileDescriptorProto
        else targetPkg) = [] ∨
        (if targetPkg = [] then packageIdentityName target.FileDescriptorProto
          else targetPkg) = P := by
      by_cases h0 : targetPkg = []
      · rw [if_pos h0]
        exact Or.inr hP
      · rw [if_neg h0]
        exact htp
    have hpre : ∀ n ∈ rest, ∃ file, (r.storeFile name target').files.get n = some file ∧
        packageIdentityName file.FileDescriptorProto = P ∧
        Loadable (r.storeFile name target') file.FileDescriptorProto := by
      intro n hn
      by_cases hnn : name = n
      · refine ⟨target', by rw [Registry.storeFile_get, if_pos hnn], by rw [hfdp]; exact hP, ?_⟩
        rw [hfdp]
        exact Loadable.ofSameMsgs rfl hload
      · obtain ⟨file, h1, h2, h3⟩ := h n (List.mem_cons_of_mem _ hn)
        exact ⟨file, by rw [Registry.storeFile_get, if_neg hnn]; exact h1, h2,
          Loadable.ofSameMsgs rfl h3⟩
    obtain ⟨r', hr', hframe, hres⟩ := ih (r.storeFile name target') _ htp' hpre
    refine ⟨r', ?_, ?_, ?_⟩
    · rw [Registry.loadTargets_cons]
      simp only [hget, if_neg hcheck, hls]
      exact hr'
    · intro n hn
      simp only [List.mem_cons, not_or] at hn
      rw [hframe n hn.2, Registry.storeFile_get, if_neg (Ne.symm hn.1)]
    · intro n hn
      by_cases hnrest : n ∈ rest
      · obtain ⟨file1, file', g1, g2, g3, g4, g5⟩ := hres n hnrest
        by_cases hnn : name = n
        · subst hnn
          rw [Registry.storeFile_get, if_pos rfl] at g1
          cases g1
          exact ⟨target, file', hget, g2, g3.trans hfdp, g4.trans hgo, g5⟩
        · rw [Registry.storeFile_get, if_neg hnn] at g1
          exact ⟨file1, file', g1, g2, g3, g4, g5⟩
      · have hnn : n = name := by
          rcases List.mem_cons.mp hn with h1 | h1
          · exact h1
          · exact absurd h1 hnrest
        subst hnn
        refine ⟨target, target', hget, ?_, hfdp, hgo, hsl⟩
        rw [hframe n hnrest, Registry.storeFile_get, if_pos rfl]

/-- C5: when every file to generate is present in the request, the targets
agree on the package identity name, option extraction succeeds on their
methods, and every input and output type of their methods is the
fully-qualified name of a message declared in some file of the request
(any file, target or not, wherever it stands in the list), Load succeeds;
every target then holds, for each declared service with a method, a service
listing the declared methods in order, and the RequestType and ResponseType
of every loaded method are messages whose fully-qualified names are the
method's declared input and output type names. -/
theorem C5_load_links_cross_file_types (fuel : Nat) (r : Registry) (req : CodeGeneratorRequest)
    (hfuel : r.pkgAliases.length + req.ProtoFile.length ≤ fuel)
    (hpresent : ∀ name ∈ req.FileToGenerate, ∃ f ∈ req.ProtoFile, getString f.Name = name)
    (hagree : ∀ f ∈ req.ProtoFile, ∀ g ∈ req.ProtoFile,
      getString f.Name ∈ req.FileToGenerate → getString g.Name ∈ req.FileToGenerate →
      packageIdentityName f = packageIdentityName g)
    (hopts : ∀ f ∈ req.ProtoFile, getString f.Name ∈ req.FileToGenerate →
      ∀ sd ∈ f.Service, ∀ md ∈ sd.Method, ∃ o, extractAPIOptions md = .ok o)
    (htypes : ∀ f ∈ req.ProtoFile, getString f.Name ∈ req.FileToGenerate →
      ∀ sd ∈ f.Service, ∀ md ∈ sd.Method,
        (∃ f' ∈ req.ProtoFile, ∃ outers msg, DeclaresMsg f' outers msg ∧
          getString md.InputType = fqName f'.Package outers msg.GetName) ∧
        (∃ f' ∈ req.ProtoFile, ∃ outers msg, DeclaresMsg f' outers msg ∧
          getString md.OutputType = fqName f'.Package outers msg.GetName)) :
    ∃ r', r.Load fuel req = some (r', none) ∧
      ∀ name ∈ req.FileToGenerate, ∃ file, r'.LookupFile name = .ok file ∧
        file.FileDescriptorProto ∈ req.ProtoFile ∧
        getString file.FileDescriptorProto.Name = name ∧
        (∀ svc ∈ file.Services, ∀ meth ∈ svc.Methods,
          meth.RequestType.FQMN = getString meth.MethodDescriptorProto.InputType ∧
          meth.ResponseType.FQMN = getString meth.MethodDescriptorProto.OutputType) ∧
        (∀ sd ∈ file.FileDescriptorProto.Service, sd.Method ≠ [] →
          ∃ svc ∈ file.Services, svc.ServiceDescriptorProto = sd ∧
            svc.Methods.map (fun m => m.MethodDescriptorProto) = sd.Method) := by
  obtain ⟨r1, hload, _⟩ := r.loadFiles_terminates fuel req.ProtoFile hfuel
  obtain ⟨hcov, hfiles, _⟩ := r.loadFiles_covers fuel req.ProtoFile r1 hload
  have hfile : ∀ n ∈ req.FileToGenerate, ∃ file, r1.files.get n = some file ∧
      file.FileDescriptorProto ∈ req.ProtoFile ∧
      getString file.FileDescriptorProto.Name = n := by
    intro n hn
    obtain ⟨f, hf, hname⟩ := hpresent n hn
    obtain ⟨file, h1, h2, h3, _⟩ := hfiles f hf
    exact ⟨file, by rw [← hname]; exact h1, h2, by rw [h3, hname]⟩
  have hloadable : ∀ f ∈ req.ProtoFile, getString f.Name ∈ req.FileToGenerate →
      Loadable r1 f := by
    intro f hf hname sd hsd md hmd
    obtain ⟨⟨f1, hf1, o1, m1, hd1, he1⟩, ⟨f2, hf2, o2, m2, hd2, he2⟩⟩ :=
      htypes f hf hname sd hsd md hmd
    refine ⟨hopts f hf hname sd hsd md hmd, ?_, ?_⟩
    · rw [he1]
      exact (hcov f1 hf1).1 o1 m1 hd1
    · rw [he2]
      exact (hcov f2 hf2).1 o2 m2 hd2
  cases hnames : req.FileToGenerate with
  | nil =>
    refine ⟨r1, ?_, fun n hn => absurd hn (List.not_mem_nil _)⟩
    rw [r.Load_eq fuel r1 req hload, hnames]
    rfl
  | cons n0 rest0 =>
    obtain ⟨file0, _, hmem0, hname0⟩ := hfile n0 (by rw [hnames]; exact List.mem_cons_self _ _)
    have hn0 : getString file0.FileDescriptorProto.Name ∈ req.FileToGenerate := by
      rw [hname0, hnames]
      exact List.mem_cons_self _ _
    have hpre : ∀ n ∈ req.FileToGenerate, ∃ file, r1.files.get n = some file ∧
        packageIdentityName file.FileDescriptorProto =
          packageIdentityName file0.FileDescriptorProto ∧
        Loadable r1 file.FileDescriptorProto := by
      intro n hn
      obtain ⟨file, h1, h2, h3⟩ := hfile n hn
      have hin : getString file.FileDescriptorProto.Name ∈ req.FileToGenerate := by
        rw [h3]
        exact hn
      exact ⟨file, h1, hagree _ h2 _ hmem0 hin hn0, hloadable _ h2 hin⟩
    obtain ⟨r', hr', _, hres⟩ := Registry.loadTargets_ok
      (packageIdentityName file0.FileDescriptorProto) req.FileToGenerate r1 [] (Or.inl rfl) hpre
    refine ⟨r', ?_, ?_⟩
    · rw [r.Load_eq fuel r1 req hload, hr']
    · intro n hn
      rw [← hnames] at hn
      obtain ⟨file, file', g1, g2, g3, _, g5, g6⟩ := hres n hn
      obtain ⟨file1, k1, k2, k3⟩ := hfile n hn
      rw [g1] at k1
      cases k1
      refine ⟨file', by simp only [Registry.LookupFile, g2], by rw [g3]; exact k2,
        by rw [g3]; exact k3, ?_, ?_⟩
      · intro svc hsvc meth hmeth
        exact (g5 svc hsvc).2.2 meth hmeth
      · intro sd hsd hne
        obtain ⟨svc, hsvc, hsd'⟩ := g6 sd hsd hne
        refine ⟨svc, hsvc, hsd', ?_⟩
        rw [(g5 svc hsvc).2.1, hsd']

theorem C5_load_links_cross_file_types_witness :
    ∃ r', NewRegistry.Load 2 Sample.req = some (r', none) ∧
      ∀ name ∈ Sample.req.FileToGenerate, ∃ file, r'.LookupFile name = .ok file ∧
        file.FileDescriptorProto ∈ Sample.req.ProtoFile ∧
        getString file.FileDescriptorProto.Name = name ∧
        (∀ svc ∈ file.Services, ∀ meth ∈ svc.Methods,
          meth.RequestType.FQMN = getString meth.MethodDescriptorProto.InputType ∧
          meth.ResponseType.FQMN = getString meth.MethodDescriptorProto.OutputType) ∧
        (∀ sd ∈ file.FileDescriptorProto.Service, sd.Method ≠ [] →
          ∃ svc ∈ file.Services, svc.ServiceDescriptorProto = sd ∧
            svc.Methods.map (fun m => m.MethodDescriptorProto) = sd.Method) :=
  C5_load_links_cross_file_types 2 NewRegistry Sample.req (by decide)
    (by
      intro name hname
      simp only [Sample.req, List.mem_singleton] at hname
      subst hname
      exact ⟨Sample.fileA, List.mem_cons_self _ _, rfl⟩)
    (by
      intro f hf g hg _ _
      simp only [Sample.req, List.mem_cons, List.mem_singleton, List.mem_nil_iff, or_false]
        at hf hg
      rcases hf with rfl | rfl <;> rcases hg with rfl | rfl <;> decide)
    (by
      intro f hf _ sd hsd md hmd
      simp only [Sample.req, List.mem_cons, List.mem_singleton, List.mem_nil_iff, or_false]
        at hf
      rcases hf with rfl | rfl
      · simp only [Sample.fileA, List.mem_singleton] at hsd
        subst hsd
        simp only [List.mem_singleton] at hmd
        subst hmd
        exact ⟨none, rfl⟩
      · simp [Sample.fileB] at hsd)
    (by
      intro f hf _ sd hsd md hmd
      simp only [Sample.req, List.mem_cons, List.mem_singleton, List.mem_nil_iff, or_false]
        at hf
      rcases hf with rfl | rfl
      · simp only [Sample.fileA, List.mem_singleton] at hsd
        subst hsd
        simp only [List.mem_singleton] at hmd
        subst hmd
        exact ⟨⟨Sample.fileA, List.mem_cons_self _ _, [], Sample.msgT,
            MsgIn.here (List.mem_cons_self _ _), by decide⟩,
          ⟨Sample.fileA, List.mem_cons_self _ _, _, _,
            @MsgIn.nested _ _ _ Sample.msgT _ (List.mem_cons_self _ _)
              (MsgIn.here (List.mem_cons_self _ _)), by decide⟩⟩
      · simp [Sample.fileB] at hsd)

/-! ## Errors of Load -/

/-- The second loop of Load never removes a file. -/
theorem Registry.loadTargets_keeps_files (names : List GoString) (r : Registry)
    (targetPkg n : GoString) (h : (r.files.get n).isSome = true) :
    ((r.loadTargets targetPkg names).1.files.get n).isSome = true := by
  induction names generalizing r targetPkg with
  | nil => exact h
  | cons name rest ih =>
    rw [Registry.loadTargets_cons]
    cases hget : r.files.get name with
    | none => exact h
    | some target =>
      simp only []
      split
      · exact h
      · have hstore : ((r.storeFile name (r.loadServices target).1).files.get n).isSome = true := by
          rw [Registry.storeFile_get]
          split
          · rfl
          · exact h
        split
        · exact hstore
        · exact ih _ _ hstore

/-- The second loop of Load fails when a name of the list has no file. -/
theorem Registry.loadTargets_missing (names : List GoString) (r : Registry)
    (targetPkg name : GoString) (hmem : name ∈ names) (hnone : r.files.get name = none) :
    (r.loadTargets targetPkg names).2 ≠ none := by
  induction names generalizing r targetPkg with
  | nil => exact absurd hmem (List.not_mem_nil _)
  | cons n rest ih =>
    rw [Registry.loadTargets_cons]
    cases hget : r.files.get n with
    | none => simp
    | some target =>
      simp only []
      have hne : n ≠ name := by
        intro h
        rw [h, hnone] at hget
        cases hget
      have hrest : name ∈ rest := by
        rcases List.mem_cons.mp hmem with h | h
        · exact absurd h.symm hne
        · exact h
      split
      · simp
      · split
        · simp
        · apply ih _ _ hrest
          rw [Registry.storeFile_get, if_neg hne]
          exact hnone

/-- When the second loop of Load returns no error, every name of the list
has a file. -/
theorem Registry.loadTargets_present (names : List GoString) (r : Registry)
    (targetPkg : GoString) (h : (r.loadTargets targetPkg names).2 = none) :
    ∀ name ∈ names, ((r.loadTargets targetPkg names).1.files.get name).isSome = true := by
  intro name hmem
  by_cases hsome : (r.files.get name).isSome = true
  · exact Registry.loadTargets_keeps_files names r targetPkg name hsome
  · have hnone : r.files.get name = none := by
      cases hg : r.files.get name with
      | none => rfl
      | some f => simp [hg] at hsome
    exact absurd h (Registry.loadTargets_missing names r targetPkg name hmem hnone)

/-- C11: if a name of FileToGenerate is not the name of a file of the
request (and the registry holds no file under that name, as the new registry
of main does), Load returns an error; and after a Load that returns no error
LookupFile succeeds for every name of FileToGenerate. -/
theorem C11_missing_target_is_an_error (fuel : Nat) (r : Registry)
    (req : CodeGeneratorRequest)
    (hfuel : r.pkgAliases.length + req.ProtoFile.length ≤ fuel) :
    (∀ name ∈ req.FileToGenerate, (∀ f ∈ req.ProtoFile, getString f.Name ≠ name) →
      r.files.get name = none → ∃ r' err, r.Load fuel req = some (r', some err)) ∧
    (∀ r', r.Load fuel req = some (r', none) →
      ∀ name ∈ req.FileToGenerate, ∃ file, r'.LookupFile name = .ok file) := by
  obtain ⟨r1, hload, _⟩ := r.loadFiles_terminates fuel req.ProtoFile hfuel
  obtain ⟨_, _, hframe⟩ := r.loadFiles_covers fuel req.ProtoFile r1 hload
  have hL := r.Load_eq fuel r1 req hload
  refine ⟨?_, ?_⟩
  · intro name hname hnot hnone
    have hmiss := Registry.loadTargets_missing req.FileToGenerate r1 [] name hname
      (by rw [hframe name hnot]; exact hnone)
    cases herr : (r1.loadTargets [] req.FileToGenerate).2 with
    | none => exact absurd herr hmiss
    | some err =>
      refine ⟨(r1.loadTargets [] req.FileToGenerate).1, err, ?_⟩
      rw [hL, ← herr]
  · intro r' hr' name hname
    rw [hL] at hr'
    simp only [Option.some.injEq] at hr'
    have h2 : (r1.loadTargets [] req.FileToGenerate).2 = none := by rw [hr']
    have h1 : (r1.loadTargets [] req.FileToGenerate).1 = r' := by rw [hr']
    have hp := Registry.loadTargets_present req.FileToGenerate r1 [] h2 name hname
    rw [h1] at hp
    cases hg : r'.files.get name with
    | none => simp [hg] at hp
    | some file => exact ⟨file, by simp only [Registry.LookupFile, hg]⟩

theorem C11_missing_target_is_an_error_witness :
    ∃ r' err, NewRegistry.Load 2 Sample.reqMissing = some (r', some err) :=
  (C11_missing_target_is_an_error 2 NewRegistry Sample.reqMissing (by decide)).1
    "x/missing.proto".toList (by decide)
    (by
      intro f hf
      simp only [Sample.reqMissing, List.mem_cons, List.mem_singleton, List.mem_nil_iff,
        or_false] at hf
      rcases hf with rfl | rfl <;> decide)
    rfl

/-- C12 (the code at the failing input): both files to generate are present,
their package identity names are the empty string and `z`, and Load returns
no error. -/
theorem C12_empty_identity_name_is_not_compared :
    packageIdentityName Sample.fileSlash = [] ∧
    packageIdentityName Sample.fileZed = ['z'] ∧
    (NewRegistry.Load 2 Sample.reqTwoPackages).map (fun p => p.2) = some none ∧
    (NewRegistry.Load 2 Sample.reqTwoPackages).map
      (fun p => ((p.1.files.get "p/e.proto".toList).isSome,
        (p.1.files.get "p/z.proto".toList).isSome)) = some (true, true) := by
  decide

theorem Registry.newMethod_bad (r : Registry) (svc : Service) (md : MethodDescriptorProto)
    (opts : Option HttpRule)
    (h : BadMethod r (getString svc.File.FileDescriptorProto.Package) md) :
    ∃ err, r.newMethod svc md opts = .error err := by
  unfold Registry.newMethod
  rcases h with ⟨e, he⟩ | ⟨e, he⟩
  · exact ⟨e, by rw [he]⟩
  · cases hin : r.LookupMsg (getString svc.File.FileDescriptorProto.Package)
        (getString md.InputType) with
    | error e' => exact ⟨e', rfl⟩
    | ok m => exact ⟨e, by simp only [he]⟩

theorem Registry.loadMethods_bad (r : Registry) (mds : List MethodDescriptorProto)
    (svc : Service) (md : MethodDescriptorProto) (hmem : md ∈ mds)
    (h : BadMethod r (getString svc.File.FileDescriptorProto.Package) md) :
    ∃ err, r.loadMethods svc mds = .error err := by
  induction mds generalizing svc with
  | nil => exact absurd hmem (List.not_mem_nil _)
  | cons md' rest ih =>
    rw [Registry.loadMethods]
    cases hopt : extractAPIOptions md' with
    | error e => exact ⟨e, rfl⟩
    | ok opts =>
      simp only []
      cases hnew : r.newMethod svc md' opts with
      | error e => exact ⟨e, rfl⟩
      | ok meth =>
        simp only []
        rcases List.mem_cons.mp hmem with heq | hrest
        · subst heq
          obtain ⟨e, he⟩ := r.newMethod_bad svc md opts h
          rw [he] at hnew
          cases hnew
        · exact ih { svc with Methods := svc.Methods ++ [meth] } hrest h

theorem Registry.loadServiceList_bad (r : Registry) (file : File)
    (sds : List ServiceDescriptorProto) (svcs : List Service) (sd : ServiceDescriptorProto)
    (md : MethodDescriptorProto) (hsd : sd ∈ sds) (hmd : md ∈ sd.Method)
    (h : BadMethod r (getString file.FileDescriptorProto.Package) md) :
    ∃ err, r.loadServiceList file svcs sds = .error err := by
  induction sds generalizing svcs with
  | nil => exact absurd hsd (List.not_mem_nil _)
  | cons sd' rest ih =>
    rw [Registry.loadServiceList]
    cases hm : r.loadMethods { File := file.info, ServiceDescriptorProto := sd', Methods := [] }
        sd'.Method with
    | error e => exact ⟨e, rfl⟩
    | ok svc =>
      simp only []
      rcases List.mem_cons.mp hsd with heq | hrest
      · subst heq
        obtain ⟨e, he⟩ := r.loadMethods_bad sd.Method
          { File := file.info, ServiceDescriptorProto := sd, Methods := [] } md hmd h
        rw [he] at hm
        cases hm
      · split
        · exact ih svcs hrest
        · exact ih _ hrest

/-- The function loadServices fails on a file with a method whose input or
output type is not resolved. -/
theorem Registry.loadServices_bad (r : Registry) (file : File)
    (h : BadFile r file.FileDescriptorProto) : (r.loadServices file).2 ≠ none := by
  obtain ⟨sd, hsd, md, hmd, hbad⟩ := h
  obtain ⟨e, he⟩ := r.loadServiceList_bad file file.FileDescriptorProto.Service [] sd md
    hsd hmd hbad
  simp [Registry.loadServices, he]

theorem Registry.loadServices_descriptor (r : Registry) (file : File) :
    (r.loadServices file).1.FileDescriptorProto = file.FileDescriptorProto := by
  unfold Registry.loadServices
  cases r.loadServiceList file [] file.FileDescriptorProto.Service <;> rfl

/-- The second loop of Load fails when the file of a name of the list has a
method whose input or output type is not resolved. -/
theorem Registry.loadTargets_bad (names : List GoString) (r : Registry)
    (targetPkg name : GoString) (target : File) (hmem : name ∈ names)
    (hget : r.files.get name = some target) (hbad : BadFile r target.FileDescriptorProto) :
    (r.loadTargets targetPkg names).2 ≠ none := by
  induction names generalizing r targetPkg target with
  | nil => exact absurd hmem (List.not_mem_nil _)
  | cons n rest ih =>
    rw [Registry.loadTargets_cons]
    cases hn : r.files.get n with
    | none => simp
    | some t =>
      simp only []
      split
      · simp
      · by_cases hnn : n = name
        · subst hnn
          rw [hget] at hn
          cases hn
          have hfail := r.loadServices_bad target hbad
          cases hls : (r.loadServices target).2 with
          | none => exact absurd hls hfail
          | some err => simp
        · have hrest : name ∈ rest := by
            rcases List.mem_cons.mp hmem with h | h
            · exact absurd h.symm hnn
            · exact h
          split
          · simp
          · apply ih (r.storeFile n (r.loadServices t).1) _ target hrest
            · rw [Registry.storeFile_get, if_neg hnn]
              exact hget
            · exact hbad

/-- C13: if, after the files of the request are registered, the file stored
under a name of FileToGenerate has a service with a method whose input type
or output type LookupMsg does not resolve from the file's package, Load
returns an error. -/
theorem C13_unresolved_type_is_an_error (fuel : Nat) (r r1 : Registry)
    (req : CodeGeneratorRequest) (name : GoString) (target : File)
    (sd : ServiceDescriptorProto) (md : MethodDescriptorProto)
    (hphase1 : r.loadFiles fuel req.ProtoFile = some r1)
    (hname : name ∈ req.FileToGenerate) (htarget : r1.files.get name = some target)
    (hsd : sd ∈ target.FileDescriptorProto.Service) (hmd : md ∈ sd.Method)
    (hbad : (∃ err, r1.LookupMsg (getString target.FileDescriptorProto.Package)
        (getString md.InputType) = .error err) ∨
      (∃ err, r1.LookupMsg (getString target.FileDescriptorProto.Package)
        (getString md.OutputType) = .error err)) :
    ∃ r' err, r.Load fuel req = some (r', some err) := by
  have hfail := Registry.loadTargets_bad req.FileToGenerate r1 [] name target hname htarget
    ⟨sd, hsd, md, hmd, hbad⟩
  cases herr : (r1.loadTargets [] req.FileToGenerate).2 with
  | none => exact absurd herr hfail
  | some err =>
    refine ⟨(r1.loadTargets [] req.FileToGenerate).1, err, ?_⟩
    rw [r.Load_eq fuel r1 req hphase1, ← herr]

theorem C13_unresolved_type_is_an_error_witness :
    ∃ r' err, NewRegistry.Load 2 Sample.reqDangling = some (r', some err) :=
  C13_unresolved_type_is_an_error 2 NewRegistry Sample.regDangling Sample.reqDangling
    "x/d.proto".toList Sample.targetDangling
    ⟨some ['S'], [⟨some ['M'], some ".a.T".toList, some ".a.Nowhere".toList, none, none, none⟩]⟩
    ⟨some ['M'], some ".a.T".toList, some ".a.Nowhere".toList, none, none, none⟩
    rfl (List.mem_cons_self _ _) rfl (List.mem_cons_self _ _) (List.mem_cons_self _ _)
    (Or.inr ⟨.noMessageFound ".a.Nowhere".toList, rfl⟩)

/-! ## The template input of generateFrom -/

theorem handlerLoop_cons (file : File) (m : Method) (rest : List Method)
    (handlers : List templateHandler) (pkgSeen : GoMap GoString Bool) :
    handlerLoop file (m :: rest) handlers pkgSeen =
      if m.isUnary = true then
        if getString m.MethodDescriptorProto.InputType = [] then .error .sliceBoundsPanic
        else handlerLoop file rest (handlers ++ [handlerOf m]) (markSeen file m pkgSeen)
      else handlerLoop file rest handlers pkgSeen := by
  rw [handlerLoop]
  unfold Method.isUnary
  cases hs : (getBool m.MethodDescriptorProto.ServerStreaming ||
      getBool m.MethodDescriptorProto.ClientStreaming)
  · simp only [Bool.false_eq_true, if_false, Bool.not_false, if_true]
    cases hi : getString m.MethodDescriptorProto.InputType with
    | nil => simp
    | cons c cs => simp [handlerOf, hi]
  · simp

/-- The inner loop of generateFrom, when it returns, has appended the
handlers of the methods that are not streaming, in order. -/
theorem handlerLoop_ok (file : File) (ms : List Method) (handlers hs : List templateHandler)
    (pkgSeen ps : GoMap GoString Bool) (h : handlerLoop file ms handlers pkgSeen = .ok (hs, ps)) :
    hs = handlers ++ (ms.filter Method.isUnary).map handlerOf := by
  induction ms generalizing handlers pkgSeen with
  | nil =>
    simp only [handlerLoop, Except.ok.injEq, Prod.mk.injEq] at h
    simp [h.1]
  | cons m rest ih =>
    rw [handlerLoop_cons] at h
    by_cases hu : m.isUnary = true
    · rw [if_pos hu] at h
      by_cases hi : getString m.MethodDescriptorProto.InputType = []
      · rw [if_pos hi] at h
        cases h
      · rw [if_neg hi] at h
        rw [ih _ _ h]
        simp [List.filter_cons, hu]
    · rw [if_neg hu] at h
      rw [ih _ _ h]
      simp [List.filter_cons, hu]

theorem handlerLoop_error (file : File) (ms : List Method) (handlers : List templateHandler)
    (pkgSeen : GoMap GoString Bool) (err : GenError)
    (h : handlerLoop file ms handlers pkgSeen = .error err) : err = .sliceBoundsPanic := by
  induction ms generalizing handlers pkgSeen with
  | nil => simp [handlerLoop] at h
  | cons m rest ih =>
    rw [handlerLoop_cons] at h
    by_cases hu : m.isUnary = true
    · rw [if_pos hu] at h
      by_cases hi : getString m.MethodDescriptorProto.InputType = []
      · rw [if_pos hi] at h
        cases h
        rfl
      · rw [if_neg hi] at h
        exact ih _ _ h
    · rw [if_neg hu] at h
      exact ih _ _ h

theorem handlerLoop_total (file : File) (ms : List Method) (handlers : List templateHandler)
    (pkgSeen : GoMap GoString Bool)
    (hargs : ∀ m ∈ ms, m.isUnary = true → getString m.MethodDescriptorProto.InputType ≠ []) :
    ∃ hs ps, handlerLoop file ms handlers pkgSeen = .ok (hs, ps) := by
  induction ms generalizing handlers pkgSeen with
  | nil => exact ⟨handlers, pkgSeen, rfl⟩
  | cons m rest ih =>
    rw [handlerLoop_cons]
    by_cases hu : m.isUnary = true
    · rw [if_pos hu, if_neg (hargs m (List.mem_cons_self _ _) hu)]
      exact ih _ _ (fun m' hm' => hargs m' (List.mem_cons_of_mem _ hm'))
    · rw [if_neg hu]
      exact ih _ _ (fun m' hm' => hargs m' (List.mem_cons_of_mem _ hm'))

/-- The outer loop of generateFrom, when it returns, has appended one entry
for every service, in order. -/
theorem serviceLoop_ok (file : File) (svcs : List Service) (services ss : List templateService)
    (pkgSeen ps : GoMap GoString Bool)
    (h : serviceLoop file svcs services pkgSeen = .ok (ss, ps)) :
    ss = services ++ svcs.map entryOf := by
  induction svcs generalizing services pkgSeen with
  | nil =>
    simp only [serviceLoop, Except.ok.injEq, Prod.mk.injEq] at h
    simp [h.1]
  | cons svc rest ih =>
    rw [serviceLoop] at h
    cases hh : handlerLoop file svc.Methods [] pkgSeen with
    | error e => simp [hh] at h
    | ok p =>
      obtain ⟨hs, ps'⟩ := p
      simp only [hh] at h
      rw [ih _ _ h]
      have := handlerLoop_ok file svc.Methods [] hs pkgSeen ps' hh
      simp [entryOf, this]

theorem serviceLoop_error (file : File) (svcs : List Service) (services : List templateService)
    (pkgSeen : GoMap GoString Bool) (err : GenError)
    (h : serviceLoop file svcs services pkgSeen = .error err) : err = .sliceBoundsPanic := by
  induction svcs generalizing services pkgSeen with
  | nil => simp [serviceLoop] at h
  | cons svc rest ih =>
    rw [serviceLoop] at h
    cases hh : handlerLoop file svc.Methods [] pkgSeen with
    | error e =>
      simp only [hh, Except.error.injEq] at h
      rw [← h]
      exact handlerLoop_error file svc.Methods [] pkgSeen e hh
    | ok p =>
      obtain ⟨hs, ps'⟩ := p
      simp only [hh] at h
      exact ih _ _ h

theorem serviceLoop_total (file : File) (svcs : List Service) (services : List templateService)
    (pkgSeen : GoMap GoString Bool)
    (hargs : ∀ svc ∈ svcs, ∀ m ∈ svc.Methods, m.isUnary = true →
      getString m.MethodDescriptorProto.InputType ≠ []) :
    ∃ ss ps, serviceLoop file svcs services pkgSeen = .ok (ss, ps) := by
  induction svcs generalizing services pkgSeen with
  | nil => exact ⟨services, pkgSeen, rfl⟩
  | cons svc rest ih =>
    rw [serviceLoop]
    obtain ⟨hs, ps', hh⟩ := handlerLoop_total file svc.Methods [] pkgSeen
      (hargs svc (List.mem_cons_self _ _))
    simp only [hh]
    exact ih _ _ (fun svc' hsvc' => hargs svc' (List.mem_cons_of_mem _ hsvc'))

/-- The template input of a file, when generateFrom gets to build it: the
package name and one entry for every service of the file. -/
theorem templateInput_ok (file : File) (info : templateFileInfo)
    (h : templateInput file = .ok info) :
    info = { Package := file.GoPkg.Name, Services := file.Services.map entryOf } := by
  unfold templateInput at h
  cases hs : serviceLoop file file.Services [] [] with
  | error e => simp [hs] at h
  | ok p =>
    obtain ⟨ss, ps⟩ := p
    simp only [hs, Except.ok.injEq] at h
    rw [← h, serviceLoop_ok file file.Services [] ss [] ps hs]
    simp

theorem templateInput_error (file : File) (err : GenError)
    (h : templateInput file = .error err) : err = .sliceBoundsPanic := by
  unfold templateInput at h
  cases hs : serviceLoop file file.Services [] [] with
  | error e =>
    simp only [hs, Except.error.injEq] at h
    rw [← h]
    exact serviceLoop_error file file.Services [] [] e hs
  | ok p =>
    obtain ⟨ss, ps⟩ := p
    simp [hs] at h

theorem templateInput_total (file : File)
    (hargs : ∀ svc ∈ file.Services, ∀ m ∈ svc.Methods, m.isUnary = true →
      getString m.MethodDescriptorProto.InputType ≠ []) :
    templateInput file =
      .ok { Package := file.GoPkg.Name, Services := file.Services.map entryOf } := by
  obtain ⟨ss, ps, hs⟩ := serviceLoop_total file file.Services [] [] hargs
  have hinfo : templateInput file = .ok { Package := file.GoPkg.Name, Services := ss } := by
    simp only [templateInput, hs]
  rw [hinfo, templateInput_ok file _ hinfo]

theorem isUnary_eq_true_iff (m : Method) :
    m.isUnary = true ↔ getBool m.MethodDescriptorProto.ServerStreaming = false ∧
      getBool m.MethodDescriptorProto.ClientStreaming = false := by
  unfold Method.isUnary
  cases getBool m.MethodDescriptorProto.ServerStreaming <;>
    cases getBool m.MethodDescriptorProto.ClientStreaming <;> simp

theorem generateFrom_of_templateInput (file : File) (t : Template) (info : templateFileInfo)
    (h : templateInput file = .ok info) : generateFrom file t = .ok (t info) := by
  simp only [generateFrom, h]

/-! ## Claims on the generator -/

/-- C14: the handler list generateFrom builds for a service consists of the
service's methods that are neither client-streaming nor server-streaming, in
declaration order, each handler named after its method; a service with one
streaming and one unary method gets a handler list with the unary method
only.  (The methods that get a handler have a non-empty input type, which
generateFrom slices.) -/
theorem C14_handlers_are_the_unary_methods (file : File)
    (hargs : ∀ svc ∈ file.Services, ∀ m ∈ svc.Methods,
      getBool m.MethodDescriptorProto.ServerStreaming = false →
      getBool m.MethodDescriptorProto.ClientStreaming = false →
      getString m.MethodDescriptorProto.InputType ≠ []) :
    ∃ info, templateInput file = .ok info ∧ (∀ t, generateFrom file t = .ok (t info)) ∧
      info.Services.map (fun ts => (ts.Name, ts.Handlers.map (fun h => h.Name))) =
        file.Services.map (fun svc => (getString svc.ServiceDescriptorProto.Name,
          (svc.Methods.filter (fun m => !getBool m.MethodDescriptorProto.ServerStreaming &&
            !getBool m.MethodDescriptorProto.ClientStreaming)).map
              (fun m => getString m.MethodDescriptorProto.Name))) ∧
      (∀ svc ∈ file.Services, ∀ m1 m2, svc.Methods = [m1, m2] → m1.isUnary = false →
        m2.isUnary = true → ∃ ts ∈ info.Services,
          ts.Name = getString svc.ServiceDescriptorProto.Name ∧
          ts.Handlers.map (fun h => h.Name) = [getString m2.MethodDescriptorProto.Name]) ∧
      (∀ svc ∈ file.Services, ∀ m1 m2, svc.Methods = [m1, m2] → m1.isUnary = true →
        m2.isUnary = false → ∃ ts ∈ info.Services,
          ts.Name = getString svc.ServiceDescriptorProto.Name ∧
          ts.Handlers.map (fun h => h.Name) = [getString m1.MethodDescriptorProto.Name]) := by
  have htot := templateInput_total file (fun svc hsvc m hm hu =>
    hargs svc hsvc m hm ((isUnary_eq_true_iff m).mp hu).1 ((isUnary_eq_true_iff m).mp hu).2)
  have hfilter : (fun m : Method => !getBool m.MethodDescriptorProto.ServerStreaming &&
      !getBool m.MethodDescriptorProto.ClientStreaming) = Method.isUnary := by
    funext m
    simp [Method.isUnary]
  refine ⟨_, htot, fun t => generateFrom_of_templateInput file t _ htot, ?_, ?_, ?_⟩
  · rw [hfilter]
    simp [entryOf, handlerOf, Function.comp_def]
  · intro svc hsvc m1 m2 hms h1 h2
    refine ⟨entryOf svc, List.mem_map_of_mem _ hsvc, rfl, ?_⟩
    simp [entryOf, hms, List.filter_cons, h1, h2, handlerOf]
  · intro svc hsvc m1 m2 hms h1 h2
    refine ⟨entryOf svc, List.mem_map_of_mem _ hsvc, rfl, ?_⟩
    simp [entryOf, hms, List.filter_cons, h1, h2, handlerOf]

theorem C14_handlers_are_the_unary_methods_witness :
    ∃ info, templateInput Sample.targetExample = .ok info ∧
      info.Services.map (fun ts => (ts.Name, ts.Handlers.map (fun h => h.Name))) =
        [("Example".toList, ["GetPerson".toList])] :=
  match C14_handlers_are_the_unary_methods Sample.targetExample (by
      intro svc hsvc m hm h1 h2
      simp only [Sample.targetExample] at hsvc
      have hs : svc ∈ Sample.targetExample.Services := hsvc
      have hsvcs : Sample.targetExample.Services.map (fun s => s.Methods.map
          (fun m => getString m.MethodDescriptorProto.InputType)) =
          [[".example.Query".toList, ".example.Query".toList]] := by decide
      have hmem : svc.Methods.map (fun m => getString m.MethodDescriptorProto.InputType) ∈
          Sample.targetExample.Services.map (fun s => s.Methods.map
            (fun m => getString m.MethodDescriptorProto.InputType)) :=
        List.mem_map_of_mem _ hs
      rw [hsvcs, List.mem_singleton] at hmem
      have hm' : getString m.MethodDescriptorProto.InputType ∈
          svc.Methods.map (fun m => getString m.MethodDescriptorProto.InputType) :=
        List.mem_map_of_mem _ hm
      rw [hmem] at hm'
      simp only [List.mem_cons, List.mem_singleton, List.mem_nil_iff, or_false, or_self] at hm'
      rw [hm']
      decide) with
  | ⟨info, h1, _, h3, _⟩ => ⟨info, h1, h3.trans (by decide)⟩

theorem generateFrom_error (file : File) (t : Template) (err : GenError)
    (h : generateFrom file t = .error err) : err = .sliceBoundsPanic := by
  unfold generateFrom at h
  cases hi : templateInput file with
  | error e =>
    simp only [hi, Except.error.injEq] at h
    rw [← h]
    exact templateInput_error file e hi
  | ok info => simp [hi] at h

theorem buildFilesLoop_cons (lib : Library) (mode : Mode) (file : File) (rest : List File)
    (files : List CodeGeneratorResponse_File) :
    buildFilesLoop lib mode (file :: rest) files =
      match generateFrom file (lib.fromTemplate mode) with
      | .error err => .error err
      | .ok minimalCode =>
        match lib.formatSource minimalCode with
        | .error msg => .error (.formatError msg)
        | .ok formatted =>
          buildFilesLoop lib mode rest (files ++
            [{ Name := some (outputName mode (getString file.FileDescriptorProto.Name)),
               Content := some formatted }]) := by
  rw [buildFilesLoop]
  cases hg : generateFrom file (lib.fromTemplate mode) with
  | error e =>
    have := generateFrom_error file _ e hg
    subst this
    rfl
  | ok code => rfl

/-- The loop of buildFiles, when it returns no error, has appended one file
for every target, in order, named after the target. -/
theorem buildFilesLoop_names (lib : Library) (mode : Mode) (targets : List File)
    (files out : List CodeGeneratorResponse_File)
    (h : buildFilesLoop lib mode targets files = .ok out) :
    out.map (fun f => f.Name) = files.map (fun f => f.Name) ++
      targets.map (fun f => some (outputName mode (getString f.FileDescriptorProto.Name))) := by
  induction targets generalizing files with
  | nil =>
    simp only [buildFilesLoop, Except.ok.injEq] at h
    simp [h]
  | cons file rest ih =>
    rw [buildFilesLoop_cons] at h
    cases hg : generateFrom file (lib.fromTemplate mode) with
    | error e => simp [hg] at h
    | ok code =>
      simp only [hg] at h
      cases hf : lib.formatSource code with
      | error msg => simp [hf] at h
      | ok formatted =>
        simp only [hf] at h
        rw [ih _ h]
        simp

/-- C15 (the code against the claim): generateFrom never returns the
no-target-service error; buildFiles, when it returns no error, returns one
file for every target, also for a target in which no service has an eligible
method; Generate on a loaded file without services returns two files. -/
theorem C15_no_target_service_is_never_signalled :
    (∀ (file : File) (t : Template), generateFrom file t ≠ .error .errNoTargetService) ∧
    (∀ (lib : Library) (targets : List File) (mode : Mode)
        (files : List CodeGeneratorResponse_File),
      buildFiles lib targets mode = .ok files →
      files.map (fun f => f.Name) =
        targets.map (fun f => some (outputName mode (getString f.FileDescriptorProto.Name)))) ∧
    templateInput Sample.targetEmpty = .ok ⟨['a'], []⟩ ∧
    (New NewRegistry false).Generate Sample.libPlain [Sample.targetEmpty] =
      .ok [⟨some "y/a.pb.http.go".toList, some "package a".toList⟩,
           ⟨some "y/a.pb.http.router.go".toList, some "package a // router".toList⟩] := by
  refine ⟨?_, ?_, rfl, rfl⟩
  · intro file t h
    have := generateFrom_error file t _ h
    cases this
  · intro lib targets mode files h
    have := buildFilesLoop_names lib mode targets [] files h
    simpa using this

/-- C17 (as stated, refuted): the only method of the loaded file has no HTTP
binding (option extraction gives nil), and generateFrom makes a handler for
it. -/
theorem C17_unbound_method_gets_a_handler :
    Sample.targetA.Services.map (fun svc => svc.Methods.map
        (fun m => (extractAPIOptions m.MethodDescriptorProto).toOption)) =
      [[some none]] ∧
    templateInput Sample.targetA = .ok Sample.inputA ∧
    Sample.inputA.Services.map (fun ts => (ts.Name, ts.Handlers.map (fun hd => hd.Name))) =
      [(['S'], [['M']])] :=
  ⟨by decide, rfl, by decide⟩

/-! ## Output names -/

theorem adapter_suffix_ne_router_suffix (x y : GoString) :
    x ++ ".pb.http.go".toList ≠ y ++ ".pb.http.router.go".toList := by
  intro h
  have h2 := congrArg (fun l => l.reverse.take 4) h
  simp only [List.reverse_append] at h2
  rw [List.take_append_of_le_length (by decide),
    List.take_append_of_le_length (by decide)] at h2
  revert h2
  decide

theorem filepathExt_suffix (p : GoString) : filepathExt p <:+ p := by
  unfold filepathExt
  simp only []
  split
  · unfold sliceFrom
    exact (List.drop_suffix _ _).trans (List.drop_suffix _ _)
  · exact List.nil_suffix

/-- Removing the extension of a name and putting it back gives the name. -/
theorem stringsTrimSuffix_append_ext (p : GoString) :
    stringsTrimSuffix p (filepathExt p) ++ filepathExt p = p := by
  obtain ⟨t, ht⟩ := filepathExt_suffix p
  have hsuf : (filepathExt p).isSuffixOf p = true :=
    List.isSuffixOf_iff_suffix.mpr ⟨t, ht⟩
  unfold stringsTrimSuffix
  rw [if_pos hsuf]
  have hlen : p.length - (filepathExt p).length = t.length := by
    have := congrArg List.length ht
    simp only [List.length_append] at this
    omega
  rw [hlen]
  have htake : List.take t.length p = t := by
    have h := List.take_left t (filepathExt p)
    rw [ht] at h
    exact h
  rw [htake, ht]

/-- C18: the adapter artifact name derived from a source file name is never
the router artifact name derived from a source file name, the same or
another. -/
theorem C18_adapter_and_router_names_differ (s t : GoString) :
    outputName .minimal s ≠ outputName .router t ∧
    outputName .minimal s = stringsTrimSuffix s (filepathExt s) ++ ".pb.http.go".toList ∧
    outputName .router t =
      stringsTrimSuffix t (filepathExt t) ++ ".pb.http.router.go".toList :=
  ⟨adapter_suffix_ne_router_suffix _ _, rfl, rfl⟩

/-- C19 (as stated, refuted): two different source file names that differ in
their extension only get the same adapter name and the same router name. -/
theorem C19_names_differing_in_extension_collide :
    "a.proto".toList ≠ "a.protodevel".toList ∧
    outputName .minimal "a.proto".toList = outputName .minimal "a.protodevel".toList ∧
    outputName .router "a.proto".toList = outputName .router "a.protodevel".toList := by
  decide

/-! ## The router constructor -/

/-- C20 (the code against its documentation): a route key passed through
WithRoutes with a nil handler is skipped by the constructor, so the router
keeps the handler its default table has for that key; for the example router
the route `/example/getperson` still leads to GetPerson. -/
theorem C20_nil_handler_keeps_the_default_route :
    (∀ (defaultRoutes : GoMap GoString HandlerFunc) (route : GoString),
      (NewRouter defaultRoutes [WithRoutes (some [(route, none)])]).toOption.map
        (fun router => router.routes) = some defaultRoutes) ∧
    (NewExampleRouter [WithRoutes (some [("/example/getperson".toList, none)])]).toOption.map
      (fun router => router.routes.get "/example/getperson".toList) =
        some (some (some (.method "GetPerson".toList))) := by
  refine ⟨fun _ _ => rfl, by decide⟩

/-! ## The package identity name -/

theorem sanitizePackageName_eq (s : GoString) :
    sanitizePackageName s = s.map (fun c => if c = '.' ∨ c = '-' then '_' else c) := by
  simp only [sanitizePackageName, stringsReplaceAll, List.map_map]
  apply List.map_congr_left
  intro c _
  simp only [Function.comp]
  by_cases h1 : c = '.'
  · subst h1
    decide
  · by_cases h2 : c = '-'
    · subst h2
      decide
    · simp [h1, h2]

theorem stringsIndexByte_not_mem (c : Char) (s : GoString) (h : c ∉ s) :
    stringsIndexByte c s = -1 := by
  induction s with
  | nil => rfl
  | cons d s ih =>
    have hd : d ≠ c := fun e => h (by simp [e])
    have hs : c ∉ s := fun e => h (by simp [e])
    simp [stringsIndexByte, hd, ih hs]

theorem stringsIndexByte_append (c : Char) (pre post : GoString) (h : c ∉ pre) :
    stringsIndexByte c (pre ++ c :: post) = pre.length := by
  induction pre with
  | nil => simp [stringsIndexByte]
  | cons d pre ih =>
    have hd : d ≠ c := fun e => h (by simp [e])
    have hs : c ∉ pre := fun e => h (by simp [e])
    have hstep : stringsIndexByte c (d :: (pre ++ c :: post)) =
        if d = c then 0
        else if stringsIndexByte c (pre ++ c :: post) < 0 then -1
        else stringsIndexByte c (pre ++ c :: post) + 1 := rfl
    rw [List.cons_append, hstep, if_neg hd, ih hs]
    have : ¬ ((pre.length : Int) < 0) := by omega
    rw [if_neg this]
    simp

/-- A string in which `c` occurs splits at the last occurrence of `c`. -/
theorem exists_last_occurrence (c : Char) (s : GoString) (h : c ∈ s) :
    ∃ pre post, s = pre ++ c :: post ∧ c ∉ post := by
  induction s with
  | nil => simp at h
  | cons d s ih =>
    by_cases hs : c ∈ s
    · obtain ⟨pre, post, e, hp⟩ := ih hs
      exact ⟨d :: pre, post, by rw [e, List.cons_append], hp⟩
    · have hd : c = d := by
        rcases List.mem_cons.mp h with e | e
        · exact e
        · exact absurd e hs
      exact ⟨[], s, by rw [hd, List.nil_append], hs⟩

/-- A string in which `c` occurs splits at the first occurrence of `c`. -/
theorem exists_first_occurrence (c : Char) (s : GoString) (h : c ∈ s) :
    ∃ pre post, s = pre ++ c :: post ∧ c ∉ pre := by
  induction s with
  | nil => simp at h
  | cons d s ih =>
    by_cases hd : d = c
    · exact ⟨[], s, by rw [hd, List.nil_append], by simp⟩
    · have hs : c ∈ s := by
        rcases List.mem_cons.mp h with e | e
        · exact absurd e.symm hd
        · exact e
      obtain ⟨pre, post, e, hp⟩ := ih hs
      refine ⟨d :: pre, post, by rw [e, List.cons_append], ?_⟩
      intro hm
      rcases List.mem_cons.mp hm with e' | e'
      · exact hd e'.symm
      · exact hp e'

theorem takeWhile_ne_append (c : Char) (a b : GoString) (h : c ∉ a) :
    (a ++ c :: b).takeWhile (fun d => d ≠ c) = a := by
  induction a with
  | nil => simp [List.takeWhile]
  | cons d a ih =>
    have hd : d ≠ c := fun e => h (by simp [e])
    have hs : c ∉ a := fun e => h (by simp [e])
    simpa [List.takeWhile, hd] using ih hs

theorem dropWhile_ne_append (c : Char) (a b : GoString) (h : c ∉ a) :
    (a ++ c :: b).dropWhile (fun d => d ≠ c) = c :: b := by
  induction a with
  | nil => simp [List.dropWhile]
  | cons d a ih =>
    have hd : d ≠ c := fun e => h (by simp [e])
    have hs : c ∉ a := fun e => h (by simp [e])
    simpa [List.dropWhile, hd] using ih hs

theorem afterLast_append (c : Char) (pre post : GoString) (h : c ∉ post) :
    afterLast c (pre ++ c :: post) = post := by
  unfold afterLast
  have hrev : (pre ++ c :: post).reverse = post.reverse ++ c :: pre.reverse := by simp
  rw [hrev, takeWhile_ne_append c _ _ (by simpa using h), List.reverse_reverse]

theorem afterLast_not_mem (c : Char) (s : GoString) (h : c ∉ s) : afterLast c s = s := by
  unfold afterLast
  have : s.reverse.takeWhile (fun d => d ≠ c) = s.reverse := by
    rw [List.takeWhile_eq_self_iff]
    intro d hd
    have hd' : d ∈ s := by simpa using hd
    simpa using fun e : d = c => h (e ▸ hd')
  rw [this, List.reverse_reverse]

theorem afterFirst_append (c : Char) (pre post : GoString) (h : c ∉ pre) :
    afterFirst c (pre ++ c :: post) = post := by
  unfold afterFirst
  rw [dropWhile_ne_append c _ _ h]
  rfl

/-- The slice after the last `c`, as the code takes it, is the part after
the last `c`. -/
theorem sliceFrom_stringsLastIndex (c : Char) (s : GoString) :
    sliceFrom s (stringsLastIndex c s + 1) = afterLast c s := by
  by_cases h : c ∈ s
  · obtain ⟨pre, post, e, hp⟩ := exists_last_occurrence c s h
    subst e
    rw [stringsLastIndex_append c pre post hp, afterLast_append c pre post hp]
    unfold sliceFrom
    have : ((pre.length : Int) + 1).toNat = pre.length + 1 := by omega
    rw [this]
    simp
  · rw [stringsLastIndex_not_mem c s h, afterLast_not_mem c s h]
    simp [sliceFrom]

/-! ## Termination of the alias search -/

/-- When the aliases of the indices below `i` are all reserved, at least `i`
aliases are reserved. -/
theorem busy_le_length (r : Registry) (name path : GoString) (i : Nat)
    (h : ∀ l, l < i → TakenByOther r (aliasOf name l) path) : i ≤ r.pkgAliases.length := by
  have hcard : (Finset.range i).card ≤ (r.pkgAliases.map Prod.fst).toFinset.card := by
    apply Finset.card_le_card_of_injOn (fun l => aliasOf name l)
    · intro l hl
      obtain ⟨t, ht, _⟩ := h l (by simpa using hl)
      simpa using GoMap.mem_keys_of_get _ _ _ ht
    · intro a _ b _ hab
      exact aliasOf_injective hab
  have hle := List.toFinset_card_le (r.pkgAliases.map Prod.fst)
  simp only [Finset.card_range, List.length_map] at hcard hle
  omega

/-- Claim C29: for every registry state and every file, the alias search of
loadFile terminates (with more fuel than reserved aliases it returns, and so
does loadFile): when the default name is reserved for another path, the alias
chosen is name_i for the least i such that name_i is unreserved or reserved
for the path of this file, and that i is at most the number of aliases
reserved so far. -/
theorem C29_alias_search_terminates (fuel : Nat) (r : Registry) (file : FileDescriptorProto)
    (hfuel : r.pkgAliases.length < fuel)
    (htaken : TakenByOther r (defaultGoPackageName file) (r.goPackagePath file)) :
    ∃ r1 pkg i, r.reservePackage fuel file = some (r1, pkg) ∧
      pkg.Alias = aliasOf (defaultGoPackageName file) i ∧
      (r.pkgAliases.get (aliasOf (defaultGoPackageName file) i) = none ∨
        r.pkgAliases.get (aliasOf (defaultGoPackageName file) i) = some (r.goPackagePath file)) ∧
      (∀ l, l < i → ∃ t, r.pkgAliases.get (aliasOf (defaultGoPackageName file) l) = some t ∧
        t ≠ r.goPackagePath file) ∧
      i ≤ r.pkgAliases.length ∧
      ∃ r', r.loadFile fuel file = some r' := by
  cases hres : r.reservePackage fuel file with
  | none => exact absurd hres (r.reservePackage_ne_none fuel file hfuel)
  | some res =>
    obtain ⟨r1, pkg⟩ := res
    obtain ⟨hpath, hname, hc | hc⟩ := r.reservePackage_some fuel file r1 pkg hres
    · rw [hname, hpath] at hc
      exact absurd htaken hc.1
    · obtain ⟨_, j, _, halias, hbusy, hfree, _⟩ := hc
      rw [hname, hpath] at hbusy hfree
      rw [hname] at halias
      refine ⟨r1, pkg, j, rfl, halias, ?_, hbusy,
        busy_le_length r _ _ j hbusy, ?_⟩
      · cases hg : r.pkgAliases.get (aliasOf (defaultGoPackageName file) j) with
        | none => exact Or.inl rfl
        | some t =>
          right
          by_contra hne
          exact hfree ⟨t, hg, fun e => hne (by rw [e])⟩
      · obtain ⟨r', hr', _⟩ := r.loadFile_terminates fuel file hfuel
        exact ⟨r', hr'⟩

theorem C29_alias_search_terminates_witness :
    ∃ r1 pkg i, Sample.regBusy.reservePackage 4 Sample.fileA = some (r1, pkg) ∧
      pkg.Alias = aliasOf (defaultGoPackageName Sample.fileA) i ∧
      (Sample.regBusy.pkgAliases.get (aliasOf (defaultGoPackageName Sample.fileA) i) = none ∨
        Sample.regBusy.pkgAliases.get (aliasOf (defaultGoPackageName Sample.fileA) i) =
          some (Sample.regBusy.goPackagePath Sample.fileA)) ∧
      (∀ l, l < i → ∃ t,
        Sample.regBusy.pkgAliases.get (aliasOf (defaultGoPackageName Sample.fileA) l) = some t ∧
        t ≠ Sample.regBusy.goPackagePath Sample.fileA) ∧
      i ≤ Sample.regBusy.pkgAliases.length ∧
      ∃ r', Sample.regBusy.loadFile 4 Sample.fileA = some r' :=
  C29_alias_search_terminates 4 Sample.regBusy Sample.fileA (by decide)
    ⟨"other/path".toList, by decide, by decide⟩

/-! ## The keys of the tables -/

/-- A result of the lookup loop is stored under one of the candidate keys. -/
theorem lookupLoop_some {β : Type} (table : GoMap GoString β) (name : GoString)
    (components : List GoString) (n : Nat) (v : β)
    (h : lookupLoop table name components n = some v) :
    ∃ j, 0 < j ∧ j ≤ n ∧ table.get (stringsJoin (components.take j ++ [name]) ['.']) = some v := by
  induction n with
  | zero => simp [lookupLoop] at h
  | succ n ih =>
    rw [lookupLoop] at h
    cases hg : table.get (stringsJoin (components.take (n + 1) ++ [name]) ['.']) with
    | some w =>
      simp only [hg, Option.some.injEq] at h
      subst h
      exact ⟨n + 1, by omega, le_refl _, hg⟩
    | none =>
      simp only [hg] at h
      obtain ⟨j, h1, h2, h3⟩ := ih h
      exact ⟨j, h1, by omega, h3⟩

theorem KeysNamed.grow {r r' : Registry} (hg : Grows r r') (h : KeysNamed r) : KeysNamed r' := by
  obtain ⟨_, _, _, _, _, hm, he⟩ := hg
  refine ⟨fun k m hk => ?_, fun k e hk => ?_⟩
  · rcases hm k m hk with ho | hn
    · exact h.1 k m ho
    · exact hn
  · rcases he k e hk with ho | hn
    · exact h.2 k e ho
    · exact hn

theorem Registry.reserve_tables (r : Registry) (a p : GoString) :
    (r.ReserveGoPackageAlias a p).1.msgs = r.msgs ∧
    (r.ReserveGoPackageAlias a p).1.enums = r.enums := by
  rcases r.reserve_cases a p with ⟨_, e⟩ | ⟨_, e⟩ | ⟨_, e⟩ <;> rw [e] <;> exact ⟨rfl, rfl⟩

/-- The keys of both tables are the qualified names of their entries in every
reached registry. -/
theorem Reached.keysNamed {r : Registry} (h : Reached r) : KeysNamed r := by
  induction h with
  | new => exact ⟨fun k m hk => by simp [NewRegistry, GoMap.get] at hk,
      fun k e hk => by simp [NewRegistry, GoMap.get] at hk⟩
  | setPrefix pfx _ ih => exact ih
  | addPkgMap file protoPkg _ ih => exact ih
  | reserve a p _ ih =>
    obtain ⟨hm, he⟩ := Registry.reserve_tables _ a p
    exact ⟨fun k m hk => ih.1 k m (by rw [← hm]; exact hk),
      fun k e hk => ih.2 k e (by rw [← he]; exact hk)⟩
  | loadFile fuel file _ hl ih => exact KeysNamed.grow (Registry.loadFile_grows _ _ _ _ hl) ih
  | @load r0 r1 fuel req err _ hl ih =>
    cases hf : r0.loadFiles fuel req.ProtoFile with
    | none => simp [Registry.Load, hf] at hl
    | some rA =>
      rw [Registry.Load_eq fuel r0 rA req hf] at hl
      simp only [Option.some.injEq] at hl
      have h1 : r1 = (rA.loadTargets [] req.FileToGenerate).1 := by rw [hl]
      have hA := KeysNamed.grow (Registry.loadFiles_grows _ _ _ _ hf) ih
      obtain ⟨hm, he, _⟩ := Registry.loadTargets_tables req.FileToGenerate rA []
      rw [h1]
      exact ⟨fun k m hk => hA.1 k m (by rw [← hm]; exact hk),
        fun k e hk => hA.2 k e (by rw [← he]; exact hk)⟩

/-- Claim C30: in every registry reached from NewRegistry by calls of
loadFile and Load (and of the other methods that change a registry), every key
of the message table is the FQMN of the message stored under it and every key
of the enum table is the FQEN of the enum stored under it; hence a successful
LookupMsg returns a message stored under its own fully-qualified name, and
that name is the candidate key that matched: the name itself when it is
absolute, otherwise the name joined to a non-empty initial part of the
components of the scope. -/
theorem C30_table_keys_are_qualified_names (r : Registry) (h : Reached r) :
    (∀ k m, r.msgs.get k = some m → m.FQMN = k) ∧
    (∀ k e, r.enums.get k = some e → e.FQEN = k) ∧
    (∀ location name m, r.LookupMsg location name = .ok m →
      r.msgs.get m.FQMN = some m ∧
      (if stringsHasPrefix name ['.'] = true then m.FQMN = name
       else ∃ n, 0 < n ∧ n ≤ (stringsSplit '.' (scopeOf location)).length ∧
        m.FQMN = stringsJoin ((stringsSplit '.' (scopeOf location)).take n ++ [name]) ['.'])) := by
  have hk := Reached.keysNamed h
  refine ⟨hk.1, hk.2, ?_⟩
  intro location name m hl
  unfold Registry.LookupMsg at hl
  by_cases habs : stringsHasPrefix name ['.'] = true
  · rw [if_pos habs] at hl
    rw [if_pos habs]
    cases hg : r.msgs.get name with
    | none => simp [hg] at hl
    | some m' =>
      simp only [hg, Except.ok.injEq] at hl
      subst hl
      have hn := hk.1 name m' hg
      exact ⟨by rw [hn]; exact hg, hn⟩
  · rw [if_neg habs] at hl
    rw [if_neg habs]
    simp only at hl
    cases hg : lookupLoop r.msgs name (stringsSplit '.' (scopeOf location))
        (stringsSplit '.' (scopeOf location)).length with
    | none => simp [hg] at hl
    | some m' =>
      simp only [hg, Except.ok.injEq] at hl
      subst hl
      obtain ⟨j, h1, h2, h3⟩ := lookupLoop_some _ _ _ _ _ hg
      have hn := hk.1 _ m' h3
      exact ⟨by rw [hn]; exact h3, j, h1, h2, hn⟩

theorem C30_table_keys_are_qualified_names_witness :
    (∀ k m, Sample.regLoaded.msgs.get k = some m → m.FQMN = k) ∧
    (∀ k e, Sample.regLoaded.enums.get k = some e → e.FQEN = k) ∧
    (∀ location name m, Sample.regLoaded.LookupMsg location name = .ok m →
      Sample.regLoaded.msgs.get m.FQMN = some m ∧
      (if stringsHasPrefix name ['.'] = true then m.FQMN = name
       else ∃ n, 0 < n ∧ n ≤ (stringsSplit '.' (scopeOf location)).length ∧
        m.FQMN = stringsJoin ((stringsSplit '.' (scopeOf location)).take n ++ [name]) ['.'])) :=
  C30_table_keys_are_qualified_names Sample.regLoaded
    (Reached.load 2 Sample.req none Reached.new rfl)

/-! ## The services of a loaded file -/

theorem Registry.newMethod_descriptor (r : Registry) (svc : Service)
    (md : MethodDescriptorProto) (opts : Option HttpRule) (meth : Method)
    (h : r.newMethod svc md opts = .ok meth) : meth.MethodDescriptorProto = md := by
  unfold Registry.newMethod at h
  split at h
  · cases h
  · split at h
    · cases h
    · simp only [Except.ok.injEq] at h
      rw [← h]

/-- The inner loop of loadServices, when it succeeds, has appended all the
methods in declaration order. -/
theorem Registry.loadMethods_exact (r : Registry) (mds : List MethodDescriptorProto)
    (svc svc' : Service) (h : r.loadMethods svc mds = .ok svc') :
    svc'.ServiceDescriptorProto = svc.ServiceDescriptorProto ∧ svc'.File = svc.File ∧
    svc'.Methods.map (fun m => m.MethodDescriptorProto) =
      svc.Methods.map (fun m => m.MethodDescriptorProto) ++ mds := by
  induction mds generalizing svc with
  | nil =>
    simp only [Registry.loadMethods, Except.ok.injEq] at h
    subst h
    simp
  | cons md rest ih =>
    rw [Registry.loadMethods] at h
    cases ho : extractAPIOptions md with
    | error err => simp [ho] at h
    | ok opts =>
      simp only [ho] at h
      cases hm : r.newMethod svc md opts with
      | error err => simp [hm] at h
      | ok meth =>
        simp only [hm] at h
        obtain ⟨h1, h2, h3⟩ := ih _ h
        refine ⟨h1, h2, ?_⟩
        rw [h3]
        simp [Registry.newMethod_descriptor r svc md opts meth hm]

/-- The outer loop of loadServices, when it succeeds, has appended the
services that declare a method, in declaration order, each with all its
methods in declaration order. -/
theorem Registry.loadServiceList_exact (r : Registry) (file : File)
    (sds : List ServiceDescriptorProto) (svcs svcs' : List Service)
    (h : r.loadServiceList file svcs sds = .ok svcs') :
    ∃ added, svcs' = svcs ++ added ∧
      added.map (fun svc => svc.ServiceDescriptorProto) =
        sds.filter (fun sd => decide (sd.Method ≠ [])) ∧
      ∀ svc ∈ added, svc.File = file.info ∧
        svc.Methods.map (fun m => m.MethodDescriptorProto) =
          svc.ServiceDescriptorProto.Method := by
  induction sds generalizing svcs with
  | nil =>
    simp only [Registry.loadServiceList, Except.ok.injEq] at h
    subst h
    exact ⟨[], by simp, by simp, by simp⟩
  | cons sd rest ih =>
    rw [Registry.loadServiceList] at h
    cases hm : r.loadMethods ⟨file.info, sd, []⟩ sd.Method with
    | error err => simp [hm] at h
    | ok svc =>
      simp only [hm] at h
      obtain ⟨h1, h2, h3⟩ := r.loadMethods_exact sd.Method _ svc hm
      simp only [List.map_nil, List.nil_append] at h3
      by_cases hlen : svc.Methods.length = 0
      · rw [if_pos hlen] at h
        obtain ⟨added, e1, e2, e3⟩ := ih svcs h
        have hnil : sd.Method = [] := by
          rw [← h3, List.length_eq_zero.mp hlen]
          rfl
        refine ⟨added, e1, ?_, e3⟩
        rw [e2, List.filter_cons_of_neg (by simp [hnil])]
      · rw [if_neg hlen] at h
        obtain ⟨added, e1, e2, e3⟩ := ih (svcs ++ [svc]) h
        have hne : sd.Method ≠ [] := by
          intro hnil
          rw [hnil] at h3
          exact hlen (by simpa using congrArg List.length h3)
        refine ⟨svc :: added, by rw [e1]; simp, ?_, ?_⟩
        · rw [List.map_cons, e2, h1, List.filter_cons_of_pos (by simpa using hne)]
        · intro s hs
          rcases List.mem_cons.mp hs with e | e
          · subst e
            exact ⟨h2, by rw [h3, h1]⟩
          · exact e3 s e

/-- Claim C25: after loadServices succeeds on a file, the services of the
file are, in declaration order, exactly the declared services that have at
least one declared method, and each of them lists all of its declared methods
in declaration order, whatever their options and streaming flags. -/
theorem C25_services_with_methods_are_listed (r : Registry) (file file' : File)
    (h : r.loadServices file = (file', none)) :
    file'.Services.map (fun svc => svc.ServiceDescriptorProto) =
      file.FileDescriptorProto.Service.filter (fun sd => decide (sd.Method ≠ [])) ∧
    (∀ svc ∈ file'.Services,
      svc.Methods.map (fun m => m.MethodDescriptorProto) = svc.ServiceDescriptorProto.Method) ∧
    file'.FileDescriptorProto = file.FileDescriptorProto := by
  unfold Registry.loadServices at h
  cases hl : r.loadServiceList file [] file.FileDescriptorProto.Service with
  | error err => simp [hl] at h
  | ok svcs =>
    simp only [hl, Prod.mk.injEq, and_true] at h
    subst h
    obtain ⟨added, e1, e2, e3⟩ := r.loadServiceList_exact file _ [] svcs hl
    simp only [List.nil_append] at e1
    subst e1
    exact ⟨e2, fun svc hs => (e3 svc hs).2, rfl⟩

theorem C25_services_with_methods_are_listed_witness :
    (Sample.regExample.loadServices Sample.storedExample).1.Services.map
        (fun svc => svc.ServiceDescriptorProto) =
      Sample.storedExample.FileDescriptorProto.Service.filter
        (fun sd => decide (sd.Method ≠ [])) ∧
    (∀ svc ∈ (Sample.regExample.loadServices Sample.storedExample).1.Services,
      svc.Methods.map (fun m => m.MethodDescriptorProto) = svc.ServiceDescriptorProto.Method) ∧
    (Sample.regExample.loadServices Sample.storedExample).1.FileDescriptorProto =
      Sample.storedExample.FileDescriptorProto :=
  C25_services_with_methods_are_listed Sample.regExample Sample.storedExample
    (Sample.regExample.loadServices Sample.storedExample).1 rfl

/-! ## The route table of a router -/

theorem GoMap.get_of_not_mem_keys {α β : Type} [DecidableEq α] (m : GoMap α β) (k : α)
    (h : k ∉ m.map Prod.fst) : m.get k = none := by
  induction m with
  | nil => rfl
  | cons p m ih =>
    obtain ⟨a, b⟩ := p
    have ha : a ≠ k := fun e => h (by simp [e])
    have hm : k ∉ m.map Prod.fst := fun e => h (by simp [e])
    simp only [GoMap.get, ha, if_false]
    exact ih hm

/-- The table after the loop over the supplied routes: a key supplied with a
non-nil handler holds that handler, every other key holds what it held. -/
theorem applyRoutes_get (routes : GoMap GoString HandlerFunc)
    (acc : GoMap GoString HandlerFunc) (key : GoString)
    (hkeys : (routes.map Prod.fst).Nodup) :
    (applyRoutes routes acc).get key =
      match routes.get key with
      | some (some h) => some (some h)
      | _ => acc.get key := by
  induction routes generalizing acc with
  | nil => rfl
  | cons p rest ih =>
    obtain ⟨route, handler⟩ := p
    simp only [List.map_cons, List.nodup_cons] at hkeys
    obtain ⟨hnot, hrest⟩ := hkeys
    by_cases hk : route = key
    · subst hk
      have hnone : GoMap.get rest route = none := GoMap.get_of_not_mem_keys rest route hnot
      cases handler with
      | none =>
        rw [applyRoutes, ih acc hrest, hnone]
        simp [GoMap.get]
      | some h =>
        rw [applyRoutes, ih _ hrest, hnone]
        simp [GoMap.get, GoMap.get_set_self]
    · have hget : GoMap.get ((route, handler) :: rest) key = GoMap.get rest key := by
        simp [GoMap.get, hk]
      rw [hget]
      cases handler with
      | none => rw [applyRoutes, ih acc hrest]
      | some h =>
        rw [applyRoutes, ih _ hrest, GoMap.get_set_ne _ _ hk]

/-- Claim C21: for a router built by NewExampleRouter with a non-nil routes
map passed through WithRoutes (a Go map: no key twice), the final route table
is the default table overridden by the supplied non-nil entries: a key
supplied with a non-nil handler holds that handler, whether it replaces a
default or is new, and every other key holds what the default table holds. -/
theorem C21_routes_override_defaults (routes : GoMap GoString HandlerFunc)
    (hkeys : (routes.map Prod.fst).Nodup) :
    ∃ router, NewExampleRouter [WithRoutes (some routes)] = .ok router ∧
      (∀ key h, routes.get key = some (some h) → router.routes.get key = some (some h)) ∧
      (∀ key, routes.get key = none → router.routes.get key = exampleDefaultRoutes.get key) ∧
      (∀ key, router.routes.get key =
        match routes.get key with
        | some (some h) => some (some h)
        | _ => exampleDefaultRoutes.get key) := by
  refine ⟨⟨applyRoutes routes exampleDefaultRoutes⟩, rfl, ?_, ?_, ?_⟩
  · intro key h hk
    rw [applyRoutes_get routes _ key hkeys, hk]
  · intro key hk
    rw [applyRoutes_get routes _ key hkeys, hk]
  · intro key
    exact applyRoutes_get routes _ key hkeys

theorem C21_routes_override_defaults_witness :
    ∃ router, NewExampleRouter [WithRoutes (some Sample.routesMixed)] = .ok router ∧
      (∀ key h, Sample.routesMixed.get key = some (some h) →
        router.routes.get key = some (some h)) ∧
      (∀ key, Sample.routesMixed.get key = none →
        router.routes.get key = exampleDefaultRoutes.get key) ∧
      (∀ key, router.routes.get key =
        match Sample.routesMixed.get key with
        | some (some h) => some (some h)
        | _ => exampleDefaultRoutes.get key) :=
  C21_routes_override_defaults Sample.routesMixed (by decide)

/-! ## The files of Generate -/

/-- The loop of buildFiles appends the artifact of every target, in order,
when rendering and formatting succeed for all of them. -/
theorem buildFilesLoop_ok (lib : Library) (mode : Mode) (targets : List File)
    (files : List CodeGeneratorResponse_File)
    (h : ∀ file ∈ targets, ∃ code text,
      generateFrom file (lib.fromTemplate mode) = .ok code ∧ lib.formatSource code = .ok text) :
    buildFilesLoop lib mode targets files =
      .ok (files ++ targets.map (artifactOf lib mode)) := by
  induction targets generalizing files with
  | nil => simp [buildFilesLoop]
  | cons t rest ih =>
    obtain ⟨code, text, hg, hfm⟩ := h t (List.mem_cons_self _ _)
    rw [buildFilesLoop_cons, hg]
    simp only [hfm]
    rw [ih _ (fun file hf => h file (List.mem_cons_of_mem _ hf))]
    simp [artifactOf, hg, hfm, Except.toOption]

/-- Claim C26: for every list of n targets for which rendering and formatting
succeed, Generate (of a generator with a router, as New builds it) returns
exactly 2n files: the adapter artifacts of the targets in target order,
followed by the router artifacts of the targets in target order; so the file
at position i is the adapter artifact of target i and the file at position
n + i is the router artifact of target i. -/
theorem C26_two_files_per_target (g : generator) (lib : Library) (targets : List File)
    (hrouter : g.withRouter = true)
    (hformat : ∀ file ∈ targets, ∀ mode, ∃ code text,
      generateFrom file (lib.fromTemplate mode) = .ok code ∧ lib.formatSource code = .ok text) :
    ∃ files, g.Generate lib targets = .ok files ∧
      files = targets.map (artifactOf lib .minimal) ++ targets.map (artifactOf lib .router) ∧
      files.length = 2 * targets.length ∧
      ∀ i, i < targets.length →
        files[i]? = (targets[i]?).map (artifactOf lib .minimal) ∧
        files[targets.length + i]? = (targets[i]?).map (artifactOf lib .router) := by
  refine ⟨_, ?_, rfl, ?_, ?_⟩
  · unfold generator.Generate buildFiles
    rw [buildFilesLoop_ok lib .minimal targets [] (fun file hf => hformat file hf .minimal),
      buildFilesLoop_ok lib .router targets [] (fun file hf => hformat file hf .router)]
    simp [hrouter]
  · simp
    omega
  · intro i hi
    constructor
    · rw [List.getElem?_append_left (by simpa using hi), List.getElem?_map]
    · rw [List.getElem?_append_right (by simp), List.getElem?_map]
      simp

theorem C26_two_files_per_target_witness :
    ∃ files, (New NewRegistry false).Generate Sample.libPlain
        [Sample.targetExample, Sample.targetA] = .ok files ∧
      files = [Sample.targetExample, Sample.targetA].map (artifactOf Sample.libPlain .minimal) ++
        [Sample.targetExample, Sample.targetA].map (artifactOf Sample.libPlain .router) ∧
      files.length = 2 * [Sample.targetExample, Sample.targetA].length ∧
      ∀ i, i < [Sample.targetExample, Sample.targetA].length →
        files[i]? =
          ([Sample.targetExample, Sample.targetA][i]?).map (artifactOf Sample.libPlain .minimal) ∧
        files[[Sample.targetExample, Sample.targetA].length + i]? =
          ([Sample.targetExample, Sample.targetA][i]?).map (artifactOf Sample.libPlain .router) :=
  C26_two_files_per_target (New NewRegistry false) Sample.libPlain
    [Sample.targetExample, Sample.targetA] rfl
    (fun file hf mode => by
      simp only [List.mem_cons, List.mem_singleton, List.not_mem_nil, or_false] at hf
      rcases hf with e | e <;> subst e <;> cases mode <;> exact ⟨_, _, rfl, rfl⟩)

/-! ## The rendered default route table -/

/-! ## The argument type of a handler -/

/-- Claim C27, evaluated on the shipped example (package example, method
GetPerson with the top-level request message Query of the same package): the
argument type of the handler is the input type without its leading dot,
example.Query, not the bare message name; the statement rendered by the
adapter template is the assignment of example.Query to arg; and the Go type
name that GoType of the request message gives inside the package of the file
is the bare name Query. -/
theorem C27_argument_type_keeps_the_package :
    (templateInput Sample.targetExample).toOption = some Sample.inputExample ∧
    (generateFrom Sample.targetExample MinimalTemplate).toOption.map
        (fun text => (stringsSplit '\n' text).filter
          (fun line => stringsHasPrefix line "\targ := ".toList)) =
      some ["\targ := example.Query\x7b\x7d".toList] ∧
    Sample.targetExample.Services.map (fun svc => (svc.Methods.filter Method.isUnary).map
        (fun m => m.RequestType.GoType Sample.targetExample.GoPkg.Path)) =
      [["Query".toList]] := by
  refine ⟨by decide, by decide, by decide⟩

/-! ## Loading a request twice -/

theorem Registry.applyWrites_append (r : Registry) (ms ms' : List (GoString × Message))
    (es es' : List (GoString × Enum)) :
    (r.applyWrites ms es).applyWrites ms' es' = r.applyWrites (ms ++ ms') (es ++ es') := by
  simp [Registry.applyWrites, List.foldl_append]

/-- The assignments of registerEnum and the file it returns do not depend on
the registry. -/
theorem Registry.registerEnum_writes (eds : List EnumDescriptorProto) :
    ∀ (file : File) (outers : List GoString) (i : Nat),
      ∃ es file', ∀ r : Registry, r.registerEnum file outers eds i = (r.applyWrites [] es, file') := by
  induction eds with
  | nil =>
    intro file outers i
    exact ⟨[], file, fun r => by rw [Registry.registerEnum]; rfl⟩
  | cons ed rest ih =>
    intro file outers i
    obtain ⟨es, file', h⟩ := ih ⟨file.FileDescriptorProto, file.GoPkg, file.Messages,
      file.Enums ++ [mkEnum file outers ed i], file.Services⟩ outers (i + 1)
    refine ⟨((mkEnum file outers ed i).FQEN, mkEnum file outers ed i) :: es, file', fun r => ?_⟩
    rw [Registry.registerEnum_cons]
    exact h _

/-- The assignments of the body of registerMsg do not depend on the registry,
given that those of registerMsg on the nested messages do not. -/
theorem Registry.registerMsgBody_writes_of (md : DescriptorProto) (file : File)
    (outers : List GoString) (i : Nat)
    (hnested : ∀ file' : File, ∃ ms es file'', ∀ r' : Registry,
      r'.registerMsg file' (outers ++ [md.GetName]) md.GetNestedType 0 =
        (r'.applyWrites ms es, file'')) :
    ∃ ms es file', ∀ r : Registry,
      r.registerMsgBody file outers md i = (r.applyWrites ms es, file') := by
  obtain ⟨ms, es, f1, h1⟩ := hnested (file.appendMsg (mkMessage file outers md i))
  obtain ⟨es2, f2, h2⟩ := Registry.registerEnum_writes md.GetEnumType f1 (outers ++ [md.GetName]) 0
  refine ⟨((mkMessage file outers md i).FQMN, mkMessage file outers md i) :: ms, es ++ es2, f2,
    fun r => ?_⟩
  rw [Registry.registerMsgBody_eq, h1]
  simp only
  rw [h2]
  simp [Registry.applyWrites, Registry.storeMsg, List.foldl_append]

mutual
/-- The assignments of registerMsg and the file it returns do not depend on
the registry. -/
theorem Registry.registerMsg_writes : ∀ (mds : List DescriptorProto) (file : File)
    (outers : List GoString) (i : Nat),
    ∃ ms es file', ∀ r : Registry, r.registerMsg file outers mds i = (r.applyWrites ms es, file')
  | [], file, outers, i => ⟨[], [], file, fun r => by rw [Registry.registerMsg]; rfl⟩
  | md :: rest, file, outers, i => by
    obtain ⟨ms, es, f1, h1⟩ := Registry.registerMsgBody_writes md file outers i
    obtain ⟨ms2, es2, f2, h2⟩ := Registry.registerMsg_writes rest f1 outers (i + 1)
    refine ⟨ms ++ ms2, es ++ es2, f2, fun r => ?_⟩
    rw [Registry.registerMsg_cons, h1]
    simp only
    rw [h2, Registry.applyWrites_append]
/-- The assignments of the body of registerMsg and the file it returns do not
depend on the registry. -/
theorem Registry.registerMsgBody_writes : ∀ (md : DescriptorProto) (file : File)
    (outers : List GoString) (i : Nat),
    ∃ ms es file', ∀ r : Registry,
      r.registerMsgBody file outers md i = (r.applyWrites ms es, file')
  | .mk name fields nested enums, file, outers, i =>
    Registry.registerMsgBody_writes_of (.mk name fields nested enums) file outers i
      (fun file' => Registry.registerMsg_writes nested file' _ 0)
end

/-- What loadFile assigns and the file it stores depend only on the
descriptor and the package that was reserved. -/
theorem Registry.loadFile_writes (f : FileDescriptorProto) (pkg : GoPackage) :
    ∃ ms es file, ∀ (fuel : Nat) (r r1 : Registry), r.reservePackage fuel f = some (r1, pkg) →
      r.loadFile fuel f = some ((r1.applyWrites ms es).storeFile (getString f.Name) file) := by
  obtain ⟨ms, es, f1, h1⟩ := Registry.registerMsg_writes f.MessageType (newFile f pkg) [] 0
  obtain ⟨es2, f2, h2⟩ := Registry.registerEnum_writes f.EnumType f1 [] 0
  refine ⟨ms, es ++ es2, f2, fun fuel r r1 hres => ?_⟩
  rw [r.loadFile_of_reserve fuel f r1 pkg hres, h1]
  simp only
  rw [h2]
  simp [Registry.applyWrites, Registry.storeFile, List.foldl_append]

theorem Agree.afterSet {β : Type} {t a b : GoMap GoString β} (h : Agree t a b) (k : GoString)
    (v : β) : Agree t (a.set k v) (b.set k v) := by
  intro k'
  by_cases hk : k = k'
  · subst hk
    left
    rw [GoMap.get_set_self, GoMap.get_set_self]
  · rw [GoMap.get_set_ne _ _ hk, GoMap.get_set_ne _ _ hk]
    exact h k'

theorem Agree.writes {β : Type} {t : GoMap GoString β} (ws : List (GoString × β)) :
    ∀ {a b : GoMap GoString β}, Agree t a b →
      Agree t (ws.foldl (fun m w => m.set w.1 w.2) a) (ws.foldl (fun m w => m.set w.1 w.2) b) := by
  induction ws with
  | nil => intro a b h; exact h
  | cons w ws ih =>
    intro a b h
    exact ih (h.afterSet w.1 w.2)

/-- A file whose package was reserved before gets the same package again,
without a new reservation, in a registry that kept the reserved aliases. -/
theorem Registry.reservePackage_again (fuel : Nat) (a b : Registry) (f : FileDescriptorProto)
    (a1 : Registry) (pkg : GoPackage) (hA : a.reservePackage fuel f = some (a1, pkg))
    (hkeep : ∀ k v, a1.pkgAliases.get k = some v → b.pkgAliases.get k = some v)
    (hpfx : b.importPrefix = a.importPrefix) (hmap : b.pkgMap = a.pkgMap) :
    b.reservePackage fuel f = some (b, pkg) := by
  obtain ⟨hpath, hname, hc⟩ := a.reservePackage_some fuel f a1 pkg hA
  obtain ⟨hid, hpers, _⟩ := a.reservePackage_post fuel f a1 pkg hA
  have hgp : b.goPackagePath f = a.goPackagePath f := Registry.goPackagePath_congr hpfx hmap f
  have hab : ∀ k v, a.pkgAliases.get k = some v → b.pkgAliases.get k = some v :=
    fun k v h => hkeep k v (hpers k v h)
  have hbid := hkeep _ _ hid
  unfold Registry.reservePackage
  rw [hgp]
  rcases hc with ⟨_, halias, _⟩ | ⟨htaken, j, hj, halias, hbusy, _, _⟩
  · have hident : effectiveIdent pkg = pkg.Name := by simp [effectiveIdent, halias]
    rw [hident, hname, hpath] at hbid
    rcases b.reserve_cases (defaultGoPackageName f) (a.goPackagePath f) with
      ⟨_, e⟩ | ⟨⟨t, ht, hne⟩, _⟩ | ⟨hg, _⟩
    · simp only [e]
      obtain ⟨p, n, al⟩ := pkg
      simp only at hpath hname halias
      subst hpath hname halias
      rfl
    · rw [hbid] at ht
      exact absurd (Option.some.inj ht).symm hne
    · rw [hbid] at hg
      cases hg
  · have hident : effectiveIdent pkg = aliasOf pkg.Name j := by
      simp [effectiveIdent, halias, aliasOf_ne_nil]
    rw [hident] at hbid
    have htb : TakenByOther b (defaultGoPackageName f) (a.goPackagePath f) := by
      rw [← hname, ← hpath]
      exact TakenByOther.stays hab htaken
    rcases b.reserve_cases (defaultGoPackageName f) (a.goPackagePath f) with
      ⟨hg, _⟩ | ⟨_, e⟩ | ⟨hg, _⟩
    · exact absurd htb (TakenByOther.not_of_get hg)
    · simp only [e]
      have hloop := b.aliasLoop_eq ⟨a.goPackagePath f, defaultGoPackageName f, []⟩ fuel 0 j
        (Nat.zero_le _) (by omega)
        (fun l _ hl => by
          have := TakenByOther.stays hab (hbusy l hl)
          rw [hname, hpath] at this
          exact this)
        (by
          rw [hname, hpath] at hbid
          exact TakenByOther.not_of_get hbid)
      rw [hloop]
      rw [hname, hpath] at hbid
      rcases b.reserve_cases (aliasOf (defaultGoPackageName f) j) (a.goPackagePath f) with
        ⟨_, e2⟩ | ⟨ht, _⟩ | ⟨hg, _⟩
      · simp only [e2]
        obtain ⟨p, n, al⟩ := pkg
        simp only at hpath hname halias
        subst hpath hname halias
        rfl
      · exact absurd ht (TakenByOther.not_of_get hbid)
      · rw [hbid] at hg
        cases hg
    · obtain ⟨t, ht, _⟩ := htb
      rw [ht] at hg
      cases hg

/-- The first loop of Load, run again on a registry that kept the aliases
reserved by an earlier run over the same files, returns with the same fuel,
reserves nothing new and makes the same assignments as the earlier run. -/
theorem Registry.loadFiles_again (fuel : Nat) (t : Registry) (files : List FileDescriptorProto) :
    ∀ (a a' b : Registry), a.loadFiles fuel files = some a' →
      (∀ k v, a'.pkgAliases.get k = some v → b.pkgAliases.get k = some v) →
      b.importPrefix = a.importPrefix → b.pkgMap = a.pkgMap →
      Agree t.msgs a.msgs b.msgs → Agree t.enums a.enums b.enums →
      Agree t.files a.files b.files →
      ∃ b', b.loadFiles fuel files = some b' ∧ b'.pkgAliases = b.pkgAliases ∧
        b'.importPrefix = b.importPrefix ∧ b'.pkgMap = b.pkgMap ∧
        Agree t.msgs a'.msgs b'.msgs ∧ Agree t.enums a'.enums b'.enums ∧
        Agree t.files a'.files b'.files := by
  induction files with
  | nil =>
    intro a a' b h _ _ _ hm he hf
    simp only [Registry.loadFiles, Option.some.injEq] at h
    subst h
    exact ⟨b, rfl, rfl, rfl, rfl, hm, he, hf⟩
  | cons f rest ih =>
    intro a a' b h hkeep hpfx hmap hm he hf
    rw [Registry.loadFiles_cons] at h
    cases hl : a.loadFile fuel f with
    | none => simp [hl] at h
    | some a1 =>
      simp only [hl] at h
      obtain ⟨r1, pkg, _, hres, hgrow, _, hal, _⟩ := a.loadFile_some fuel f a1 hl
      obtain ⟨_, _, _, hmsgs, henums, hfiles, hpfx1, hmap1⟩ :=
        a.reservePackage_post fuel f r1 pkg hres
      have hrest := Registry.loadFiles_grows fuel a1 rest a' h
      have hkeep1 : ∀ k v, r1.pkgAliases.get k = some v → b.pkgAliases.get k = some v := by
        intro k v hk
        rw [← hal] at hk
        exact hkeep k v (hrest.2.2.1 k v hk)
      have hB := Registry.reservePackage_again fuel a b f r1 pkg hres hkeep1 hpfx hmap
      obtain ⟨ms, es, file, hw⟩ := Registry.loadFile_writes f pkg
      have hA1 := hw fuel a r1 hres
      rw [hl, Option.some.injEq] at hA1
      have hB1 := hw fuel b b hB
      obtain ⟨b', hb', q1, q2, q3, q4, q5, q6⟩ := ih a1 a'
        ((b.applyWrites ms es).storeFile (getString f.Name) file) h hkeep
        (by rw [hA1]; exact hpfx.trans hpfx1.symm)
        (by rw [hA1]; exact hmap.trans hmap1.symm)
        (by
          rw [hA1]
          show Agree t.msgs (ms.foldl _ r1.msgs) (ms.foldl _ b.msgs)
          rw [hmsgs]
          exact Agree.writes ms hm)
        (by
          rw [hA1]
          show Agree t.enums (es.foldl _ r1.enums) (es.foldl _ b.enums)
          rw [henums]
          exact Agree.writes es he)
        (by
          rw [hA1]
          show Agree t.files (r1.files.set _ _) (b.files.set _ _)
          rw [hfiles]
          exact hf.afterSet _ _)
      refine ⟨b', ?_, q1, q2, q3, q4, q5, q6⟩
      rw [Registry.loadFiles_cons, hB1]
      exact hb'

theorem lookupLoop_agree {β : Type} {a b : GoMap GoString β} (h : ∀ k, b.get k = a.get k)
    (name : GoString) (components : List GoString) (n : Nat) :
    lookupLoop b name components n = lookupLoop a name components n := by
  induction n with
  | zero => rfl
  | succ n ih => rw [lookupLoop, lookupLoop, h, ih]

theorem Registry.LookupMsg_agree {a b : Registry} (h : ∀ k, b.msgs.get k = a.msgs.get k)
    (location name : GoString) : b.LookupMsg location name = a.LookupMsg location name := by
  unfold Registry.LookupMsg
  simp only [h, lookupLoop_agree h]

theorem Registry.newMethod_agree {a b : Registry} (h : ∀ k, b.msgs.get k = a.msgs.get k)
    (svc : Service) (md : MethodDescriptorProto) (opts : Option HttpRule) :
    b.newMethod svc md opts = a.newMethod svc md opts := by
  unfold Registry.newMethod
  rw [Registry.LookupMsg_agree h, Registry.LookupMsg_agree h]

theorem Registry.loadMethods_agree {a b : Registry} (h : ∀ k, b.msgs.get k = a.msgs.get k)
    (mds : List MethodDescriptorProto) (svc : Service) :
    b.loadMethods svc mds = a.loadMethods svc mds := by
  induction mds generalizing svc with
  | nil => rfl
  | cons md rest ih =>
    rw [Registry.loadMethods, Registry.loadMethods]
    cases extractAPIOptions md with
    | error err => rfl
    | ok opts =>
      simp only
      rw [Registry.newMethod_agree h]
      cases a.newMethod svc md opts with
      | error err => rfl
      | ok meth => exact ih _

theorem Registry.loadServiceList_agree {a b : Registry} (h : ∀ k, b.msgs.get k = a.msgs.get k)
    {f g : File} (hinfo : g.info = f.info) (sds : List ServiceDescriptorProto)
    (svcs : List Service) :
    b.loadServiceList g svcs sds = a.loadServiceList f svcs sds := by
  induction sds generalizing svcs with
  | nil => rfl
  | cons sd rest ih =>
    rw [Registry.loadServiceList, Registry.loadServiceList, hinfo,
      Registry.loadMethods_agree h]
    cases hc : a.loadMethods ⟨f.info, sd, []⟩ sd.Method with
    | error err => rfl
    | ok svc =>
      by_cases hlen : svc.Methods.length = 0
      · simp only [hlen, if_true]
        exact ih _
      · simp only [hlen, if_false]
        exact ih _

theorem SvcEq.same (f : File) : SvcEq f f := ⟨rfl, rfl, rfl, rfl⟩

theorem SvcEq.next {f g k : File} (h1 : SvcEq f g) (h2 : SvcEq g k) : SvcEq f k :=
  ⟨h1.1.trans h2.1, h1.2.1.trans h2.2.1, h1.2.2.1.trans h2.2.2.1, h1.2.2.2.trans h2.2.2.2⟩

theorem FileRel.identical (x : Option File) : FileRel x x := by
  cases x with
  | none => trivial
  | some f => exact SvcEq.same f

theorem FileRel.step {x y z : Option File} (h1 : FileRel x y) (h2 : FileRel y z) :
    FileRel x z := by
  cases x <;> cases y <;> cases z <;> simp only [FileRel] at h1 h2 ⊢
  exact h1.next h2

/-- The function loadServices changes nothing but the services of the file. -/
theorem Registry.loadServices_svcEq (r : Registry) (file : File) :
    SvcEq file (r.loadServices file).1 := by
  unfold Registry.loadServices
  cases r.loadServiceList file [] file.FileDescriptorProto.Service with
  | error err => exact SvcEq.same file
  | ok svcs => exact ⟨rfl, rfl, rfl, rfl⟩

/-- On files that differ at most in their services, in registries with the
same messages, loadServices returns the same error, and the same file when it
succeeds. -/
theorem Registry.loadServices_agree {a b : Registry} (h : ∀ k, b.msgs.get k = a.msgs.get k)
    {f g : File} (hfg : SvcEq f g) :
    (b.loadServices g).2 = (a.loadServices f).2 ∧
    ((a.loadServices f).2 = none → (b.loadServices g).1 = (a.loadServices f).1) := by
  have hinfo : g.info = f.info := by
    unfold File.info
    rw [hfg.1, hfg.2.1]
  unfold Registry.loadServices
  rw [Registry.loadServiceList_agree h hinfo, ← hfg.1]
  cases a.loadServiceList f [] f.FileDescriptorProto.Service with
  | error err => exact ⟨rfl, fun hn => by simp at hn⟩
  | ok svcs =>
    refine ⟨rfl, fun _ => ?_⟩
    obtain ⟨h1, h2, h3, h4⟩ := hfg
    cases f
    cases g
    simp only at h1 h2 h3 h4
    subst h1 h2 h3 h4
    rfl

/-- The second loop of Load leaves the files it is not asked to generate as
they are. -/
theorem Registry.loadTargets_frame (names : List GoString) :
    ∀ (r : Registry) (targetPkg n : GoString), n ∉ names →
      (r.loadTargets targetPkg names).1.files.get n = r.files.get n := by
  induction names with
  | nil => intro r targetPkg n _; rfl
  | cons name rest ih =>
    intro r targetPkg n hn
    have hne : name ≠ n := fun e => hn (by simp [e])
    have hrest : n ∉ rest := fun e => hn (by simp [e])
    rw [Registry.loadTargets_cons]
    cases r.files.get name with
    | none => rfl
    | some target =>
      simp only
      split
      · rfl
      · cases hs : (r.loadServices target).2 with
        | some err =>
          simp only
          rw [Registry.storeFile_get, if_neg hne]
        | none =>
          simp only
          rw [ih _ _ n hrest, Registry.storeFile_get, if_neg hne]

/-- The second loop of Load changes nothing but the services of the files. -/
theorem Registry.loadTargets_svcEq (names : List GoString) :
    ∀ (r : Registry) (targetPkg n : GoString),
      FileRel (r.files.get n) ((r.loadTargets targetPkg names).1.files.get n) := by
  induction names with
  | nil => intro r targetPkg n; exact FileRel.identical _
  | cons name rest ih =>
    intro r targetPkg n
    rw [Registry.loadTargets_cons]
    cases hg : r.files.get name with
    | none => exact FileRel.identical _
    | some target =>
      simp only
      have hstep : FileRel (r.files.get n)
          ((r.storeFile name (r.loadServices target).1).files.get n) := by
        rw [Registry.storeFile_get]
        by_cases hne : name = n
        · rw [if_pos hne, ← hne, hg]
          exact r.loadServices_svcEq target
        · rw [if_neg hne]
          exact FileRel.identical _
      split
      · exact FileRel.identical _
      · cases hs : (r.loadServices target).2 with
        | some err => exact hstep
        | none => exact hstep.step (ih _ _ n)

/-- The second loop of Load, run on registries with the same messages and with
files that differ at most in their services, succeeds in both or in neither,
and then stores the same file under every name it is asked to generate. -/
theorem Registry.loadTargets_agree (names : List GoString) :
    ∀ (a b : Registry) (targetPkg : GoString), (∀ k, b.msgs.get k = a.msgs.get k) →
      (∀ n, FileRel (a.files.get n) (b.files.get n)) →
      (a.loadTargets targetPkg names).2 = none →
      (b.loadTargets targetPkg names).2 = none ∧
      ∀ n ∈ names, (b.loadTargets targetPkg names).1.files.get n =
        (a.loadTargets targetPkg names).1.files.get n := by
  induction names with
  | nil => intro a b targetPkg _ _ _; exact ⟨rfl, fun n hn => absurd hn (List.not_mem_nil _)⟩
  | cons name rest ih =>
    intro a b targetPkg hm hf hok
    have hrel := hf name
    have hA := Registry.loadTargets_cons a targetPkg name rest
    have hB := Registry.loadTargets_cons b targetPkg name rest
    cases hga : a.files.get name with
    | none =>
      rw [hA, hga] at hok
      simp at hok
    | some f =>
      cases hgb : b.files.get name with
      | none => simp [hga, hgb, FileRel] at hrel
      | some g =>
        rw [hga, hgb] at hrel
        have hfg : SvcEq f g := hrel
        rw [hga] at hA
        rw [hgb] at hB
        simp only at hA hB
        rw [← hfg.1] at hB
        by_cases hbad : targetPkg ≠ [] ∧ targetPkg ≠ packageIdentityName f.FileDescriptorProto
        · rw [hA, if_pos hbad] at hok
          simp at hok
        · rw [if_neg hbad] at hA hB
          obtain ⟨herr, hfile⟩ := Registry.loadServices_agree hm hfg
          cases hs : (a.loadServices f).2 with
          | some err =>
            rw [hA] at hok
            simp [hs] at hok
          | none =>
            rw [hs] at herr
            have hsame := hfile hs
            simp only [hs] at hA
            simp only [herr, hsame] at hB
            rw [hA] at hok ⊢
            rw [hB]
            have hrec := ih (a.storeFile name (a.loadServices f).1)
              (b.storeFile name (a.loadServices f).1)
              (if targetPkg = [] then packageIdentityName f.FileDescriptorProto else targetPkg)
              hm
              (fun n => by
                rw [Registry.storeFile_get, Registry.storeFile_get]
                by_cases hne : name = n
                · rw [if_pos hne, if_pos hne]
                  exact SvcEq.same _
                · rw [if_neg hne, if_neg hne]
                  exact hf n)
              hok
            refine ⟨hrec.1, fun n hn => ?_⟩
            by_cases hin : n ∈ rest
            · exact hrec.2 n hin
            · have hnn : n = name := by
                rcases List.mem_cons.mp hn with e | e
                · exact e
                · exact absurd e hin
              rw [Registry.loadTargets_frame rest _ _ n hin,
                Registry.loadTargets_frame rest _ _ n hin, Registry.storeFile_get,
                Registry.storeFile_get, if_pos hnn.symm, if_pos hnn.symm]

theorem GoMap.mem_keys_iff {α β : Type} [DecidableEq α] (m : GoMap α β) (k : α) :
    k ∈ m.map Prod.fst ↔ m.get k ≠ none := by
  constructor
  · intro hk hn
    induction m with
    | nil => simp at hk
    | cons p m ih =>
      obtain ⟨a, b⟩ := p
      by_cases ha : a = k
      · simp [GoMap.get, ha] at hn
      · simp only [GoMap.get, ha, if_false] at hn
        simp only [List.map_cons, List.mem_cons] at hk
        rcases hk with e | e
        · exact ha e.symm
        · exact ih e hn
  · intro hk
    by_contra hn
    exact hk (GoMap.get_of_not_mem_keys m k hn)

/-- Claim C22: Load is idempotent.  For every request on which Load succeeds
on a registry, Load with the same request on the resulting registry succeeds
(with the same fuel) and leaves the registry observably the same: every
message key, enum key and file name holds what it held, so the sets of
registered message and enum names are the same and every file has the same Go
package path, name and alias and the same services and methods; the reserved
aliases and the configuration are unchanged too. -/
theorem C22_Load_is_idempotent (fuel : Nat) (r r1 : Registry) (req : CodeGeneratorRequest)
    (h : r.Load fuel req = some (r1, none)) :
    ∃ r2, r1.Load fuel req = some (r2, none) ∧
      (∀ k, r2.msgs.get k = r1.msgs.get k) ∧ (∀ k, r2.enums.get k = r1.enums.get k) ∧
      (∀ n, r2.files.get n = r1.files.get n) ∧
      (∀ k, k ∈ r2.msgs.map Prod.fst ↔ k ∈ r1.msgs.map Prod.fst) ∧
      (∀ k, k ∈ r2.enums.map Prod.fst ↔ k ∈ r1.enums.map Prod.fst) ∧
      r2.pkgAliases = r1.pkgAliases ∧ r2.importPrefix = r1.importPrefix ∧
      r2.pkgMap = r1.pkgMap := by
  cases hl : r.loadFiles fuel req.ProtoFile with
  | none => simp [Registry.Load, hl] at h
  | some a1 =>
    rw [Registry.Load_eq fuel r a1 req hl, Option.some.injEq] at h
    have hr1 : (a1.loadTargets [] req.FileToGenerate).1 = r1 := by rw [h]
    have hok : (a1.loadTargets [] req.FileToGenerate).2 = none := by rw [h]
    obtain ⟨tm, te, ta, tp, tq⟩ := Registry.loadTargets_tables req.FileToGenerate a1 []
    rw [hr1] at tm te ta tp tq
    have hgrow := Registry.loadFiles_grows fuel r req.ProtoFile a1 hl
    obtain ⟨b1, hb1, q1, q2, q3, q4, q5, q6⟩ := Registry.loadFiles_again fuel r1 req.ProtoFile
      r a1 r1 hl (fun k v hk => by rw [ta]; exact hk) (tp.trans hgrow.1) (tq.trans hgrow.2.1)
      (fun k => Or.inr rfl) (fun k => Or.inr rfl) (fun k => Or.inr rfl)
    have hmsgs : ∀ k, b1.msgs.get k = a1.msgs.get k := by
      intro k
      rcases q4 k with e | e
      · exact e
      · rw [e, tm]
    have henums : ∀ k, b1.enums.get k = a1.enums.get k := by
      intro k
      rcases q5 k with e | e
      · exact e
      · rw [e, te]
    have hfiles : ∀ n, FileRel (a1.files.get n) (b1.files.get n) := by
      intro n
      rcases q6 n with e | e
      · rw [e]
        exact FileRel.identical _
      · rw [e, ← hr1]
        exact Registry.loadTargets_svcEq req.FileToGenerate a1 [] n
    obtain ⟨hok2, hsame⟩ := Registry.loadTargets_agree req.FileToGenerate a1 b1 [] hmsgs hfiles hok
    obtain ⟨um, ue, ua, up, uq⟩ := Registry.loadTargets_tables req.FileToGenerate b1 []
    have hget : ∀ k, (b1.loadTargets [] req.FileToGenerate).1.msgs.get k = r1.msgs.get k := by
      intro k
      rw [um, hmsgs k, tm]
    have hgete : ∀ k, (b1.loadTargets [] req.FileToGenerate).1.enums.get k = r1.enums.get k := by
      intro k
      rw [ue, henums k, te]
    refine ⟨(b1.loadTargets [] req.FileToGenerate).1, ?_, hget, hgete, ?_, ?_, ?_, ?_, ?_, ?_⟩
    · rw [Registry.Load_eq fuel r1 b1 req hb1, ← hok2]
    · intro n
      by_cases hn : n ∈ req.FileToGenerate
      · rw [hsame n hn, hr1]
      · rw [Registry.loadTargets_frame _ _ _ n hn]
        have hframe := Registry.loadTargets_frame req.FileToGenerate a1 [] n hn
        rw [hr1] at hframe
        rcases q6 n with e | e
        · rw [e, hframe]
        · exact e
    · intro k
      rw [GoMap.mem_keys_iff, GoMap.mem_keys_iff, hget k]
    · intro k
      rw [GoMap.mem_keys_iff, GoMap.mem_keys_iff, hgete k]
    · rw [ua, q1]
    · rw [up, q2]
    · rw [uq, q3]

theorem C22_Load_is_idempotent_witness :
    ∃ r2, Sample.regShared.Load 3 Sample.reqShared = some (r2, none) ∧
      (∀ k, r2.msgs.get k = Sample.regShared.msgs.get k) ∧
      (∀ k, r2.enums.get k = Sample.regShared.enums.get k) ∧
      (∀ n, r2.files.get n = Sample.regShared.files.get n) ∧
      (∀ k, k ∈ r2.msgs.map Prod.fst ↔ k ∈ Sample.regShared.msgs.map Prod.fst) ∧
      (∀ k, k ∈ r2.enums.map Prod.fst ↔ k ∈ Sample.regShared.enums.map Prod.fst) ∧
      r2.pkgAliases = Sample.regShared.pkgAliases ∧
      r2.importPrefix = Sample.regShared.importPrefix ∧ r2.pkgMap = Sample.regShared.pkgMap :=
  C22_Load_is_idempotent 3 NewRegistry Sample.regShared Sample.reqShared rfl

/-! ## The package identity name, in the words of the specification -/

theorem stringsSplit_append (c : Char) (a b : GoString) :
    stringsSplit c (a ++ c :: b) = stringsSplit c a ++ stringsSplit c b := by
  induction a with
  | nil => simp [stringsSplit]
  | cons d a ih =>
    by_cases hd : d = c
    · rw [List.cons_append, stringsSplit, if_pos hd, ih, stringsSplit, if_pos hd]
      rfl
    · rw [List.cons_append, stringsSplit, if_neg hd, ih]
      have hne := stringsSplit_ne_nil c a
      cases hs : stringsSplit c a with
      | nil => exact absurd hs hne
      | cons p ps =>
        have hstep : stringsSplit c (d :: a) = (d :: p) :: ps := by
          rw [stringsSplit, if_neg hd, hs]
        rw [hstep]
        rfl

theorem stringsSplit_replicate (k : Nat) :
    (stringsSplit '/' (List.replicate k '/')).filter (fun e => e ≠ []) = [] := by
  induction k with
  | zero => rfl
  | succ k ih =>
    rw [List.replicate_succ, stringsSplit, if_pos rfl, List.filter_cons_of_neg (by simp)]
    exact ih

theorem dropWhile_head {p : Char → Bool} {l rest : GoString} {d : Char}
    (h : l.dropWhile p = d :: rest) : p d = false := by
  induction l with
  | nil => simp at h
  | cons x l ih =>
    by_cases hx : p x = true
    · rw [List.dropWhile_cons_of_pos hx] at h
      exact ih h
    · rw [List.dropWhile_cons_of_neg hx] at h
      simp only [List.cons.injEq] at h
      rw [← h.1]
      simpa using hx

theorem takeWhile_eq_replicate (c : Char) (l : GoString) :
    l.takeWhile (fun d => decide (d = c)) =
      List.replicate (l.takeWhile (fun d => decide (d = c))).length c := by
  rw [List.eq_replicate_iff]
  refine ⟨rfl, fun b hb => ?_⟩
  simpa using List.mem_takeWhile_imp hb

/-- A path is what is left after its trailing slashes are removed, followed by
slashes; what is left is empty or ends in a byte other than a slash. -/
theorem strip_slashes (p : GoString) :
    ∃ k, p = (p.reverse.dropWhile (fun c => decide (c = '/'))).reverse ++ List.replicate k '/' ∧
      ((p.reverse.dropWhile (fun c => decide (c = '/'))).reverse = [] ∨
        ∃ q d, (p.reverse.dropWhile (fun c => decide (c = '/'))).reverse = q ++ [d] ∧
          d ≠ '/') := by
  refine ⟨(p.reverse.takeWhile (fun d => decide (d = '/'))).length, ?_, ?_⟩
  · have h := List.takeWhile_append_dropWhile (fun d => decide (d = '/')) p.reverse
    have h2 := congrArg List.reverse h
    rw [List.reverse_append, List.reverse_reverse, takeWhile_eq_replicate,
      List.reverse_replicate] at h2
    exact h2.symm
  · cases hd : p.reverse.dropWhile (fun c => decide (c = '/')) with
    | nil => exact Or.inl rfl
    | cons d rest =>
      right
      refine ⟨rest.reverse, d, by simp, ?_⟩
      simpa using dropWhile_head hd

theorem filter_split_append (a b : GoString) :
    (stringsSplit '/' (a ++ '/' :: b)).filter (fun e => e ≠ []) =
      (stringsSplit '/' a).filter (fun e => e ≠ []) ++
        (stringsSplit '/' b).filter (fun e => e ≠ []) := by
  rw [stringsSplit_append, List.filter_append]

/-- Go function `filepath.Base` returns the last non-empty element of the path. -/
theorem filepathBase_eq (p : GoString) : filepathBase p = baseName p := by
  unfold filepathBase baseName
  by_cases hp : p = []
  · subst hp
    rfl
  · rw [if_neg hp]
    simp only
    rw [sliceFrom_stringsLastIndex]
    obtain ⟨k, hk, hq⟩ := strip_slashes p
    generalize hqdef : (p.reverse.dropWhile (fun c => decide (c = '/'))).reverse = q at hk hq
    have hfilter : (stringsSplit '/' p).filter (fun e => e ≠ []) =
        (stringsSplit '/' q).filter (fun e => e ≠ []) := by
      cases k with
      | zero =>
        rw [hk]
        simp
      | succ k =>
        rw [hk, List.replicate_succ, filter_split_append, stringsSplit_replicate]
        simp
    rw [hfilter]
    rcases hq with hq | ⟨q', d, hq, hd⟩
    · rw [hq]
      simp [afterLast, stringsSplit, hp]
    · by_cases hs : '/' ∈ q
      · obtain ⟨pre, post, e, hpost⟩ := exists_last_occurrence '/' q hs
        have hne : post ≠ [] := by
          intro hnil
          rw [hnil] at e
          rw [e] at hq
          have := congrArg List.getLast? hq
          simp at this
          exact hd this.symm
        rw [e, afterLast_append '/' pre post hpost, filter_split_append,
          stringsSplit_no_sep '/' post hpost]
        simp [hne]
      · have hne : q ≠ [] := by
          rw [hq]
          simp
        rw [afterLast_not_mem '/' q hs, stringsSplit_no_sep '/' q hs]
        simp [hne]

theorem afterLast_is_suffix (c : Char) (s : GoString) : afterLast c s <:+ s := by
  rw [← sliceFrom_stringsLastIndex]
  exact List.drop_suffix _ _

/-- Go function `filepath.Ext` returns the last dot of the last path element and what
follows it. -/
theorem filepathExt_eq (name : GoString) :
    filepathExt name =
      if '.' ∈ afterLast '/' name then '.' :: afterLast '.' name else [] := by
  unfold filepathExt
  simp only
  rw [sliceFrom_stringsLastIndex]
  by_cases hdot : '.' ∈ afterLast '/' name
  · rw [if_pos hdot, if_pos ((stringsLastIndex_nonneg_iff _ _).mpr hdot)]
    obtain ⟨pre, post, e, hpost⟩ := exists_last_occurrence '.' _ hdot
    obtain ⟨x, hx⟩ := afterLast_is_suffix '/' name
    have hname : name = (x ++ pre) ++ '.' :: post := by
      rw [← hx, e, List.append_assoc]
    have hlast : afterLast '.' name = post := by
      rw [hname]
      exact afterLast_append '.' _ post hpost
    rw [hlast, e, stringsLastIndex_append '.' pre post hpost]
    simp [sliceFrom]
  · rw [if_neg hdot, if_neg (fun h => hdot ((stringsLastIndex_nonneg_iff _ _).mp h))]

/-- Removing the extension as the code does gives the name without its
extension. -/
theorem stringsTrimSuffix_filepathExt (name : GoString) :
    stringsTrimSuffix name (filepathExt name) = withoutExtension name := by
  have hsuf : (filepathExt name).isSuffixOf name = true :=
    List.isSuffixOf_iff_suffix.mpr (filepathExt_suffix name)
  unfold stringsTrimSuffix withoutExtension
  rw [if_pos hsuf, filepathExt_eq]
  by_cases hdot : '.' ∈ afterLast '/' name
  · rw [if_pos hdot, if_pos hdot]
    rfl
  · rw [if_neg hdot, if_neg hdot]
    simp

/-- Claim C28: for every file descriptor, packageIdentityName returns what
the specification says: with a go_package, the part after its last slash,
replaced by the string after the semicolon when that part contains one, with
every dot and hyphen replaced by an underscore; otherwise the declared package
name; otherwise the base name of the file (the last non-empty element of its
path) without its extension (its last dot and what follows it). -/
theorem C28_packageIdentityName_cases (f : FileDescriptorProto) :
    packageIdentityName f = specIdentityName f := by
  unfold packageIdentityName specIdentityName
  cases hopt : f.Options.bind (fun o => o.GoPackage) with
  | some gp =>
    simp only
    have hpart : sliceFrom (if stringsLastIndex '/' gp < 0 then
        sliceFrom gp (stringsLastIndex '/' gp + 1) else gp) (stringsLastIndex '/' gp + 1) =
        afterLast '/' gp := by
      by_cases hneg : stringsLastIndex '/' gp < 0
      · rw [if_pos hneg]
        have hge := stringsLastIndex_ge '/' gp
        have hidx : stringsLastIndex '/' gp = -1 := by omega
        have hall := sliceFrom_stringsLastIndex '/' gp
        rw [hidx] at hall ⊢
        have h0 : sliceFrom gp (-1 + 1) = gp := by simp [sliceFrom]
        rw [h0] at hall ⊢
        rw [h0]
        exact hall
      · rw [if_neg hneg]
        exact sliceFrom_stringsLastIndex '/' gp
    rw [hpart]
    by_cases hsc : ';' ∈ afterLast '/' gp
    · obtain ⟨a, b, e, ha⟩ := exists_first_occurrence ';' _ hsc
      rw [if_pos hsc, e, stringsIndexByte_append ';' a b ha, afterFirst_append ';' a b ha]
      have hnn : ¬ ((a.length : Int) < 0) := by omega
      rw [if_neg hnn, sanitizePackageName_eq]
      have hdrop : sliceFrom (a ++ ';' :: b) ((a.length : Int) + 1) = b := by
        unfold sliceFrom
        have : ((a.length : Int) + 1).toNat = a.length + 1 := by omega
        rw [this]
        simp
      rw [hdrop]
    · rw [if_neg hsc, stringsIndexByte_not_mem ';' _ hsc, sanitizePackageName_eq]
      simp
  | none =>
    simp only
    cases hp : f.Package with
    | some p => rfl
    | none =>
      simp only
      rw [stringsTrimSuffix_filepathExt, filepathBase_eq]

theorem C28_packageIdentityName_cases_witness :
    packageIdentityName Sample.fileDotted = "my-file.v2".toList ∧
    packageIdentityName Sample.fileHyphen = "my_pkg_v1".toList ∧
    packageIdentityName Sample.fileC = "z".toList ∧
    packageIdentityName Sample.fileSlash = [] ∧
    packageIdentityName Sample.fileA = "a".toList :=
  ⟨(C28_packageIdentityName_cases Sample.fileDotted).trans (by decide),
    (C28_packageIdentityName_cases Sample.fileHyphen).trans (by decide),
    (C28_packageIdentityName_cases Sample.fileC).trans (by decide),
    (C28_packageIdentityName_cases Sample.fileSlash).trans (by decide),
    (C28_packageIdentityName_cases Sample.fileA).trans (by decide)⟩

/-! ## Output names that collide -/

theorem outputName_eq (mode : Mode) (name : GoString) :
    outputName mode name = withoutExtension name ++ fileNameSuffix mode := by
  unfold outputName
  simp only
  rw [stringsTrimSuffix_filepathExt]

/-- A name that ends in `.proto` has the extension `.proto`: without its
extension it is the part before `.proto`. -/
theorem withoutExtension_proto (a : GoString) :
    withoutExtension (a ++ ".proto".toList) = a := by
  have hdot : '.' ∈ afterLast '/' (a ++ ".proto".toList) := by
    by_cases hs : '/' ∈ a
    · obtain ⟨pre, post, e, hpost⟩ := exists_last_occurrence '/' a hs
      have hno : '/' ∉ post ++ ".proto".toList := by
        intro hm
        rcases List.mem_append.mp hm with h | h
        · exact hpost h
        · revert h
          decide
      have hname : a ++ ".proto".toList = pre ++ '/' :: (post ++ ".proto".toList) := by
        rw [e]
        simp
      rw [hname, afterLast_append '/' pre _ hno]
      exact List.mem_append_right _ (by decide)
    · have hno : '/' ∉ a ++ ".proto".toList := by
        intro hm
        rcases List.mem_append.mp hm with h | h
        · exact hs h
        · revert h
          decide
      rw [afterLast_not_mem '/' _ hno]
      exact List.mem_append_right _ (by decide)
  have hlast : afterLast '.' (a ++ ".proto".toList) = "proto".toList :=
    afterLast_append '.' a "proto".toList (by decide)
  unfold withoutExtension
  rw [if_pos hdot, hlast]
  have hlen : (a ++ ".proto".toList).length - ("proto".toList.length + 1) = a.length := by
    simp
  rw [hlen, List.take_left]

/-- Claim C19, amended: the adapter names derived from two source file names
are equal exactly when the two names without their extensions are equal, and
so are the router names.  Hence two different names with the same extension
get different names in both passes, in particular two different names that
end in .proto; only names that differ in nothing but their extension
collide. -/
theorem C19_names_collide_iff_stems_are_equal (s t : GoString) :
    (outputName .minimal s = outputName .minimal t ↔ withoutExtension s = withoutExtension t) ∧
    (outputName .router s = outputName .router t ↔ withoutExtension s = withoutExtension t) ∧
    (filepathExt s = filepathExt t → s ≠ t →
      outputName .minimal s ≠ outputName .minimal t ∧
      outputName .router s ≠ outputName .router t) ∧
    (∀ a b, s = a ++ ".proto".toList → t = b ++ ".proto".toList → s ≠ t →
      outputName .minimal s ≠ outputName .minimal t ∧
      outputName .router s ≠ outputName .router t) := by
  have key : ∀ mode, outputName mode s = outputName mode t ↔
      withoutExtension s = withoutExtension t := by
    intro mode
    rw [outputName_eq, outputName_eq]
    exact ⟨fun h => List.append_cancel_right h, fun h => by rw [h]⟩
  refine ⟨key _, key _, ?_, ?_⟩
  · intro hext hne
    have hstem : withoutExtension s ≠ withoutExtension t := by
      intro h
      apply hne
      rw [← stringsTrimSuffix_append_ext s, ← stringsTrimSuffix_append_ext t,
        stringsTrimSuffix_filepathExt, stringsTrimSuffix_filepathExt, h, hext]
    exact ⟨fun h => hstem ((key _).mp h), fun h => hstem ((key _).mp h)⟩
  · intro a b hs ht hne
    have hstem : withoutExtension s ≠ withoutExtension t := by
      rw [hs, ht, withoutExtension_proto, withoutExtension_proto]
      intro h
      apply hne
      rw [hs, ht, h]
    exact ⟨fun h => hstem ((key _).mp h), fun h => hstem ((key _).mp h)⟩

theorem C19_names_collide_iff_stems_are_equal_witness :
    (outputName .minimal "a.proto".toList ≠ outputName .minimal "b.protodevel".toList ∧
      outputName .router "a.proto".toList ≠ outputName .router "b.protodevel".toList) ∧
    (outputName .minimal "x/a.proto".toList ≠ outputName .minimal "y/a.proto".toList ∧
      outputName .router "x/a.proto".toList ≠ outputName .router "y/a.proto".toList) ∧
    outputName .minimal "dir.v1/a.b.proto".toList = "dir.v1/a.b.pb.http.go".toList ∧
    outputName .router "dir.v1/a.b.proto".toList = "dir.v1/a.b.pb.http.router.go".toList :=
  ⟨⟨fun h => absurd ((C19_names_collide_iff_stems_are_equal _ _).1.mp h) (by decide),
      fun h => absurd ((C19_names_collide_iff_stems_are_equal _ _).2.1.mp h) (by decide)⟩,
    (C19_names_collide_iff_stems_are_equal "x/a.proto".toList "y/a.proto".toList).2.2.2
      "x/a".toList "y/a".toList rfl rfl (by decide),
    by decide, by decide⟩

/-! ## The rendered default route table -/

theorem toLower_eq_lowerLetter (c : Char) (h : c.toNat < 128) :
    Char.toLower c = lowerLetter c := by
  have hall : ∀ n, n < 128 → Char.toLower (Char.ofNat n) = lowerLetter (Char.ofNat n) := by
    decide
  have := hall c.toNat h
  rwa [Char.ofNat_toNat] at this

/-- The template function `lower` gives the lower-cased form of a name. -/
theorem stringsToLower_eq (mapToLower : GoString → GoString) (s : GoString) :
    stringsToLower mapToLower s = lowercase mapToLower s := by
  unfold stringsToLower lowercase
  by_cases h : ∀ c ∈ s, c.toNat < 128
  · have hb : s.all (fun c => decide (c.toNat < 128)) = true := by
      rw [List.all_eq_true]
      intro c hc
      simpa using h c hc
    rw [if_pos hb, if_pos h]
    exact List.map_congr_left (fun c hc => toLower_eq_lowerLetter c (h c hc))
  · have hb : ¬ s.all (fun c => decide (c.toNat < 128)) = true := by
      rw [List.all_eq_true]
      intro hall
      exact h (fun c hc => by simpa using hall c hc)
    rw [if_neg hb, if_neg h]

theorem routerRouteText_eq (mapToLower : GoString → GoString) (service : templateService)
    (handler : templateHandler) :
    routerRouteText mapToLower service handler =
      routeEntry mapToLower service.Name handler.Name := by
  simp [routerRouteText, routeEntry, routeKey, stringsToLower_eq]

/-- Claim C24: for every service of the template input, the text rendered by
the router template contains the assignment of the default route table of
that service, a map literal that holds, for every handler of the service in
declaration order, an entry whose key is a slash, the lower-cased service
name, a slash and the lower-cased handler name, and whose value is the adapter
method of that name. -/
theorem C24_default_route_per_handler (mapToLower : GoString → GoString)
    (info : templateFileInfo) (service : templateService) (hs : service ∈ info.Services) :
    ∃ pre post, RouterTemplate mapToLower info =
      pre ++ ("\tout.routes = map[string]http.HandlerFunc\x7b\n\t\t".toList ++
        (service.Handlers.map (fun handler =>
          ['"'] ++ (['/'] ++ lowercase mapToLower service.Name ++ ['/'] ++
            lowercase mapToLower handler.Name) ++
          "\": out.srv.".toList ++ handler.Name ++ ",\n\t\t".toList)).flatten ++
        "\n\t\x7d\n".toList) ++ post := by
  obtain ⟨before, after, hsplit⟩ := List.append_of_mem hs
  refine ⟨routerHeaderText info ++ (before.map (routerServiceText mapToLower)).flatten ++
    routerBeginText service,
    routerEndText service ++ (after.map (routerServiceText mapToLower)).flatten ++
      "\n".toList, ?_⟩
  have hmap : service.Handlers.map (routerRouteText mapToLower service) =
      service.Handlers.map (fun handler =>
        ['"'] ++ (['/'] ++ lowercase mapToLower service.Name ++ ['/'] ++
          lowercase mapToLower handler.Name) ++
        "\": out.srv.".toList ++ handler.Name ++ ",\n\t\t".toList) :=
    List.map_congr_left (fun handler _ => routerRouteText_eq mapToLower service handler)
  rw [← hmap]
  unfold RouterTemplate
  rw [hsplit]
  simp only [List.map_append, List.map_cons, List.flatten_append, List.flatten_cons,
    routerServiceText, routerTableText, List.append_assoc]

theorem C24_default_route_per_handler_witness :
    ∃ pre post, RouterTemplate (fun s => s) Sample.inputTwo =
      pre ++ ("\tout.routes = map[string]http.HandlerFunc\x7b\n" ++
        "\t\t\"/cart/additem\": out.srv.AddItem,\n" ++
        "\t\t\"/cart/clear\": out.srv.Clear,\n\t\t\n\t\x7d\n").toList ++ post :=
  match C24_default_route_per_handler (fun s => s) Sample.inputTwo
      ⟨"Cart".toList, [⟨"AddItem".toList, [], "shop.Item".toList⟩,
        ⟨"Clear".toList, [], "shop.Empty".toList⟩]⟩ (by decide) with
  | ⟨pre, post, h⟩ => ⟨pre, post, h.trans (by
      congr 2)⟩

/-- The default route table rendered for the shipped example is the table of
the shipped router. -/
theorem example_route_table (mapToLower : GoString → GoString) :
    routerTableText mapToLower
        ⟨"Example".toList, [⟨"GetPerson".toList, [], "example.Query".toList⟩]⟩ =
      ("\tout.routes = map[string]http.HandlerFunc\x7b\n" ++
        "\t\t\"/example/getperson\": out.srv.GetPerson,\n\t\t\n\t\x7d\n").toList ∧
    defaultRoutesOf mapToLower
        ⟨"Example".toList, [⟨"GetPerson".toList, [], "example.Query".toList⟩]⟩ =
      exampleDefaultRoutes := by
  constructor
  · rfl
  · rfl

/-! ## Services without handlers, unbound methods, failures of Generate -/

/-- The template input built by generateFrom has one entry for every loaded
service of the file, in declaration order; the entry of a service whose
methods are all streaming is kept, with an empty handler list. -/
theorem templateInput_keeps_every_service (file : File) (info : templateFileInfo)
    (h : templateInput file = .ok info) :
    info.Services.map (fun ts => ts.Name) =
      file.Services.map (fun svc => getString svc.ServiceDescriptorProto.Name) ∧
    (∀ svc ∈ file.Services, (∀ m ∈ svc.Methods, m.isUnary = false) →
      { Name := getString svc.ServiceDescriptorProto.Name, Handlers := [] } ∈ info.Services) := by
  rw [templateInput_ok file info h]
  refine ⟨by simp [entryOf, Function.comp_def], ?_⟩
  intro svc hsvc hall
  have hentry : entryOf svc =
      { Name := getString svc.ServiceDescriptorProto.Name, Handlers := [] } := by
    have hf : svc.Methods.filter Method.isUnary = [] := by
      rw [List.filter_eq_nil_iff]
      intro m hm
      simp [hall m hm]
    simp [entryOf, hf]
  rw [← hentry]
  exact List.mem_map_of_mem _ hsvc

/-- Claim C16, the code against the claim: the only service of the file
s.proto has only a server-streaming method; the template input has an entry
for it, with no handlers; the adapter rendered for the file declares the type
HTTPFeedServer and its constructor and imports net/http, which no line of it
uses; and Generate returns the adapter file and the router file of the
target. -/
theorem C16_all_streaming_service_has_an_entry :
    Sample.targetStream.Services.map (fun svc => svc.Methods.map (fun m => m.isUnary)) =
      [[false]] ∧
    templateInput Sample.targetStream = .ok Sample.inputStream ∧
    Sample.inputStream.Services.map (fun ts => (ts.Name, ts.Handlers.length)) =
      [("Feed".toList, 0)] ∧
    (generateFrom Sample.targetStream MinimalTemplate).toOption.map
        (fun text => (stringsSplit '\n' text).filter (fun line =>
          stringsHasPrefix line "type ".toList || stringsHasPrefix line "func ".toList ||
          stringsHasPrefix line "\t\"net/http\"".toList)) =
      some ["\t\"net/http\"".toList, "type HTTPFeedServer struct \x7b".toList,
        ("func NewHTTPFeedServer(srv FeedServer, cdc codec.Codec) " ++
          "*HTTPFeedServer \x7b").toList] ∧
    (generateFrom Sample.targetStream MinimalTemplate).toOption.map
        (fun text => (stringsSplit '\n' text).filter (occursIn "http.".toList)) = some [] ∧
    (New NewRegistry false).Generate Sample.libPlain [Sample.targetStream] =
      .ok [⟨some "s.pb.http.go".toList, some "package a".toList⟩,
           ⟨some "s.pb.http.router.go".toList, some "package a // router".toList⟩] :=
  ⟨by decide, rfl, by decide, by decide, by decide, rfl⟩

/-- The argument type of a handler is the input type without its first byte,
also when that byte is the first of the two bytes of a character. -/
theorem handler_arg_drops_the_first_byte :
    Sample.targetBytes.Services.map (fun svc => svc.Methods.map
        (fun m => getString m.MethodDescriptorProto.InputType)) =
      [[[Char.ofNat 0xC3, Char.ofNat 0xA9, 'X']]] ∧
    (templateInput Sample.targetBytes).toOption.map
        (fun info => info.Services.map (fun ts => ts.Handlers.map (fun hd => hd.Arg))) =
      some [[[Char.ofNat 0xA9, 'X']]] := by
  constructor
  · decide
  · decide

/-- The template function `lower` hands a string with a byte outside ASCII to
the Unicode mapping of the library. -/
theorem stringsToLower_outside_ascii (mapToLower : GoString → GoString) (s : GoString)
    (h : ∃ c ∈ s, 128 ≤ c.toNat) : stringsToLower mapToLower s = mapToLower s := by
  unfold stringsToLower
  have hb : ¬ s.all (fun c => decide (c.toNat < 128)) = true := by
    rw [List.all_eq_true]
    intro hall
    obtain ⟨c, hc, hge⟩ := h
    have := hall c hc
    simp only [decide_eq_true_eq] at this
    omega
  rw [if_neg hb]

/-- Claim C17, amended: generateFrom makes a handler for every method that is
neither client-streaming nor server-streaming, whether or not the method
carries an HTTP binding: the template input has, at the position of every
service of the file, an entry whose handlers are named, in declaration order,
after exactly the non-streaming methods of that service. -/
theorem C17_handlers_ignore_the_binding (file : File)
    (hargs : ∀ svc ∈ file.Services, ∀ m ∈ svc.Methods, m.isUnary = true →
      getString m.MethodDescriptorProto.InputType ≠ []) :
    ∃ info, templateInput file = .ok info ∧
      info.Services.length = file.Services.length ∧
      ∀ (i : Nat) (svc : Service), file.Services[i]? = some svc →
        ∃ ts, info.Services[i]? = some ts ∧
          ts.Name = getString svc.ServiceDescriptorProto.Name ∧
          ts.Handlers.map (fun hd => hd.Name) =
            (svc.Methods.filter (fun m => !getBool m.MethodDescriptorProto.ServerStreaming &&
              !getBool m.MethodDescriptorProto.ClientStreaming)).map
                (fun m => getString m.MethodDescriptorProto.Name) ∧
          ∀ m ∈ svc.Methods, ∀ binding, m.MethodDescriptorProto.Options = binding →
            getBool m.MethodDescriptorProto.ServerStreaming = false →
            getBool m.MethodDescriptorProto.ClientStreaming = false →
            getString m.MethodDescriptorProto.Name ∈ ts.Handlers.map (fun hd => hd.Name) := by
  have htot := templateInput_total file hargs
  have hfilter : (fun m : Method => !getBool m.MethodDescriptorProto.ServerStreaming &&
      !getBool m.MethodDescriptorProto.ClientStreaming) = Method.isUnary := by
    funext m
    simp [Method.isUnary]
  refine ⟨_, htot, by simp, ?_⟩
  intro i svc hi
  refine ⟨entryOf svc, ?_, rfl, ?_, ?_⟩
  · simp only [List.getElem?_map, hi, Option.map_some']
  · rw [hfilter]
    simp [entryOf, handlerOf, Function.comp_def]
  · intro m hm binding _ h1 h2
    have hu : m.isUnary = true := (isUnary_eq_true_iff m).mpr ⟨h1, h2⟩
    have hmem : handlerOf m ∈ (entryOf svc).Handlers :=
      List.mem_map_of_mem _ (List.mem_filter.mpr ⟨hm, hu⟩)
    exact List.mem_map_of_mem (fun hd => hd.Name) hmem

theorem C17_handlers_ignore_the_binding_witness :
    ∃ info, templateInput Sample.targetA = .ok info ∧
      info.Services.length = Sample.targetA.Services.length ∧
      ∀ (i : Nat) (svc : Service), Sample.targetA.Services[i]? = some svc →
        ∃ ts, info.Services[i]? = some ts ∧
          ts.Name = getString svc.ServiceDescriptorProto.Name ∧
          ts.Handlers.map (fun hd => hd.Name) =
            (svc.Methods.filter (fun m => !getBool m.MethodDescriptorProto.ServerStreaming &&
              !getBool m.MethodDescriptorProto.ClientStreaming)).map
                (fun m => getString m.MethodDescriptorProto.Name) ∧
          ∀ m ∈ svc.Methods, ∀ binding, m.MethodDescriptorProto.Options = binding →
            getBool m.MethodDescriptorProto.ServerStreaming = false →
            getBool m.MethodDescriptorProto.ClientStreaming = false →
            getString m.MethodDescriptorProto.Name ∈ ts.Handlers.map (fun hd => hd.Name) :=
  C17_handlers_ignore_the_binding Sample.targetA (by
    intro svc hsvc m hm _
    have hs : svc ∈ Sample.targetA.Services := hsvc
    have hsvcs : Sample.targetA.Services.map (fun s => s.Methods.map
        (fun m => getString m.MethodDescriptorProto.InputType)) = [[".a.T".toList]] := by decide
    have hmem : svc.Methods.map (fun m => getString m.MethodDescriptorProto.InputType) ∈
        Sample.targetA.Services.map (fun s => s.Methods.map
          (fun m => getString m.MethodDescriptorProto.InputType)) :=
      List.mem_map_of_mem _ hs
    rw [hsvcs, List.mem_singleton] at hmem
    have hm' : getString m.MethodDescriptorProto.InputType ∈
        svc.Methods.map (fun m => getString m.MethodDescriptorProto.InputType) :=
      List.mem_map_of_mem _ hm
    rw [hmem] at hm'
    simp only [List.mem_singleton] at hm'
    rw [hm']
    decide)

/-- The loop of buildFiles returns the error of `format.Source` when that call
fails for one of its targets and generateFrom returns for every target. -/
theorem buildFilesLoop_format_error (lib : Library) (mode : Mode) (targets : List File)
    (files : List CodeGeneratorResponse_File)
    (hret : ∀ file ∈ targets, ∃ code, generateFrom file (lib.fromTemplate mode) = .ok code)
    (h : ∃ file ∈ targets, FormatFails lib mode file) :
    ∃ msg, buildFilesLoop lib mode targets files = .error (.formatError msg) := by
  induction targets generalizing files with
  | nil =>
    obtain ⟨file, hf, _⟩ := h
    simp at hf
  | cons t rest ih =>
    rw [buildFilesLoop_cons]
    obtain ⟨code, hg⟩ := hret t (List.mem_cons_self _ _)
    rw [hg]
    cases hfm : lib.formatSource code with
    | error msg => exact ⟨msg, by simp only [hfm]⟩
    | ok text =>
      simp only [hfm]
      apply ih _ (fun file hf => hret file (List.mem_cons_of_mem _ hf))
      obtain ⟨file, hf, code', msg, hc, hm⟩ := h
      rcases List.mem_cons.mp hf with e | e
      · subst e
        rw [hg] at hc
        cases hc
        rw [hfm] at hm
        cases hm
      · exact ⟨file, e, code', msg, hc, hm⟩

/-- Generate returns the error of `format.Source`, and no files, when that call
fails for a target in the adapter pass or in the router pass and generateFrom
returns for every target. -/
theorem Generate_format_error (g : generator) (lib : Library) (targets : List File)
    (hret : ∀ file ∈ targets, ∀ mode, ∃ code, generateFrom file (lib.fromTemplate mode) = .ok code)
    (h : (∃ file ∈ targets, FormatFails lib .minimal file) ∨
      (g.withRouter = true ∧ ∃ file ∈ targets, FormatFails lib .router file)) :
    ∃ msg, g.Generate lib targets = .error (.formatError msg) := by
  unfold generator.Generate buildFiles
  rcases h with h | ⟨hr, h⟩
  · obtain ⟨msg, he⟩ := buildFilesLoop_format_error lib .minimal targets []
      (fun file hf => hret file hf .minimal) h
    exact ⟨msg, by rw [he]⟩
  · obtain ⟨msg, he⟩ := buildFilesLoop_format_error lib .router targets []
      (fun file hf => hret file hf .router) h
    cases hm : buildFilesLoop lib .minimal targets [] with
    | error err =>
      have hnames : ∃ msg', err = .formatError msg' := by
        by_contra hcon
        have hcases : ∀ (ts : List File) (fs : List CodeGeneratorResponse_File),
            (∀ file ∈ ts, ∃ code, generateFrom file (lib.fromTemplate .minimal) = .ok code) →
            ∀ e, buildFilesLoop lib .minimal ts fs = .error e → ∃ m, e = .formatError m := by
          intro ts
          induction ts with
          | nil =>
            intro fs _ e he'
            simp [buildFilesLoop] at he'
          | cons t rest ih =>
            intro fs hr' e he'
            rw [buildFilesLoop_cons] at he'
            obtain ⟨code, hg⟩ := hr' t (List.mem_cons_self _ _)
            rw [hg] at he'
            cases hfm : lib.formatSource code with
            | error m =>
              simp only [hfm, Except.error.injEq] at he'
              exact ⟨m, he'.symm⟩
            | ok text =>
              simp only [hfm] at he'
              exact ih _ (fun file hf => hr' file (List.mem_cons_of_mem _ hf)) e he'
        exact hcon (hcases targets [] (fun file hf => hret file hf .minimal) err hm)
      obtain ⟨msg', hmsg⟩ := hnames
      exact ⟨msg', by rw [hmsg]⟩
    | ok files =>
      refine ⟨msg, ?_⟩
      simp only [hr, if_true, he]

/-- A panic of generateFrom on a target ends the loop of buildFiles in that
panic, whatever was built for the targets before it. -/
theorem buildFilesLoop_panic (lib : Library) (mode : Mode) (done : List File) (file : File)
    (rest : List File) (files : List CodeGeneratorResponse_File)
    (hdone : ∀ f ∈ done, ∃ code text,
      generateFrom f (lib.fromTemplate mode) = .ok code ∧ lib.formatSource code = .ok text)
    (hpanic : generateFrom file (lib.fromTemplate mode) = .error .sliceBoundsPanic) :
    buildFilesLoop lib mode (done ++ file :: rest) files = .error .sliceBoundsPanic := by
  induction done generalizing files with
  | nil => rw [List.nil_append, buildFilesLoop_cons, hpanic]
  | cons d done ih =>
    obtain ⟨code, text, hg, hfm⟩ := hdone d (List.mem_cons_self _ _)
    rw [List.cons_append, buildFilesLoop_cons, hg]
    simp only [hfm]
    exact ih _ (fun f hf => hdone f (List.mem_cons_of_mem _ hf))

/-- Claim C23, the code against the claim.  Load accepts the request, whose
second file to generate has a method with an empty input type; generateFrom
panics on the slice expression for that file, so Generate ends in the panic
for every library, also when the target before it was rendered and formatted,
and returns neither an error nor a file list.  In general generateFrom never
returns an error (the only way it does not return a text is that panic), and a
panic at any target ends Generate in the panic.  A failure of the formatter,
in contrast, is returned as an error without files, also after a target that
was formatted. -/
theorem C23_rendering_failure_is_not_an_error :
    (NewRegistry.Load 2 Sample.reqPanic).map (fun p => p.2) = some none ∧
    [Sample.targetKept, Sample.targetPanic].map
        (fun file => (getString file.FileDescriptorProto.Name,
          file.Services.map (fun svc => svc.Methods.map
            (fun m => getString m.MethodDescriptorProto.InputType)))) =
      [("x/a.proto".toList, [[".a.T".toList]]), ("x/e.proto".toList, [[[]]])] ∧
    (∀ t, generateFrom Sample.targetPanic t = .error .sliceBoundsPanic) ∧
    (New Sample.regPanic false).Generate Sample.libPlain [Sample.targetKept] =
      .ok [⟨some "x/a.pb.http.go".toList, some "package a".toList⟩,
           ⟨some "x/a.pb.http.router.go".toList, some "package a // router".toList⟩] ∧
    (New Sample.regPanic false).Generate Sample.libPlain
        [Sample.targetKept, Sample.targetPanic] = .error .sliceBoundsPanic ∧
    (∀ (g : generator) (lib : Library) (done rest : List File) (file : File),
      (∀ f ∈ done, ∃ code text,
        generateFrom f lib.MinimalTemplate = .ok code ∧ lib.formatSource code = .ok text) →
      (∀ t, generateFrom file t = .error .sliceBoundsPanic) →
      g.Generate lib (done ++ file :: rest) = .error .sliceBoundsPanic) ∧
    (∀ (file : File) (t : Template) (err : GenError),
      generateFrom file t = .error err → err = .sliceBoundsPanic) ∧
    (New NewRegistry false).Generate Sample.libPicky [Sample.targetA, Sample.targetExample] =
      .error (.formatError "expected declaration".toList) := by
  have hpanic : ∀ t, generateFrom Sample.targetPanic t = .error .sliceBoundsPanic := by
    intro t
    have hnone : (templateInput Sample.targetPanic).toOption = none := by decide
    unfold generateFrom
    cases hi : templateInput Sample.targetPanic with
    | error e => rw [templateInput_error _ e hi]
    | ok info => simp [hi, Except.toOption] at hnone
  have hgen : ∀ (g : generator) (lib : Library) (done rest : List File) (file : File),
      (∀ f ∈ done, ∃ code text,
        generateFrom f lib.MinimalTemplate = .ok code ∧ lib.formatSource code = .ok text) →
      (∀ t, generateFrom file t = .error .sliceBoundsPanic) →
      g.Generate lib (done ++ file :: rest) = .error .sliceBoundsPanic := by
    intro g lib done rest file hdone hp
    unfold generator.Generate buildFiles
    rw [buildFilesLoop_panic lib .minimal done file rest [] hdone (hp _)]
  refine ⟨by decide, by decide, hpanic, rfl, ?_, hgen, generateFrom_error, rfl⟩
  exact hgen _ Sample.libPlain [Sample.targetKept] [] Sample.targetPanic
    (fun f hf => by
      simp only [List.mem_singleton] at hf
      subst hf
      exact ⟨_, _, rfl, rfl⟩) hpanic

end Descriptor
